import Mathlib

/-!
# Debug-location index of the JIT (`lib/jit_note.c`)

A shallow embedding of the note index of `lib/jit_note.c` and theorems about it.

Modelling conventions.

* Code addresses (`jit_uint8_t *`) are natural numbers.  Values of type
  `jit_int32_t`, `jit_word_t` and `int` that carry offsets, sizes and line
  numbers are integers; array lengths and array indices are natural numbers.
* Where the source converts a wider value to `jit_int32_t` or to `int`, the
  model applies `int32`, the value modulo `2^32` in `[-2^31, 2^31)`: to the
  pointer difference `code - note->code` that `_jit_get_note` stores in its
  `jit_int32_t offset`, and to the arguments `node->w.w` and
  `node->u.p - note->code` that `_jit_annotate` passes for the parameters
  `int lineno` and `jit_int32_t offset` of `_jit_set_note`.  The size of a
  region is a `jit_word_t` and is not converted.  Parameters and stored values
  that already have the type `jit_int32_t` range over all integers.
* A C array together with its `length` field is a list.  The two parallel
  arrays `linenos` and `offsets` of a `jit_line_t`, which share one `length`,
  are one list of `(offset, lineno)` records.  Allocation and the chunked
  growth of the arrays (`malloc`, `realloc`) are not modelled.
* `char *` names and files are strings; the file strings reach the index
  through the interning `jit_data`, so comparing the pointers is comparing the
  strings.  A `NULL` name is `none`.
* A function that can fail returns in `Except jit_fault`: a failed `assert`, a
  read of an array element at or beyond the length of the array, and a state
  that would expose an element that was never written are faults.  The loops
  recurse on a fuel argument that the callers set to the length of the searched
  array; running out of fuel is the fault `no_fuel`.
-/

namespace JitNote

/-- The ways in which a function of the model can fail to return. -/
inductive jit_fault where
  | assert_fail
  | bad_read
  | unset_slot
  | no_fuel
  deriving DecidableEq, Repr

/-- One index `i` of the parallel arrays of a `jit_line_t`:
`offsets[i]` and `linenos[i]`. -/
structure jit_entry_t where
  offset : Int
  lineno : Int
  deriving DecidableEq, Repr

/-- The C `jit_line_t`: a file and the entries `0 .. length - 1` of its
`offsets` and `linenos` arrays. -/
structure jit_line_t where
  file : String
  entries : List jit_entry_t
  deriving DecidableEq, Repr

/-- The C `jit_note_t`: `code`, `name`, the array `lines` of length `length`,
and `size`. -/
structure jit_note_t where
  code : Nat
  name : Option String
  lines : List jit_line_t
  size : Int
  deriving DecidableEq, Repr

/-- The two node codes that `_jit_name` and `_jit_note` put on the note list. -/
inductive jit_code_t where
  | jit_code_name
  | jit_code_note
  deriving DecidableEq, Repr

/-- A node of the list `_jit->note.head`: `u.p` is the code address of the
node, `v` the name or file (`none` for `NULL`), `w.w` the line number. -/
structure jit_node_t where
  code : jit_code_t
  u : Nat
  v : Option String
  w : Int
  deriving DecidableEq, Repr

/-- The part of `jit_state_t` that `jit_note.c` uses: the note array
`note.ptr` of length `note.length`, the node list `note.head`, and the current
code pointer `pc.uc`. -/
structure jit_state_t where
  note_ptr : List jit_note_t
  note_head : List jit_node_t
  pc_uc : Nat
  deriving DecidableEq, Repr

/-- What `_jit_get_note` stores through `name`, `file` and `lineno` when it
returns 1. -/
structure jit_location_t where
  name : Option String
  file : String
  lineno : Int
  deriving DecidableEq, Repr

/-- Equality of results is decidable. -/
instance instDecidableEqExcept {ε α : Type} [DecidableEq ε] [DecidableEq α] :
    DecidableEq (Except ε α)
  | .ok a, .ok b =>
    if h : a = b then isTrue (by rw [h]) else isFalse (fun h2 => h (Except.ok.inj h2))
  | .error a, .error b =>
    if h : a = b then isTrue (by rw [h]) else isFalse (fun h2 => h (Except.error.inj h2))
  | .ok _, .error _ => isFalse (fun h => Except.noConfusion h)
  | .error _, .ok _ => isFalse (fun h => Except.noConfusion h)

/-- The value of an integer after conversion to `jit_int32_t` or to `int`: the
integer in `[-2^31, 2^31)` that differs from it by a multiple of `2^32`, which
is what the compilers of the supported targets produce for a value that does
not fit (the C standard leaves that case to the implementation). -/
def int32 (x : Int) : Int :=
  (x + 2147483648) % 4294967296 - 2147483648

/-- The value `*lines[index].offsets`: the offset of the first entry of segment
`index`. -/
def line_start (lines : List jit_line_t) (index : Nat) : Except jit_fault Int :=
  match lines[index]? with
  | none => .error .bad_read
  | some line =>
    match line.entries[0]? with
    | none => .error .bad_read
    | some e => .ok e.offset

/-- The loop of `_note_search_index`. -/
def _note_search_index_loop (notes : List jit_note_t) (code : Nat) :
    Nat → Nat → Nat → Except jit_fault Nat
  | 0, bot, top => if bot < top then .error .no_fuel else .ok ((bot + top) / 2)
  | fuel + 1, bot, top =>
    if bot < top then
      let index := (bot + top) / 2
      match notes[index]? with
      | none => .error .bad_read
      | some n =>
        if code < n.code then
          _note_search_index_loop notes code fuel bot index
        else if code ≥ n.code ∧ (code : Int) - (n.code : Int) < n.size then
          .ok index
        else
          _note_search_index_loop notes code fuel (index + 1) top
    else .ok ((bot + top) / 2)

/-- The C `_note_search_index`. -/
def _note_search_index (jit : jit_state_t) (code : Nat) : Except jit_fault Nat :=
  _note_search_index_loop jit.note_ptr code jit.note_ptr.length 0 jit.note_ptr.length

/-- The loop of `line_insert_index`. -/
def line_insert_index_loop (lines : List jit_line_t) (offset : Int) :
    Nat → Nat → Nat → Except jit_fault Nat
  | 0, bot, top => if bot < top then .error .no_fuel else .ok ((bot + top) / 2)
  | fuel + 1, bot, top =>
    if bot < top then
      let index := (bot + top) / 2
      match line_start lines index with
      | .error e => .error e
      | .ok k =>
        if offset < k then
          line_insert_index_loop lines offset fuel bot index
        else
          line_insert_index_loop lines offset fuel (index + 1) top
    else .ok ((bot + top) / 2)

/-- The C `line_insert_index`. -/
def line_insert_index (note : jit_note_t) (offset : Int) : Except jit_fault Nat :=
  if note.lines.isEmpty then .ok 0
  else line_insert_index_loop note.lines offset note.lines.length 0 note.lines.length

/-- The loop of `line_search_index`; `index == note->length - 1` is written
`index + 1 = length`. -/
def line_search_index_loop (lines : List jit_line_t) (offset : Int) :
    Nat → Nat → Nat → Except jit_fault Nat
  | 0, bot, top => if bot < top then .error .no_fuel else .ok ((bot + top) / 2)
  | fuel + 1, bot, top =>
    if bot < top then
      let index := (bot + top) / 2
      match line_start lines index with
      | .error e => .error e
      | .ok k =>
        if offset < k then
          line_search_index_loop lines offset fuel bot index
        else if index + 1 = lines.length then
          .ok index
        else
          match line_start lines (index + 1) with
          | .error e => .error e
          | .ok k1 =>
            if offset ≥ k ∧ offset < k1 then .ok index
            else line_search_index_loop lines offset fuel (index + 1) top
    else .ok ((bot + top) / 2)

/-- The C `line_search_index`. -/
def line_search_index (note : jit_note_t) (offset : Int) : Except jit_fault Nat :=
  if note.lines.isEmpty then .ok 0
  else line_search_index_loop note.lines offset note.lines.length 0 note.lines.length

/-- The loop of `offset_insert_index`. -/
def offset_insert_index_loop (entries : List jit_entry_t) (offset : Int) :
    Nat → Nat → Nat → Except jit_fault Nat
  | 0, bot, top => if bot < top then .error .no_fuel else .ok ((bot + top) / 2)
  | fuel + 1, bot, top =>
    if bot < top then
      let index := (bot + top) / 2
      match entries[index]? with
      | none => .error .bad_read
      | some e =>
        if offset < e.offset then
          offset_insert_index_loop entries offset fuel bot index
        else
          offset_insert_index_loop entries offset fuel (index + 1) top
    else .ok ((bot + top) / 2)

/-- The C `offset_insert_index`. -/
def offset_insert_index (line : jit_line_t) (offset : Int) : Except jit_fault Nat :=
  offset_insert_index_loop line.entries offset line.entries.length 0 line.entries.length

/-- The loop of `offset_search_index`. -/
def offset_search_index_loop (entries : List jit_entry_t) (offset : Int) :
    Nat → Nat → Nat → Except jit_fault Nat
  | 0, bot, top => if bot < top then .error .no_fuel else .ok ((bot + top) / 2)
  | fuel + 1, bot, top =>
    if bot < top then
      let index := (bot + top) / 2
      match entries[index]? with
      | none => .error .bad_read
      | some e =>
        if offset < e.offset then
          offset_search_index_loop entries offset fuel bot index
        else if index + 1 = entries.length then
          .ok index
        else
          match entries[index + 1]? with
          | none => .error .bad_read
          | some e1 =>
            if offset ≥ e.offset ∧ offset < e1.offset then .ok index
            else offset_search_index_loop entries offset fuel (index + 1) top
    else .ok ((bot + top) / 2)

/-- The C `offset_search_index`. -/
def offset_search_index (line : jit_line_t) (offset : Int) : Except jit_fault Nat :=
  offset_search_index_loop line.entries offset line.entries.length 0 line.entries.length

/-- The C `new_line`: a segment with the single entry `(offset, lineno)` is put
at `index`, the segments from `index` on move one place up. -/
def new_line (index : Nat) (note : jit_note_t) (file : String) (lineno : Int)
    (offset : Int) : jit_note_t :=
  { note with
    lines := note.lines.take index ++
      { file := file, entries := [{ offset := offset, lineno := lineno }] } ::
        note.lines.drop index }

/-- The note with `note->lines[index]` replaced by `line`. -/
def set_line (note : jit_note_t) (index : Nat) (line : jit_line_t) : jit_note_t :=
  { note with lines := note.lines.set index line }

/-- The C `_jit_set_note`.  The guard of the shift is `index < note->length`,
the number of segments, as in the source; when it is false the entry at `index`
is overwritten and the slot that `++line->length` adds is never written. -/
def _jit_set_note (note : jit_note_t) (file : String) (lineno : Int) (offset : Int) :
    Except jit_fault jit_note_t :=
  match line_insert_index note offset with
  | .error e => .error e
  | .ok index =>
    match note.lines[index]? with
    | none => .ok (new_line index note file lineno offset)
    | some line =>
      if line.file ≠ file then .ok (new_line index note file lineno offset)
      else
        match offset_insert_index line offset with
        | .error e => .error e
        | .ok index1 =>
          match line.entries[index1]? with
          | none => .error .bad_read
          | some e =>
            if e.offset = offset then
              if e.lineno < lineno then
                .ok (set_line note index
                  { line with entries := line.entries.set index1 { e with lineno := lineno } })
              else .ok note
            else if e.lineno = lineno then
              if e.offset > offset then
                .ok (set_line note index
                  { line with entries := line.entries.set index1 { e with offset := offset } })
              else .ok note
            else if index1 < note.lines.length then
              .ok (set_line note index
                { line with entries := line.entries.take index1 ++
                    { offset := offset, lineno := lineno } :: line.entries.drop index1 })
            else .error .unset_slot

/-- The end of `_jit_get_note`, from `line = note->lines + index` on: the search
in the segment `line` and the stores through `name`, `file` and `lineno`. -/
def _jit_get_note_line (note : jit_note_t) (line : jit_line_t) (offset : Int) :
    Except jit_fault (Option jit_location_t) :=
  match offset_search_index line offset with
  | .error e => .error e
  | .ok index =>
    match line.entries[index]? with
    | none => .ok none
    | some e => .ok (some { name := note.name, file := line.file, lineno := e.lineno })

/-- The part of `_jit_get_note` that follows `note = _jit->note.ptr + index`:
the range check of `note` on the pointers, the offset `code - note->code`
stored in a `jit_int32_t`, the search of the segment, and the rest. -/
def _jit_get_note_at (note : jit_note_t) (code : Nat) :
    Except jit_fault (Option jit_location_t) :=
  if code < note.code ∨ (code : Int) ≥ (note.code : Int) + note.size then .ok none
  else
    let offset : Int := int32 ((code : Int) - (note.code : Int))
    match line_search_index note offset with
    | .error e => .error e
    | .ok index =>
      match note.lines[index]? with
      | none => .ok none
      | some line =>
        if index = 0 then
          match line_start note.lines 0 with
          | .error e => .error e
          | .ok first =>
            if offset < first then .ok none
            else _jit_get_note_line note line offset
        else _jit_get_note_line note line offset

/-- The C `_jit_get_note`; `none` is the return value 0. -/
def _jit_get_note (jit : jit_state_t) (code : Nat) :
    Except jit_fault (Option jit_location_t) :=
  match _note_search_index jit code with
  | .error e => .error e
  | .ok index =>
    match jit.note_ptr[index]? with
    | none => .ok none
    | some note => _jit_get_note_at note code

/-- The C `_new_note`: the result is the new note array and the index of the
new note in it. -/
def _new_note (notes : List jit_note_t) (code : Nat) (name : Option String) :
    Except jit_fault (List jit_note_t × Nat) :=
  let note : jit_note_t := { code := code, name := name, lines := [], size := 0 }
  match notes.getLast? with
  | none => .ok (notes ++ [note], notes.length)
  | some prev =>
    if code ≥ prev.code then
      .ok (notes.set (notes.length - 1) { prev with size := (code : Int) - (prev.code : Int) }
        ++ [note], notes.length)
    else .error .assert_fail

/-- The loop of `_jit_annotate` over the node list; the local `note` is the
index of the current note in the note array, `none` for `NULL`.  The arguments
`node->w.w` and `node->u.p - note->code` of `jit_set_note` are converted to
the parameter types `int` and `jit_int32_t`. -/
def _jit_annotate_loop :
    List jit_node_t → List jit_note_t → Option Nat →
      Except jit_fault (List jit_note_t × Option Nat)
  | [], notes, note => .ok (notes, note)
  | node :: link, notes, note =>
    match node.code with
    | .jit_code_name =>
      match _new_note notes node.u node.v with
      | .error e => .error e
      | .ok (notes1, i) => _jit_annotate_loop link notes1 (some i)
    | .jit_code_note =>
      match node.v with
      | none => _jit_annotate_loop link notes note
      | some file =>
        match (match note with
               | none => _new_note notes node.u none
               | some i => .ok (notes, i)) with
        | .error e => .error e
        | .ok (notes1, i) =>
          match notes1[i]? with
          | none => .error .bad_read
          | some n =>
            match _jit_set_note n file (int32 node.w)
                (int32 ((node.u : Int) - (n.code : Int))) with
            | .error e => .error e
            | .ok n1 => _jit_annotate_loop link (notes1.set i n1) (some i)

/-- The C `_jit_annotate`. -/
def _jit_annotate (jit : jit_state_t) : Except jit_fault jit_state_t :=
  match _jit_annotate_loop jit.note_head jit.note_ptr none with
  | .error e => .error e
  | .ok (notes, none) => .ok { jit with note_ptr := notes }
  | .ok (notes, some i) =>
    match notes[i]? with
    | none => .error .bad_read
    | some n =>
      .ok { jit with
        note_ptr := notes.set i { n with size := (jit.pc_uc : Int) - (n.code : Int) } }

/-! ## Definitions used to state and prove the properties -/

/-- The start offset of a segment: the offset of its first entry (0 for a
segment without entries, which the code never builds). -/
def seg_start (line : jit_line_t) : Int :=
  match line.entries with
  | [] => 0
  | e :: _ => e.offset

/-- The insertion loop of `line_insert_index` and `offset_insert_index` over a
plain list of keys. -/
def key_insert_loop (keys : List Int) (offset : Int) :
    Nat → Nat → Nat → Except jit_fault Nat
  | 0, bot, top => if bot < top then .error .no_fuel else .ok ((bot + top) / 2)
  | fuel + 1, bot, top =>
    if bot < top then
      let index := (bot + top) / 2
      match keys[index]? with
      | none => .error .bad_read
      | some k =>
        if offset < k then key_insert_loop keys offset fuel bot index
        else key_insert_loop keys offset fuel (index + 1) top
    else .ok ((bot + top) / 2)

/-- The search loop of `line_search_index` and `offset_search_index` over a
plain list of keys. -/
def key_search_loop (keys : List Int) (offset : Int) :
    Nat → Nat → Nat → Except jit_fault Nat
  | 0, bot, top => if bot < top then .error .no_fuel else .ok ((bot + top) / 2)
  | fuel + 1, bot, top =>
    if bot < top then
      let index := (bot + top) / 2
      match keys[index]? with
      | none => .error .bad_read
      | some k =>
        if offset < k then key_search_loop keys offset fuel bot index
        else if index + 1 = keys.length then .ok index
        else
          match keys[index + 1]? with
          | none => .error .bad_read
          | some k1 =>
            if offset ≥ k ∧ offset < k1 then .ok index
            else key_search_loop keys offset fuel (index + 1) top
    else .ok ((bot + top) / 2)

/-- Every segment of the list has at least one entry. -/
def lines_nonempty (lines : List jit_line_t) : Prop :=
  ∀ l ∈ lines, l.entries ≠ []

/-- The start offsets of the segments are in non-decreasing order. -/
def lines_sorted (lines : List jit_line_t) : Prop :=
  (lines.map seg_start).Pairwise (fun a b => a ≤ b)

/-- The offsets of the entries are in non-decreasing order. -/
def entries_sorted (entries : List jit_entry_t) : Prop :=
  (entries.map (fun e => e.offset)).Pairwise (fun a b => a ≤ b)

/-- Regions are ordered by start address and do not overlap: a region ends at
or before the start of every later region. -/
def notes_ordered (notes : List jit_note_t) : Prop :=
  notes.Pairwise (fun a b => a.code ≤ b.code ∧ (a.code : Int) + a.size ≤ (b.code : Int))

/-- The address lies in the half-open range `[code, code + size)` of the
region. -/
def note_contains (note : jit_note_t) (code : Nat) : Prop :=
  note.code ≤ code ∧ (code : Int) < (note.code : Int) + note.size

/-- Whether every segment has an entry can be computed. -/
instance instDecidableLinesNonempty (lines : List jit_line_t) :
    Decidable (lines_nonempty lines) := by
  unfold lines_nonempty
  infer_instance

/-- Whether the segment starts are sorted can be computed. -/
instance instDecidableLinesSorted (lines : List jit_line_t) :
    Decidable (lines_sorted lines) := by
  unfold lines_sorted
  infer_instance

/-- Whether the entry offsets are sorted can be computed. -/
instance instDecidableEntriesSorted (entries : List jit_entry_t) :
    Decidable (entries_sorted entries) := by
  unfold entries_sorted
  infer_instance

/-- Whether the regions are ordered can be computed. -/
instance instDecidableNotesOrdered (notes : List jit_note_t) :
    Decidable (notes_ordered notes) := by
  unfold notes_ordered
  infer_instance

/-- Whether a region contains an address can be computed. -/
instance instDecidableNoteContains (note : jit_note_t) (code : Nat) :
    Decidable (note_contains note code) := by
  unfold note_contains
  infer_instance

/-- The postcondition of the search loop, on any list of keys: the loop ends,
either at an index whose key is at most `offset` and which is the last index or
is followed by a larger key, or at index 0 when the list is empty or `offset`
is below the first key. -/
def key_search_post (keys : List Int) (offset : Int) (r : Nat) : Prop :=
  (∃ k, keys[r]? = some k ∧ k ≤ offset ∧
      (r + 1 = keys.length ∨ ∃ k1, keys[r + 1]? = some k1 ∧ offset < k1)) ∨
    (r = 0 ∧ (keys = [] ∨ ∃ k, keys[0]? = some k ∧ offset < k))

/-- The invariant of the search loop on its lower bound. -/
def key_search_bot (keys : List Int) (offset : Int) (bot : Nat) : Prop :=
  bot = 0 ∨ ∃ k, keys[bot]? = some k ∧ k ≤ offset

/-- The invariant of the search loop on its upper bound. -/
def key_search_top (keys : List Int) (offset : Int) (top : Nat) : Prop :=
  top = keys.length ∨ ∃ k, keys[top]? = some k ∧ offset < k

/-- The segment that `new_line` builds: `file` with the single entry
`(offset, lineno)`. -/
def single_line (file : String) (lineno : Int) (offset : Int) : jit_line_t :=
  { file := file, entries := [{ offset := offset, lineno := lineno }] }

/-- The arguments of one call of `_jit_set_note` on a region. -/
structure jit_mark_t where
  file : String
  lineno : Int
  offset : Int
  deriving DecidableEq, Repr

/-- The calls `_jit_set_note(note, file, lineno, offset)` of a list of marks,
one after the other, on a region. -/
def set_notes (note : jit_note_t) : List jit_mark_t → Except jit_fault jit_note_t
  | [] => .ok note
  | m :: ms =>
    match _jit_set_note note m.file m.lineno m.offset with
    | .error e => .error e
    | .ok note1 => set_notes note1 ms

/-- The number of entries stored in a region, over all its segments. -/
def total_entries (note : jit_note_t) : Nat :=
  (note.lines.map (fun l => l.entries.length)).sum

/-- The number of maximal runs of consecutive identical line numbers of a
sequence, after the words of the specification. -/
def run_count : List Int → Nat
  | [] => 0
  | [_] => 1
  | a :: b :: rest => (if a = b then 0 else 1) + run_count (b :: rest)

/-- A region `[0x1000, 0x1100)` named `a` with two segments. -/
def region_a : jit_note_t :=
  { code := 0x1000, name := some "a", size := 0x100,
    lines := [{ file := "a.scm", entries := [⟨0, 10⟩, ⟨8, 12⟩, ⟨24, 11⟩] },
              { file := "lib.scm", entries := [⟨64, 3⟩, ⟨80, 4⟩] }] }

/-- A region `[0x1100, 0x1200)` named `b` whose only segment starts at offset 16. -/
def region_b : jit_note_t :=
  { code := 0x1100, name := some "b", size := 0x100,
    lines := [{ file := "b.scm", entries := [⟨16, 7⟩] }] }

/-- An index with the two regions `region_a` and `region_b`. -/
def two_regions : jit_state_t :=
  { note_ptr := [region_a, region_b], note_head := [], pc_uc := 0x1200 }

/-- A node list with marks at distinct addresses inside one region: region
`fib` at `0x1000`, marks at `0x1000` and `0x1008`, end of code `0x1010`. -/
def fib_build : jit_state_t :=
  { note_ptr := [],
    note_head := [⟨.jit_code_name, 0x1000, some "fib", 0⟩,
      ⟨.jit_code_note, 0x1000, some "fib.scm", 3⟩, ⟨.jit_code_note, 0x1008, some "fib.scm", 4⟩],
    pc_uc := 0x1010 }

/-- The node list of the scenario of two adjacent regions: region `a` at
`0x1000` and region `b` at `0x1100`, each with a mark at its first address, end
of code `0x1200`. -/
def ab_build : jit_state_t :=
  { note_ptr := [],
    note_head := [⟨.jit_code_name, 0x1000, some "a", 0⟩,
      ⟨.jit_code_note, 0x1000, some "a.scm", 1⟩,
      ⟨.jit_code_name, 0x1100, some "b", 0⟩,
      ⟨.jit_code_note, 0x1100, some "b.scm", 1⟩],
    pc_uc := 0x1200 }

/-- The node list of the scenario of a revisited offset: region `fib` at
`0x1000`, marks of `fib.scm` for line 3 at offset 0, line 4 at offset 8 and
line 3 at offset 8 again, end of code `0x1010`. -/
def fib_revisit_build : jit_state_t :=
  { note_ptr := [],
    note_head := [⟨.jit_code_name, 0x1000, some "fib", 0⟩,
      ⟨.jit_code_note, 0x1000, some "fib.scm", 3⟩, ⟨.jit_code_note, 0x1008, some "fib.scm", 4⟩,
      ⟨.jit_code_note, 0x1008, some "fib.scm", 3⟩],
    pc_uc := 0x1010 }

/-- The region `fib` at `0x1000` as `_new_note` creates it, without segments. -/
def fib_region : jit_note_t :=
  { code := 0x1000, name := some "fib", lines := [], size := 0 }

/-- The offsets of the entries are strictly increasing. -/
def entries_strict (entries : List jit_entry_t) : Prop :=
  (entries.map (fun e => e.offset)).Pairwise (fun a b => a < b)

/-- The segment-order predicate of a region: every segment has an entry, the
start offsets of the segments are non-decreasing along the list, and the entry
offsets are strictly increasing inside each segment. -/
def segments_ok (lines : List jit_line_t) : Prop :=
  lines_nonempty lines ∧ lines_sorted lines ∧ ∀ l ∈ lines, entries_strict l.entries

/-- Whether the entry offsets are strictly increasing can be computed. -/
instance instDecidableEntriesStrict (entries : List jit_entry_t) :
    Decidable (entries_strict entries) := by
  unfold entries_strict
  infer_instance

/-- Whether the segment-order predicate holds can be computed. -/
instance instDecidableSegmentsOk (lines : List jit_line_t) :
    Decidable (segments_ok lines) := by
  unfold segments_ok
  infer_instance

/-- The start address of the region that is current after the nodes of a node
list have been processed, `s` being the start of the region that was current
before (`none` without a current region): a name node begins a region at its
address, and so does a note node with a file when there is no current
region. -/
def last_region_start : List jit_node_t → Option Nat → Option Nat
  | [], s => s
  | node :: link, s =>
    match node.code with
    | .jit_code_name => last_region_start link (some node.u)
    | .jit_code_note =>
      match node.v, s with
      | some _, none => last_region_start link (some node.u)
      | _, _ => last_region_start link s

/-- Consecutive regions are contiguous: a region ends where the next one
starts. -/
def notes_contiguous (notes : List jit_note_t) : Prop :=
  ∀ (i : Nat) (a b : jit_note_t), notes[i]? = some a → notes[i + 1]? = some b →
    (a.code : Int) + a.size = (b.code : Int)

/-- The invariant of the loop of `_jit_annotate` on any node list, `s` being
the start of the current region: without a current note the index is empty;
otherwise the current note is the last one and starts at `s`, and the regions
are ordered and contiguous. -/
def region_inv (notes : List jit_note_t) (note : Option Nat) (s : Option Nat) : Prop :=
  match note with
  | none => notes = [] ∧ s = none
  | some i =>
    ∃ init last, notes = init ++ [last] ∧ i = init.length ∧ s = some last.code ∧
      notes_ordered notes ∧ notes_contiguous notes

/-- A node list with a location mark below the address of the mark before it:
region `f` at `0x1000`, marks at `0x1010` and then at `0x1008`. -/
def mark_back_build : jit_state_t :=
  { note_ptr := [],
    note_head := [⟨.jit_code_name, 0x1000, some "f", 0⟩,
      ⟨.jit_code_note, 0x1010, some "f.scm", 1⟩, ⟨.jit_code_note, 0x1008, some "f.scm", 2⟩],
    pc_uc := 0x1020 }

/-- A node list with a region begun below the address of the mark before it,
but above the start of the region before it: region `f` at `0x1000`, a mark at
`0x1010`, region `g` at `0x1008`. -/
def name_back_build : jit_state_t :=
  { note_ptr := [],
    note_head := [⟨.jit_code_name, 0x1000, some "f", 0⟩,
      ⟨.jit_code_note, 0x1010, some "f.scm", 1⟩, ⟨.jit_code_name, 0x1008, some "g", 0⟩],
    pc_uc := 0x1020 }

/-- A node list with a region begun below the start of the region before it:
region `f` at `0x1100` with a mark, then region `g` at `0x1000`. -/
def region_back_build : jit_state_t :=
  { note_ptr := [],
    note_head := [⟨.jit_code_name, 0x1100, some "f", 0⟩,
      ⟨.jit_code_note, 0x1100, some "f.scm", 1⟩, ⟨.jit_code_name, 0x1000, some "g", 0⟩],
    pc_uc := 0x1200 }

/-- The invariant of the insertion loop on its lower bound: the key before
`bot`, when there is one, is at most `offset`. -/
def key_insert_below (keys : List Int) (offset : Int) (bot : Nat) : Prop :=
  ∀ k, 0 < bot → keys[bot - 1]? = some k → k ≤ offset

/-- The invariant of the insertion loop on its upper bound: the key at `top`,
when there is one, is above `offset`. -/
def key_insert_above (keys : List Int) (offset : Int) (top : Nat) : Prop :=
  ∀ k, keys[top]? = some k → offset < k

/-- A node list that begins two regions at one address: regions `f` and `g` at
`0x1000`, region `h` at `0x1100`, end of code `0x1200`. -/
def same_start_build : jit_state_t :=
  { note_ptr := [],
    note_head := [⟨.jit_code_name, 0x1000, some "f", 0⟩,
      ⟨.jit_code_name, 0x1000, some "g", 0⟩, ⟨.jit_code_name, 0x1100, some "h", 0⟩],
    pc_uc := 0x1200 }

/-- A node list without a name node: a mark without a file at `0x0ff0`, then
marks of `a.scm` at `0x1000` and at `0x1010`, end of code `0x1020`. -/
def two_marks_build : jit_state_t :=
  { note_ptr := [],
    note_head := [⟨.jit_code_note, 0x0ff0, none, 9⟩,
      ⟨.jit_code_note, 0x1000, some "a.scm", 1⟩, ⟨.jit_code_note, 0x1010, some "a.scm", 2⟩],
    pc_uc := 0x1020 }

/-- The index that `_jit_annotate` builds from `two_marks_build`: one region
without a name at `0x1000` that holds both marks. -/
def two_marks_built : jit_state_t :=
  { note_ptr := [⟨0x1000, none, [single_line "a.scm" 1 0, single_line "a.scm" 2 0x10], 0x20⟩],
    note_head := two_marks_build.note_head,
    pc_uc := 0x1020 }

/-- The index that `_jit_annotate` builds from `same_start_build`: the regions
`f` of size zero, `g` and `h`, none with a segment. -/
def same_start_built : jit_state_t :=
  { note_ptr := [⟨0x1000, some "f", [], 0⟩, ⟨0x1000, some "g", [], 0x100⟩,
      ⟨0x1100, some "h", [], 0x100⟩],
    note_head := same_start_build.note_head,
    pc_uc := 0x1200 }

/-- The invariant of the loop of `_jit_annotate` that makes it return on a node
list in non-decreasing order of addresses, `lo` being the address of the last
node seen: without a current note the index is empty; otherwise the current
note is the last one, it starts at or below `lo`, and its segments satisfy the
segment-order predicate. -/
def returns_inv (notes : List jit_note_t) (note : Option Nat) (lo : Nat) : Prop :=
  match note with
  | none => notes = []
  | some i =>
    ∃ init last, notes = init ++ [last] ∧ i = init.length ∧ last.code ≤ lo ∧
      segments_ok last.lines

/-- A region `[0x1000, 0x100001100)` named `w`, larger than `2^32` bytes, with
one segment of `w.scm` that holds the entries `(0, 1)` and `(16, 2)`. -/
def wide_region : jit_note_t :=
  { code := 0x1000, name := some "w", size := 0x100000100,
    lines := [{ file := "w.scm", entries := [⟨0, 1⟩, ⟨16, 2⟩] }] }

/-- An index with the one region `wide_region`. -/
def wide_index : jit_state_t :=
  { note_ptr := [wide_region], note_head := [], pc_uc := 0x100001100 }

theorem int32_of_fits (x : Int) (h1 : -2147483648 ≤ x) (h2 : x < 2147483648) :
    int32 x = x := by
  unfold int32
  omega

theorem int32_le_of_nonneg (x : Int) (h : 0 ≤ x) : int32 x ≤ x := by
  unfold int32
  omega

theorem int32_range (x : Int) : -2147483648 ≤ int32 x ∧ int32 x < 2147483648 := by
  unfold int32
  omega

theorem int32_zero : int32 0 = 0 := by
  decide

/-! ## The binary searches -/

theorem line_start_eq (lines : List jit_line_t) (h : lines_nonempty lines) (i : Nat) :
    line_start lines i =
      match (lines.map seg_start)[i]? with
      | none => .error .bad_read
      | some k => .ok k := by
  unfold line_start
  rw [List.getElem?_map]
  cases hl : lines[i]? with
  | none => simp
  | some l =>
    have hm : l ∈ lines := List.getElem?_mem hl
    have hne := h l hm
    cases he : l.entries with
    | nil => exact absurd he hne
    | cons e es => simp [seg_start, he]

theorem line_insert_index_loop_eq (lines : List jit_line_t) (h : lines_nonempty lines)
    (offset : Int) : ∀ fuel bot top,
    line_insert_index_loop lines offset fuel bot top =
      key_insert_loop (lines.map seg_start) offset fuel bot top := by
  intro fuel
  induction fuel with
  | zero => intro bot top; rfl
  | succ n ih =>
    intro bot top
    simp only [line_insert_index_loop, key_insert_loop, line_start_eq lines h]
    split
    · cases (lines.map seg_start)[(bot + top) / 2]? with
      | none => rfl
      | some k => simp only [ih]
    · rfl

theorem offset_insert_index_loop_eq (entries : List jit_entry_t) (offset : Int) :
    ∀ fuel bot top,
    offset_insert_index_loop entries offset fuel bot top =
      key_insert_loop (entries.map (fun e => e.offset)) offset fuel bot top := by
  intro fuel
  induction fuel with
  | zero => intro bot top; rfl
  | succ n ih =>
    intro bot top
    simp only [offset_insert_index_loop, key_insert_loop, List.getElem?_map]
    split
    · cases entries[(bot + top) / 2]? with
      | none => rfl
      | some e => simp only [ih, Option.map]
    · rfl

theorem line_search_index_loop_eq (lines : List jit_line_t) (h : lines_nonempty lines)
    (offset : Int) : ∀ fuel bot top,
    line_search_index_loop lines offset fuel bot top =
      key_search_loop (lines.map seg_start) offset fuel bot top := by
  intro fuel
  induction fuel with
  | zero => intro bot top; rfl
  | succ n ih =>
    intro bot top
    simp only [line_search_index_loop, key_search_loop, line_start_eq lines h, List.length_map]
    split
    · cases (lines.map seg_start)[(bot + top) / 2]? with
      | none => rfl
      | some k =>
        cases (lines.map seg_start)[(bot + top) / 2 + 1]? with
        | none => simp only [ih]
        | some k1 => simp only [ih]
    · rfl

theorem offset_search_index_loop_eq (entries : List jit_entry_t) (offset : Int) :
    ∀ fuel bot top,
    offset_search_index_loop entries offset fuel bot top =
      key_search_loop (entries.map (fun e => e.offset)) offset fuel bot top := by
  intro fuel
  induction fuel with
  | zero => intro bot top; rfl
  | succ n ih =>
    intro bot top
    simp only [offset_search_index_loop, key_search_loop, List.getElem?_map, List.length_map]
    split
    · cases entries[(bot + top) / 2]? with
      | none => rfl
      | some e =>
        cases entries[(bot + top) / 2 + 1]? with
        | none => simp only [ih, Option.map]
        | some e1 => simp only [ih, Option.map]
    · rfl

theorem key_insert_loop_all_le (keys : List Int) (offset : Int)
    (h : ∀ k ∈ keys, k ≤ offset) : ∀ fuel bot top,
    top = keys.length → bot ≤ top → top - bot ≤ fuel →
      key_insert_loop keys offset fuel bot top = .ok keys.length := by
  intro fuel
  induction fuel with
  | zero =>
    intro bot top ht hb hf
    have hbt : bot = top := by omega
    simp only [key_insert_loop]
    rw [if_neg (by omega)]
    congr 1
    omega
  | succ n ih =>
    intro bot top ht hb hf
    simp only [key_insert_loop]
    by_cases hlt : bot < top
    · rw [if_pos hlt]
      have hi : (bot + top) / 2 < keys.length := by omega
      rw [List.getElem?_eq_getElem hi]
      have hk : keys[(bot + top) / 2] ≤ offset := h _ (List.getElem_mem _)
      simp only []
      rw [if_neg (by omega)]
      exact ih _ _ ht (by omega) (by omega)
    · rw [if_neg hlt]
      congr 1
      omega

theorem key_search_exit (keys : List Int) (offset : Int) (bot : Nat)
    (hib : key_search_bot keys offset bot) (hit : key_search_top keys offset bot) :
    key_search_post keys offset bot := by
  unfold key_search_bot at hib
  unfold key_search_top at hit
  rcases hib with h0 | ⟨k, hk, hle⟩
  · right
    refine ⟨h0, ?_⟩
    rcases hit with hl | ⟨k, hk, hlt⟩
    · left
      exact List.length_eq_zero.mp (by rw [← hl, h0])
    · right
      exact ⟨k, by rw [← h0]; exact hk, hlt⟩
  · rcases hit with hl | ⟨k1, hk1, hlt⟩
    · have hlen := (List.getElem?_eq_some_iff.mp hk).1
      exact absurd hl (Nat.ne_of_lt hlen)
    · rw [hk] at hk1
      cases hk1
      exact absurd hlt (not_lt.mpr hle)

theorem key_search_loop_post (keys : List Int) (offset : Int) : ∀ fuel bot top,
    top - bot ≤ fuel → bot ≤ top → top ≤ keys.length →
    key_search_bot keys offset bot → key_search_top keys offset top →
      ∃ r, key_search_loop keys offset fuel bot top = .ok r ∧ key_search_post keys offset r := by
  intro fuel
  induction fuel with
  | zero =>
    intro bot top hf hb ht hib hit
    have hbt : bot = top := by omega
    subst hbt
    have hr : (bot + bot) / 2 = bot := by omega
    refine ⟨bot, ?_, key_search_exit keys offset bot hib hit⟩
    simp [key_search_loop, hr]
  | succ n ih =>
    intro bot top hf hb ht hib hit
    by_cases hlt : bot < top
    · simp only [key_search_loop]
      rw [if_pos hlt]
      have hi : (bot + top) / 2 < keys.length := by omega
      rw [List.getElem?_eq_getElem hi]
      simp only []
      by_cases hc : offset < keys[(bot + top) / 2]
      · rw [if_pos hc]
        exact ih _ _ (by omega) (by omega) (by omega) hib
          (Or.inr ⟨_, List.getElem?_eq_getElem hi, hc⟩)
      · rw [if_neg hc]
        by_cases hlast : (bot + top) / 2 + 1 = keys.length
        · rw [if_pos hlast]
          exact ⟨_, rfl, Or.inl ⟨_, List.getElem?_eq_getElem hi, by omega, Or.inl hlast⟩⟩
        · rw [if_neg hlast]
          have hi1 : (bot + top) / 2 + 1 < keys.length := by omega
          rw [List.getElem?_eq_getElem hi1]
          simp only []
          by_cases hc1 : offset ≥ keys[(bot + top) / 2] ∧ offset < keys[(bot + top) / 2 + 1]
          · rw [if_pos hc1]
            exact ⟨_, rfl, Or.inl ⟨_, List.getElem?_eq_getElem hi, by omega,
              Or.inr ⟨_, List.getElem?_eq_getElem hi1, hc1.2⟩⟩⟩
          · rw [if_neg hc1]
            exact ih _ _ (by omega) (by omega) (by omega)
              (Or.inr ⟨_, List.getElem?_eq_getElem hi1, by omega⟩) hit
    · have hbt : bot = top := by omega
      subst hbt
      have hr : (bot + bot) / 2 = bot := by omega
      refine ⟨bot, ?_, key_search_exit keys offset bot hib hit⟩
      simp [key_search_loop, hr]

theorem key_search_post_of_sorted (keys : List Int) (offset : Int) (r : Nat)
    (hs : keys.Pairwise (fun a b => a ≤ b)) (k0 : Int) (h0 : keys[0]? = some k0)
    (hle : k0 ≤ offset) (hp : key_search_post keys offset r) :
    ∃ k, keys[r]? = some k ∧ k ≤ offset ∧
      ∀ i ki, r < i → keys[i]? = some ki → offset < ki := by
  rcases hp with ⟨k, hk, hko, hnext⟩ | ⟨_, hemp | ⟨k, hk, hlt⟩⟩
  · refine ⟨k, hk, hko, ?_⟩
    intro i ki hri hi
    have hil := (List.getElem?_eq_some_iff.mp hi).1
    rcases hnext with hl | ⟨k1, hk1, hlt⟩
    · omega
    · obtain ⟨h1, e1⟩ := List.getElem?_eq_some_iff.mp hk1
      obtain ⟨h2, e2⟩ := List.getElem?_eq_some_iff.mp hi
      by_cases heq : i = r + 1
      · subst heq
        rw [e1] at e2
        omega
      · have := (List.pairwise_iff_getElem.mp hs) (r + 1) i h1 h2 (by omega)
        rw [e1, e2] at this
        omega
  · rw [hemp] at h0
    simp at h0
  · rw [h0] at hk
    cases hk
    omega

theorem note_search_loop_total (notes : List jit_note_t) (code : Nat) : ∀ fuel bot top,
    top - bot ≤ fuel → top ≤ notes.length →
      ∃ r, _note_search_index_loop notes code fuel bot top = .ok r := by
  intro fuel
  induction fuel with
  | zero =>
    intro bot top hf ht
    exact ⟨(bot + top) / 2, by simp only [_note_search_index_loop]; rw [if_neg (by omega)]⟩
  | succ n ih =>
    intro bot top hf ht
    simp only [_note_search_index_loop]
    by_cases hlt : bot < top
    · rw [if_pos hlt]
      have hi : (bot + top) / 2 < notes.length := by omega
      rw [List.getElem?_eq_getElem hi]
      simp only []
      split
      · exact ih _ _ (by omega) (by omega)
      · split
        · exact ⟨_, rfl⟩
        · exact ih _ _ (by omega) ht
    · rw [if_neg hlt]
      exact ⟨_, rfl⟩

theorem note_search_loop_finds (notes : List jit_note_t) (code : Nat)
    (ho : notes_ordered notes) (k : Nat) (nk : jit_note_t) (hk : notes[k]? = some nk)
    (hc : note_contains nk code) : ∀ fuel bot top,
    top - bot ≤ fuel → bot ≤ k → k < top → top ≤ notes.length →
      _note_search_index_loop notes code fuel bot top = .ok k := by
  obtain ⟨hkl, hke⟩ := List.getElem?_eq_some_iff.mp hk
  have hpw := List.pairwise_iff_getElem.mp ho
  unfold note_contains at hc
  intro fuel
  induction fuel with
  | zero => intro bot top hf hb hkt ht; omega
  | succ n ih =>
    intro bot top hf hb hkt ht
    simp only [_note_search_index_loop]
    rw [if_pos (by omega)]
    have hi : (bot + top) / 2 < notes.length := by omega
    rw [List.getElem?_eq_getElem hi]
    simp only []
    rcases Nat.lt_trichotomy ((bot + top) / 2) k with hlt | heq | hgt
    · have h1 := hpw _ _ hi hkl hlt
      rw [hke] at h1
      rw [if_neg (by omega), if_neg (by omega)]
      exact ih _ _ (by omega) (by omega) hkt ht
    · have hn : notes[(bot + top) / 2] = nk := by rw [← hke]; congr 1
      rw [hn, if_neg (by omega), if_pos ⟨by omega, by omega⟩, heq]
    · have h1 := hpw _ _ hkl hi hgt
      rw [hke] at h1
      by_cases hc1 : code < notes[(bot + top) / 2].code
      · rw [if_pos hc1]
        exact ih _ _ (by omega) hb (by omega) (by omega)
      · omega

theorem note_search_index_finds (jit : jit_state_t) (code : Nat)
    (ho : notes_ordered jit.note_ptr) (k : Nat) (nk : jit_note_t)
    (hk : jit.note_ptr[k]? = some nk) (hc : note_contains nk code) :
    _note_search_index jit code = .ok k :=
  note_search_loop_finds jit.note_ptr code ho k nk hk hc _ 0 _ (by omega) (by omega)
    (List.getElem?_eq_some_iff.mp hk).1 (le_refl _)

theorem get_note_of_contains (jit : jit_state_t) (code : Nat)
    (ho : notes_ordered jit.note_ptr) (k : Nat) (nk : jit_note_t)
    (hk : jit.note_ptr[k]? = some nk) (hc : note_contains nk code) :
    _jit_get_note jit code = _jit_get_note_at nk code := by
  unfold _jit_get_note
  rw [note_search_index_finds jit code ho k nk hk hc]
  simp only [hk]

theorem get_note_at_outside (note : jit_note_t) (code : Nat) (h : ¬ note_contains note code) :
    _jit_get_note_at note code = .ok none := by
  unfold _jit_get_note_at
  unfold note_contains at h
  rw [if_pos (by omega)]

theorem get_note_outside (jit : jit_state_t) (code : Nat)
    (h : ∀ n ∈ jit.note_ptr, ¬ note_contains n code) :
    _jit_get_note jit code = .ok none := by
  unfold _jit_get_note _note_search_index
  obtain ⟨r, hr⟩ := note_search_loop_total jit.note_ptr code jit.note_ptr.length 0
    jit.note_ptr.length (by omega) (le_refl _)
  rw [hr]
  simp only []
  cases hn : jit.note_ptr[r]? with
  | none => rfl
  | some note => exact get_note_at_outside note code (h note (List.getElem?_mem hn))

theorem line_search_index_spec (note : jit_note_t) (q : Int)
    (hne : lines_nonempty note.lines) :
    ∃ r, line_search_index note q = .ok r ∧
      key_search_post (note.lines.map seg_start) q r := by
  unfold line_search_index
  by_cases hemp : note.lines.isEmpty = true
  · rw [if_pos hemp]
    refine ⟨0, rfl, Or.inr ⟨rfl, Or.inl ?_⟩⟩
    rw [List.isEmpty_iff.mp hemp]
    rfl
  · rw [if_neg hemp, line_search_index_loop_eq note.lines hne]
    have h := key_search_loop_post (note.lines.map seg_start) q note.lines.length 0
      note.lines.length (by omega) (by omega) (by simp) (Or.inl rfl) (Or.inl (by simp))
    exact h

theorem offset_search_index_spec (line : jit_line_t) (q : Int) :
    ∃ r, offset_search_index line q = .ok r ∧
      key_search_post (line.entries.map (fun e => e.offset)) q r := by
  unfold offset_search_index
  rw [offset_search_index_loop_eq]
  exact key_search_loop_post (line.entries.map (fun e => e.offset)) q line.entries.length 0
    line.entries.length (by omega) (by omega) (by simp) (Or.inl rfl) (Or.inl (by simp))

theorem seg_start_eq (line : jit_line_t) (e0 : jit_entry_t) (h : line.entries[0]? = some e0) :
    seg_start line = e0.offset := by
  unfold seg_start
  cases he : line.entries with
  | nil => rw [he] at h; simp at h
  | cons e es =>
    rw [he] at h
    simp at h
    simp [h]

theorem get_note_line_found (note : jit_note_t) (line : jit_line_t) (q : Int)
    (hs : entries_sorted line.entries) (e0 : jit_entry_t) (h0 : line.entries[0]? = some e0)
    (hle : e0.offset ≤ q) :
    ∃ (j : Nat) (e : jit_entry_t), line.entries[j]? = some e ∧ e.offset ≤ q ∧
      (∀ (j1 : Nat) (e1 : jit_entry_t), j < j1 → line.entries[j1]? = some e1 →
        q < e1.offset) ∧
      _jit_get_note_line note line q =
        .ok (some { name := note.name, file := line.file, lineno := e.lineno }) := by
  obtain ⟨r, hr, hp⟩ := offset_search_index_spec line q
  have h0k : (line.entries.map (fun e => e.offset))[0]? = some e0.offset := by
    rw [List.getElem?_map, h0]; rfl
  obtain ⟨k, hk, hkq, hlast⟩ :=
    key_search_post_of_sorted _ q r hs e0.offset h0k hle hp
  rw [List.getElem?_map] at hk
  cases he : line.entries[r]? with
  | none => rw [he] at hk; simp at hk
  | some e =>
    rw [he] at hk
    simp only [Option.map, Option.some.injEq] at hk
    refine ⟨r, e, he, by omega, ?_, ?_⟩
    · intro j1 e1 hj h1
      exact hlast j1 e1.offset hj (by rw [List.getElem?_map, h1]; rfl)
    · unfold _jit_get_note_line
      rw [hr]
      simp only [he]

theorem get_note_at_found (note : jit_note_t) (code : Nat) (hc : note_contains note code)
    (hne : lines_nonempty note.lines) (hs : lines_sorted note.lines)
    (hes : ∀ l ∈ note.lines, entries_sorted l.entries)
    (l0 : jit_line_t) (hl0 : note.lines[0]? = some l0)
    (hq : seg_start l0 ≤ int32 ((code : Int) - (note.code : Int))) :
    ∃ (i : Nat) (line : jit_line_t) (j : Nat) (e : jit_entry_t),
      note.lines[i]? = some line ∧
      seg_start line ≤ int32 ((code : Int) - (note.code : Int)) ∧
      (∀ (i1 : Nat) (l1 : jit_line_t), i < i1 → note.lines[i1]? = some l1 →
        int32 ((code : Int) - (note.code : Int)) < seg_start l1) ∧
      line.entries[j]? = some e ∧ e.offset ≤ int32 ((code : Int) - (note.code : Int)) ∧
      (∀ (j1 : Nat) (e1 : jit_entry_t), j < j1 → line.entries[j1]? = some e1 →
        int32 ((code : Int) - (note.code : Int)) < e1.offset) ∧
      _jit_get_note_at note code =
        .ok (some { name := note.name, file := line.file, lineno := e.lineno }) := by
  obtain ⟨r, hr, hp⟩ := line_search_index_spec note (int32 ((code : Int) - (note.code : Int))) hne
  have h0k : (note.lines.map seg_start)[0]? = some (seg_start l0) := by
    rw [List.getElem?_map, hl0]; rfl
  obtain ⟨k, hk, hkq, hlast⟩ :=
    key_search_post_of_sorted _ _ r hs (seg_start l0) h0k hq hp
  rw [List.getElem?_map] at hk
  cases hl : note.lines[r]? with
  | none => rw [hl] at hk; simp at hk
  | some line =>
    rw [hl] at hk
    simp only [Option.map, Option.some.injEq] at hk
    have hmem : line ∈ note.lines := List.getElem?_mem hl
    have hnel := hne line hmem
    obtain ⟨e0, he0⟩ : ∃ e0, line.entries[0]? = some e0 := by
      cases hent : line.entries with
      | nil => exact absurd hent hnel
      | cons a as => exact ⟨a, by simp⟩
    have hst := seg_start_eq line e0 he0
    obtain ⟨j, e, hje, heq, hjlast, hres⟩ :=
      get_note_line_found note line (int32 ((code : Int) - (note.code : Int))) (hes line hmem) e0 he0
        (by omega)
    refine ⟨r, line, j, e, hl, by omega, ?_, hje, heq, hjlast, ?_⟩
    · intro i1 l1 hi h1
      exact hlast i1 (seg_start l1) hi (by rw [List.getElem?_map, h1]; rfl)
    · unfold _jit_get_note_at
      unfold note_contains at hc
      rw [if_neg (by omega)]
      simp only [hr, hl]
      by_cases hr0 : r = 0
      · rw [if_pos hr0]
        subst hr0
        rw [line_start_eq note.lines hne, h0k]
        simp only []
        rw [hl] at hl0
        cases hl0
        rw [if_neg (by omega)]
        exact hres
      · rw [if_neg hr0]
        exact hres

theorem get_note_at_before (note : jit_note_t) (code : Nat)
    (hne : lines_nonempty note.lines) (hs : lines_sorted note.lines)
    (l0 : jit_line_t) (hl0 : note.lines[0]? = some l0)
    (hq : int32 ((code : Int) - (note.code : Int)) < seg_start l0) :
    _jit_get_note_at note code = .ok none := by
  unfold _jit_get_note_at
  split
  · rfl
  · obtain ⟨r, hr, hp⟩ := line_search_index_spec note (int32 ((code : Int) - (note.code : Int))) hne
    have h0k : (note.lines.map seg_start)[0]? = some (seg_start l0) := by
      rw [List.getElem?_map, hl0]; rfl
    have hr0 : r = 0 := by
      rcases hp with ⟨k, hk, hkq, _⟩ | ⟨h, _⟩
      · by_contra hne0
        obtain ⟨h1, e1⟩ := List.getElem?_eq_some_iff.mp hk
        obtain ⟨h2, e2⟩ := List.getElem?_eq_some_iff.mp h0k
        have := (List.pairwise_iff_getElem.mp hs) 0 r h2 h1 (by omega)
        rw [e1, e2] at this
        omega
      · exact h
    subst hr0
    simp only [hr, hl0]
    rw [if_pos trivial, line_start_eq note.lines hne, h0k]
    simp only []
    rw [if_pos hq]

/-! ## Recording locations in non-decreasing order -/

theorem line_insert_index_all_le (note : jit_note_t) (offset : Int)
    (hne : lines_nonempty note.lines) (hle : ∀ l ∈ note.lines, seg_start l ≤ offset) :
    line_insert_index note offset = .ok note.lines.length := by
  unfold line_insert_index
  by_cases hemp : note.lines.isEmpty = true
  · rw [if_pos hemp, List.isEmpty_iff.mp hemp]
    rfl
  · rw [if_neg hemp, line_insert_index_loop_eq note.lines hne]
    have h := key_insert_loop_all_le (note.lines.map seg_start) offset
      (by
        intro k hk
        obtain ⟨l, hl, rfl⟩ := List.mem_map.mp hk
        exact hle l hl)
      note.lines.length 0 note.lines.length (by simp) (by omega) (by omega)
    rw [h, List.length_map]

theorem set_note_append (note : jit_note_t) (file : String) (lineno offset : Int)
    (hne : lines_nonempty note.lines) (hle : ∀ l ∈ note.lines, seg_start l ≤ offset) :
    _jit_set_note note file lineno offset =
      .ok { note with lines := note.lines ++ [single_line file lineno offset] } := by
  unfold _jit_set_note
  rw [line_insert_index_all_le note offset hne hle]
  simp only [List.getElem?_eq_none (le_refl note.lines.length), new_line, single_line,
    List.take_length, List.drop_length]

theorem lines_nonempty_append (lines : List jit_line_t) (file : String)
    (lineno offset : Int) (hne : lines_nonempty lines) :
    lines_nonempty (lines ++ [single_line file lineno offset]) := by
  intro l hl
  rcases List.mem_append.mp hl with h | h
  · exact hne l h
  · rw [List.mem_singleton.mp h]
    simp [single_line]

theorem set_notes_sorted (marks : List jit_mark_t) : ∀ (note : jit_note_t),
    lines_nonempty note.lines →
    (∀ l ∈ note.lines, ∀ m ∈ marks, seg_start l ≤ m.offset) →
    marks.Pairwise (fun a b => a.offset ≤ b.offset) →
      set_notes note marks =
        .ok { note with
          lines := note.lines ++ marks.map (fun m => single_line m.file m.lineno m.offset) } := by
  induction marks with
  | nil => intro note _ _ _; simp [set_notes]
  | cons m ms ih =>
    intro note hne hle hs
    simp only [set_notes]
    rw [set_note_append note m.file m.lineno m.offset hne
      (fun l hl => hle l hl m (List.mem_cons_self _ _))]
    simp only []
    rw [ih _ (lines_nonempty_append _ _ _ _ hne) ?_ (List.pairwise_cons.mp hs).2]
    · simp
    · intro l hl m1 hm1
      rcases List.mem_append.mp hl with h | h
      · exact hle l h m1 (List.mem_cons_of_mem _ hm1)
      · rw [List.mem_singleton.mp h]
        exact (List.pairwise_cons.mp hs).1 m1 hm1

theorem lines_of_marks_nonempty (marks : List jit_mark_t) :
    lines_nonempty (marks.map (fun m => single_line m.file m.lineno m.offset)) := by
  intro l hl
  obtain ⟨m, _, rfl⟩ := List.mem_map.mp hl
  simp [single_line]

theorem lines_of_marks_sorted (marks : List jit_mark_t)
    (hs : marks.Pairwise (fun a b => a.offset ≤ b.offset)) :
    lines_sorted (marks.map (fun m => single_line m.file m.lineno m.offset)) := by
  unfold lines_sorted
  rw [List.map_map, List.pairwise_map]
  exact hs

theorem lines_of_marks_entries_sorted (marks : List jit_mark_t) :
    ∀ l ∈ marks.map (fun m => single_line m.file m.lineno m.offset),
      entries_sorted l.entries := by
  intro l hl
  obtain ⟨m, _, rfl⟩ := List.mem_map.mp hl
  simp [single_line, entries_sorted]

theorem get_note_at_repeat_last (c : Nat) (nm : Option String) (sz : Int)
    (L : List jit_line_t) (s : jit_line_t) (code : Nat)
    (hne : lines_nonempty (L ++ [s, s])) (hs : lines_sorted (L ++ [s, s]))
    (hes : ∀ l ∈ L ++ [s, s], entries_sorted l.entries) :
    _jit_get_note_at ⟨c, nm, L ++ [s], sz⟩ code =
      _jit_get_note_at ⟨c, nm, L ++ [s, s], sz⟩ code := by
  have hsub : ∀ l, l ∈ L ++ [s] → l ∈ L ++ [s, s] := by
    intro l hl
    rcases List.mem_append.mp hl with h | h
    · exact List.mem_append_left _ h
    · exact List.mem_append_right _ (List.mem_cons_of_mem _ h)
  have hne1 : lines_nonempty (L ++ [s]) := fun l hl => hne l (hsub l hl)
  have hes1 : ∀ l ∈ L ++ [s], entries_sorted l.entries := fun l hl => hes l (hsub l hl)
  have hs1 : lines_sorted (L ++ [s]) := by
    unfold lines_sorted at hs ⊢
    rw [List.map_append, List.pairwise_append] at hs ⊢
    refine ⟨hs.1, by simp, ?_⟩
    intro a ha b hb
    exact hs.2.2 a ha b (by simp at hb ⊢; exact hb)
  by_cases hc : note_contains ⟨c, nm, L ++ [s], sz⟩ code
  · have hc2 : note_contains ⟨c, nm, L ++ [s, s], sz⟩ code := hc
    obtain ⟨l0, h01, h02⟩ : ∃ l0, (L ++ [s])[0]? = some l0 ∧ (L ++ [s, s])[0]? = some l0 := by
      cases L with
      | nil => exact ⟨s, by simp, by simp⟩
      | cons a as => exact ⟨a, by simp, by simp⟩
    by_cases hq : seg_start l0 ≤ int32 ((code : Int) - (c : Int))
    · obtain ⟨i, line, j, e, hi, hle, hlast, hj, hje, hjlast, hres⟩ :=
        get_note_at_found ⟨c, nm, L ++ [s], sz⟩ code hc hne1 hs1 hes1 l0 h01 hq
      obtain ⟨i2, line2, j2, e2, hi2, hle2, hlast2, hj2, hje2, hjlast2, hres2⟩ :=
        get_note_at_found ⟨c, nm, L ++ [s, s], sz⟩ code hc2 hne hs hes l0 h02 hq
      rw [hres, hres2]
      simp only at hi hlast hi2 hlast2 hle hle2 hj hj2 hje hje2 hjlast hjlast2
      have hlen1 := (List.getElem?_eq_some_iff.mp hi).1
      have hlen2 := (List.getElem?_eq_some_iff.mp hi2).1
      simp only [List.length_append, List.length_cons, List.length_nil] at hlen1 hlen2
      have hsA : (L ++ [s])[L.length]? = some s := by simp
      have hsB : (L ++ [s, s])[L.length]? = some s := by
        rw [List.getElem?_append_right (le_refl _)]; simp
      have hsC : (L ++ [s, s])[L.length + 1]? = some s := by
        rw [List.getElem?_append_right (by omega)]; simp
      have hline : line = line2 := by
        by_cases hqs : seg_start s ≤ int32 ((code : Int) - (c : Int))
        · have h1 : i = L.length := by
            by_contra hne0
            have := hlast L.length s (by omega) hsA
            omega
          have h2 : i2 = L.length + 1 := by
            by_contra hne0
            have := hlast2 (L.length + 1) s (by omega) hsC
            omega
          subst h1 h2
          rw [hsA] at hi
          rw [hsC] at hi2
          rw [← Option.some.inj hi, ← Option.some.inj hi2]
        · have h1 : i < L.length := by
            by_contra hne0
            have h3 : i = L.length := by omega
            subst h3
            rw [hsA] at hi
            rw [← Option.some.inj hi] at hle
            omega
          have h2 : i2 < L.length := by
            by_contra hne0
            rcases Nat.lt_or_ge i2 (L.length + 1) with h3 | h3
            · have h4 : i2 = L.length := by omega
              subst h4
              rw [hsB] at hi2
              rw [← Option.some.inj hi2] at hle2
              omega
            · have h4 : i2 = L.length + 1 := by omega
              subst h4
              rw [hsC] at hi2
              rw [← Option.some.inj hi2] at hle2
              omega
          rw [List.getElem?_append_left h1] at hi
          rw [List.getElem?_append_left h2] at hi2
          rcases Nat.lt_trichotomy i i2 with hlt | heq | hgt
          · have := hlast i2 line2 hlt (by rw [List.getElem?_append_left h2]; exact hi2)
            omega
          · subst heq
            rw [hi] at hi2
            exact Option.some.inj hi2
          · have := hlast2 i line hgt (by rw [List.getElem?_append_left h1]; exact hi)
            omega
      subst hline
      have hjj : j = j2 := by
        rcases Nat.lt_trichotomy j j2 with hlt | heq | hgt
        · have := hjlast j2 e2 hlt hj2
          omega
        · exact heq
        · have := hjlast2 j e hgt hj
          omega
      subst hjj
      rw [hj] at hj2
      rw [Option.some.inj hj2]
    · rw [get_note_at_before ⟨c, nm, L ++ [s], sz⟩ code hne1 hs1 l0 h01 (by simp only; omega),
        get_note_at_before ⟨c, nm, L ++ [s, s], sz⟩ code hne hs l0 h02 (by simp only; omega)]
  · rw [get_note_at_outside _ code hc, get_note_at_outside ⟨c, nm, L ++ [s, s], sz⟩ code hc]

theorem note_search_loop_congr (notes1 notes2 : List jit_note_t) (code : Nat)
    (h : notes1.map (fun n => (n.code, n.size)) = notes2.map (fun n => (n.code, n.size))) :
    ∀ fuel bot top,
      _note_search_index_loop notes1 code fuel bot top =
        _note_search_index_loop notes2 code fuel bot top := by
  have hget : ∀ i : Nat, (notes1[i]?).map (fun (n : jit_note_t) => (n.code, n.size)) =
      (notes2[i]?).map (fun (n : jit_note_t) => (n.code, n.size)) := by
    intro i
    rw [← List.getElem?_map, ← List.getElem?_map, h]
  intro fuel
  induction fuel with
  | zero => intro bot top; rfl
  | succ n ih =>
    intro bot top
    simp only [_note_search_index_loop]
    split
    · have hg := hget ((bot + top) / 2)
      cases h1 : notes1[(bot + top) / 2]? with
      | none =>
        rw [h1] at hg
        cases h2 : notes2[(bot + top) / 2]? with
        | none => rfl
        | some n2 => rw [h2] at hg; simp at hg
      | some n1 =>
        rw [h1] at hg
        cases h2 : notes2[(bot + top) / 2]? with
        | none => rw [h2] at hg; simp at hg
        | some n2 =>
          rw [h2] at hg
          simp only [Option.map, Option.some.injEq, Prod.mk.injEq] at hg
          simp only [hg.1, hg.2, ih]
    · rfl

/-! ## The build pass on an ordered node list -/

theorem new_note_nil (code : Nat) (name : Option String) :
    _new_note [] code name =
      .ok ([{ code := code, name := name, lines := [], size := 0 }], 0) := rfl

theorem new_note_snoc (init : List jit_note_t) (last : jit_note_t) (code : Nat)
    (name : Option String) (h : last.code ≤ code) :
    _new_note (init ++ [last]) code name =
      .ok (init ++ [{ last with size := (code : Int) - (last.code : Int) }] ++
        [{ code := code, name := name, lines := [], size := 0 }], init.length + 1) := by
  unfold _new_note
  have hl : (init ++ [last]).getLast? = some last := by simp
  rw [hl]
  simp only []
  rw [if_pos h]
  simp

theorem notes_ordered_replace_last (init : List jit_note_t) (last last1 : jit_note_t)
    (ho : notes_ordered (init ++ [last])) (hc : last1.code = last.code) :
    notes_ordered (init ++ [last1]) := by
  unfold notes_ordered at ho ⊢
  rw [List.pairwise_append] at ho ⊢
  refine ⟨ho.1, List.pairwise_singleton _ _, ?_⟩
  intro a ha b hb
  rw [List.mem_singleton.mp hb, hc]
  exact ho.2.2 a ha last (List.mem_singleton.mpr rfl)

theorem notes_ordered_snoc (init : List jit_note_t) (last new : jit_note_t)
    (ho : notes_ordered (init ++ [last])) (hc : last.code ≤ new.code)
    (hsz : (last.code : Int) + last.size ≤ (new.code : Int)) :
    notes_ordered (init ++ [last] ++ [new]) := by
  unfold notes_ordered at ho ⊢
  rw [List.pairwise_append]
  refine ⟨ho, List.pairwise_singleton _ _, ?_⟩
  intro a ha b hb
  rw [List.mem_singleton.mp hb]
  rcases List.mem_append.mp ha with h | h
  · have := (List.pairwise_append.mp ho).2.2 a h last (List.mem_singleton.mpr rfl)
    omega
  · rw [List.mem_singleton.mp h]
    exact ⟨hc, hsz⟩

theorem annotate_step_name_nil (node : jit_node_t) (link : List jit_node_t)
    (hcode : node.code = .jit_code_name) :
    _jit_annotate_loop (node :: link) [] none =
      _jit_annotate_loop link
        [{ code := node.u, name := node.v, lines := [], size := 0 }] (some 0) := by
  simp only [_jit_annotate_loop, hcode, new_note_nil]

theorem annotate_step_name (node : jit_node_t) (link : List jit_node_t)
    (init : List jit_note_t) (last : jit_note_t) (note : Option Nat)
    (hcode : node.code = .jit_code_name) (h : last.code ≤ node.u) :
    _jit_annotate_loop (node :: link) (init ++ [last]) note =
      _jit_annotate_loop link
        (init ++ [{ last with size := (node.u : Int) - (last.code : Int) }] ++
          [{ code := node.u, name := node.v, lines := [], size := 0 }])
        (some (init.length + 1)) := by
  simp only [_jit_annotate_loop, hcode, new_note_snoc init last node.u node.v h]

theorem annotate_step_skip (node : jit_node_t) (link : List jit_node_t)
    (notes : List jit_note_t) (note : Option Nat)
    (hcode : node.code = .jit_code_note) (hv : node.v = none) :
    _jit_annotate_loop (node :: link) notes note = _jit_annotate_loop link notes note := by
  simp only [_jit_annotate_loop, hcode, hv]

theorem annotate_step_mark_nil (node : jit_node_t) (link : List jit_node_t) (file : String)
    (hcode : node.code = .jit_code_note) (hv : node.v = some file) :
    _jit_annotate_loop (node :: link) [] none =
      _jit_annotate_loop link
        [{ code := node.u, name := none, lines := [single_line file (int32 node.w) 0],
           size := 0 }]
        (some 0) := by
  simp only [_jit_annotate_loop, hcode, hv, new_note_nil]
  have h := set_note_append { code := node.u, name := none, lines := [], size := 0 } file
    (int32 node.w) 0 (by intro l hl; simp at hl) (by intro l hl; simp at hl)
  simp only [List.getElem?_cons_zero, sub_self, int32_zero, h, List.nil_append,
    List.set_cons_zero]

/-- C1, as stated, fails on a region larger than `2^31` bytes: in `wide_index`
the address `0x100001008` lies in `wide_region` at the offset `0x100000008`,
the last entry with an offset at most that is `(16, 2)`, and `_jit_get_note`,
which keeps the offset in a `jit_int32_t`, searches with 8 and returns
line 1. -/
theorem get_note_found_counterexample :
    notes_ordered wide_index.note_ptr ∧ notes_contiguous wide_index.note_ptr ∧
      wide_index.note_ptr[0]? = some wide_region ∧
      note_contains wide_region 0x100001008 ∧
      lines_sorted wide_region.lines ∧
      (∀ l ∈ wide_region.lines, entries_sorted l.entries) ∧
      wide_region.lines = [⟨"w.scm", [⟨0, 1⟩, ⟨16, 2⟩]⟩] ∧
      ((0x100001008 : Nat) : Int) - (wide_region.code : Int) = 0x100000008 ∧
      int32 (((0x100001008 : Nat) : Int) - (wide_region.code : Int)) = 8 ∧
      _jit_get_note wide_index 0x100001008 =
        .ok (some { name := some "w", file := "w.scm", lineno := 1 }) := by
  refine ⟨by decide, ?_, rfl, by decide, by decide, by decide, rfl, by decide, by decide,
    by decide⟩
  intro i a b ha hb
  simp [wide_index] at hb

/-- C1, amended: in an index whose regions are ordered and do not overlap, for
an address inside a region whose segments have sorted start offsets and sorted
entry offsets, at an offset `q` below `2^31` that is at least the start of the
region's first segment, `_jit_get_note` returns found with the name of the
region, the file of the last segment whose start offset is at most `q`, and the
line number of the last entry of that segment whose offset is at most `q`. -/
theorem get_note_found_in_region (jit : jit_state_t) (code : Nat) (k : Nat)
    (note : jit_note_t) (ho : notes_ordered jit.note_ptr)
    (hk : jit.note_ptr[k]? = some note) (hc : note_contains note code)
    (hne : lines_nonempty note.lines) (hs : lines_sorted note.lines)
    (hes : ∀ l ∈ note.lines, entries_sorted l.entries)
    (l0 : jit_line_t) (hl0 : note.lines[0]? = some l0)
    (hq : seg_start l0 ≤ (code : Int) - (note.code : Int))
    (hfit : (code : Int) - (note.code : Int) < 2147483648) :
    ∃ (i : Nat) (line : jit_line_t) (j : Nat) (e : jit_entry_t),
      note.lines[i]? = some line ∧
      seg_start line ≤ (code : Int) - (note.code : Int) ∧
      (∀ (i1 : Nat) (l1 : jit_line_t), i < i1 → note.lines[i1]? = some l1 →
        (code : Int) - (note.code : Int) < seg_start l1) ∧
      line.entries[j]? = some e ∧ e.offset ≤ (code : Int) - (note.code : Int) ∧
      (∀ (j1 : Nat) (e1 : jit_entry_t), j < j1 → line.entries[j1]? = some e1 →
        (code : Int) - (note.code : Int) < e1.offset) ∧
      _jit_get_note jit code =
        .ok (some { name := note.name, file := line.file, lineno := e.lineno }) := by
  have h32 : int32 ((code : Int) - (note.code : Int)) = (code : Int) - (note.code : Int) :=
    int32_of_fits _ (by unfold note_contains at hc; omega) hfit
  rw [get_note_of_contains jit code ho k note hk hc]
  have h := get_note_at_found note code hc hne hs hes l0 hl0 (by rw [h32]; exact hq)
  rw [h32] at h
  exact h

/-- C3: for an address inside a region that has a segment, at an offset below
the start offset of the first segment, `_jit_get_note` returns not found. -/
theorem get_note_before_first_segment (jit : jit_state_t) (code : Nat) (k : Nat)
    (note : jit_note_t) (ho : notes_ordered jit.note_ptr)
    (hk : jit.note_ptr[k]? = some note) (hc : note_contains note code)
    (hne : lines_nonempty note.lines) (hs : lines_sorted note.lines)
    (l0 : jit_line_t) (hl0 : note.lines[0]? = some l0)
    (hq : (code : Int) - (note.code : Int) < seg_start l0) :
    _jit_get_note jit code = .ok none := by
  rw [get_note_of_contains jit code ho k note hk hc]
  have hle := int32_le_of_nonneg ((code : Int) - (note.code : Int))
    (by unfold note_contains at hc; omega)
  exact get_note_at_before note code hne hs l0 hl0 (by omega)

/-- C4: for an address that lies in the half-open range of no region of the
index, `_jit_get_note` returns not found, whatever the order of the regions;
on the index without regions it returns not found for every address. -/
theorem get_note_outside_regions (jit : jit_state_t) (code : Nat)
    (h : ∀ n ∈ jit.note_ptr, ¬ note_contains n code) :
    _jit_get_note jit code = .ok none ∧
      ∀ (head : List jit_node_t) (pc : Nat) (c : Nat),
        _jit_get_note { note_ptr := [], note_head := head, pc_uc := pc } c = .ok none :=
  ⟨get_note_outside jit code h, fun _ _ c => get_note_outside _ c (by simp)⟩

/-- C1, amended, at the address `0x1000 + 70` of `two_regions`: the second
segment of region `a`, its first entry. -/
theorem get_note_found_in_region_witness :
    ∃ (i : Nat) (line : jit_line_t) (j : Nat) (e : jit_entry_t),
      region_a.lines[i]? = some line ∧
      seg_start line ≤ ((0x1046 : Nat) : Int) - (region_a.code : Int) ∧
      (∀ (i1 : Nat) (l1 : jit_line_t), i < i1 → region_a.lines[i1]? = some l1 →
        ((0x1046 : Nat) : Int) - (region_a.code : Int) < seg_start l1) ∧
      line.entries[j]? = some e ∧ e.offset ≤ ((0x1046 : Nat) : Int) - (region_a.code : Int) ∧
      (∀ (j1 : Nat) (e1 : jit_entry_t), j < j1 → line.entries[j1]? = some e1 →
        ((0x1046 : Nat) : Int) - (region_a.code : Int) < e1.offset) ∧
      _jit_get_note two_regions 0x1046 =
        .ok (some { name := region_a.name, file := line.file, lineno := e.lineno }) :=
  get_note_found_in_region two_regions 0x1046 0 region_a
    (by decide) rfl (by decide) (by decide) (by decide) (by decide) _ rfl (by decide)
    (by decide)

/-- C3 at the address `0x1100 + 5` of `two_regions`, below the first recorded
offset 16 of region `b`. -/
theorem get_note_before_first_segment_witness :
    _jit_get_note two_regions 0x1105 = .ok none :=
  get_note_before_first_segment two_regions 0x1105 1 region_b
    (by decide) rfl (by decide) (by decide) (by decide) _ rfl (by decide)

/-- C4 at the address `0x2000`, which is in no region of `two_regions`. -/
theorem get_note_outside_regions_witness :
    (∀ n ∈ two_regions.note_ptr, ¬ note_contains n 0x2000) ∧
      _jit_get_note two_regions 0x2000 = .ok none :=
  ⟨by decide, (get_note_outside_regions two_regions 0x2000 (by decide)).1⟩

/-! ## Queries on a built index -/

/-- C6 at its own scenario: after the marks `(fib.scm, 3, 0)`, `(fib.scm, 4, 8)`
and `(fib.scm, 3, 8)` in region `fib` the build holds three segments of one
entry each, and `_jit_get_note` at `0x1000 + 8` returns line 3, the line of the
mark recorded last, where the claim has line 4. -/
theorem annotate_same_offset_reports_last :
    ∃ jit1, _jit_annotate fib_revisit_build = .ok jit1 ∧
      jit1.note_ptr =
        [⟨0x1000, some "fib", [single_line "fib.scm" 3 0, single_line "fib.scm" 4 8,
          single_line "fib.scm" 3 8], 16⟩] ∧
      _jit_get_note jit1 (0x1000 + 8) =
        .ok (some { name := some "fib", file := "fib.scm", lineno := 3 }) := by
  refine ⟨_, rfl, rfl, ?_⟩
  decide

/-- C7 at two marks of one line: `(fib.scm, 3, 0)` and `(fib.scm, 3, 4)` on the
empty region leave two segments with one entry each, that is two entries,
where the sequence of line numbers has one maximal run. -/
theorem set_notes_run_not_compacted :
    set_notes fib_region [⟨"fib.scm", 3, 0⟩, ⟨"fib.scm", 3, 4⟩] =
        .ok ⟨0x1000, some "fib", [single_line "fib.scm" 3 0, single_line "fib.scm" 3 4], 0⟩ ∧
      total_entries
        ⟨0x1000, some "fib", [single_line "fib.scm" 3 0, single_line "fib.scm" 3 4], 0⟩ = 2 ∧
      run_count [3, 3] = 1 := by
  refine ⟨?_, ?_, ?_⟩
  · decide
  · decide
  · decide

/-- C8 at the empty region: `(fib.scm, 4, 8)` and then `(fib.scm, 3, 8)` leave
two segments, each with an entry at offset 8, one of line 4 and one of line 3,
where the claim has the single entry `(8, 4)`. -/
theorem set_notes_same_offset_two_entries :
    set_notes fib_region [⟨"fib.scm", 4, 8⟩, ⟨"fib.scm", 3, 8⟩] =
      .ok ⟨0x1000, some "fib", [single_line "fib.scm" 4 8, single_line "fib.scm" 3 8], 0⟩ := by
  decide

/-- C9 at the empty region: recording `(fib.scm, 3, 0)` once leaves one
segment, recording it twice in succession leaves two. -/
theorem set_notes_twice_differs :
    set_notes fib_region [⟨"fib.scm", 3, 0⟩] =
        .ok ⟨0x1000, some "fib", [single_line "fib.scm" 3 0], 0⟩ ∧
      set_notes fib_region [⟨"fib.scm", 3, 0⟩, ⟨"fib.scm", 3, 0⟩] =
        .ok ⟨0x1000, some "fib", [single_line "fib.scm" 3 0, single_line "fib.scm" 3 0], 0⟩ := by
  refine ⟨?_, ?_⟩
  · decide
  · decide

/-- C10: for a region reached from the empty region by `_jit_set_note` calls in
non-decreasing order of offsets, and a mark whose offset is at least the last
recorded one, `_jit_get_note` returns the same result at every address of every
index that holds the region, whether the mark was recorded once or twice in
succession. -/
theorem get_note_same_after_repeat (pre post : List jit_note_t) (head : List jit_node_t)
    (pc : Nat) (note0 : jit_note_t) (marks : List jit_mark_t) (m : jit_mark_t)
    (hempty : note0.lines = [])
    (hs : (marks ++ [m]).Pairwise (fun a b => a.offset ≤ b.offset)) :
    ∃ once twice, set_notes note0 (marks ++ [m]) = .ok once ∧
      set_notes note0 (marks ++ [m, m]) = .ok twice ∧
      ∀ code, _jit_get_note ⟨pre ++ once :: post, head, pc⟩ code =
        _jit_get_note ⟨pre ++ twice :: post, head, pc⟩ code := by
  have hs2 : (marks ++ [m, m]).Pairwise (fun a b => a.offset ≤ b.offset) := by
    rw [List.pairwise_append] at hs ⊢
    refine ⟨hs.1, by simp, ?_⟩
    intro a ha b hb
    exact hs.2.2 a ha b (by simp at hb ⊢; exact hb)
  have hne0 : lines_nonempty note0.lines := by rw [hempty]; intro l hl; simp at hl
  have hle0 : ∀ (ms : List jit_mark_t), ∀ l ∈ note0.lines, ∀ m1 ∈ ms,
      seg_start l ≤ m1.offset := by
    intro ms l hl
    rw [hempty] at hl
    simp at hl
  refine ⟨_, _, set_notes_sorted (marks ++ [m]) note0 hne0 (hle0 _) hs,
    set_notes_sorted (marks ++ [m, m]) note0 hne0 (hle0 _) hs2, ?_⟩
  intro code
  unfold _jit_get_note _note_search_index
  simp only [List.length_append, List.length_cons]
  rw [note_search_loop_congr _
    (pre ++ { note0 with lines := note0.lines ++
      (marks ++ [m, m]).map (fun m => single_line m.file m.lineno m.offset) } :: post)
    code (by simp)]
  cases _note_search_index_loop
    (pre ++ { note0 with lines := note0.lines ++
      (marks ++ [m, m]).map (fun m => single_line m.file m.lineno m.offset) } :: post)
    code (pre.length + (post.length + 1)) 0 (pre.length + (post.length + 1)) with
  | error e => rfl
  | ok r =>
    simp only []
    rcases Nat.lt_trichotomy r pre.length with hlt | heq | hgt
    · rw [List.getElem?_append_left hlt, List.getElem?_append_left hlt]
    · subst heq
      rw [List.getElem?_append_right (le_refl _), List.getElem?_append_right (le_refl _)]
      simp only [Nat.sub_self, List.getElem?_cons_zero, hempty, List.nil_append,
        List.map_append, List.map_cons, List.map_nil]
      refine get_note_at_repeat_last note0.code note0.name note0.size _ _ code ?_ ?_ ?_
      · have := lines_of_marks_nonempty (marks ++ [m, m])
        simpa using this
      · have := lines_of_marks_sorted (marks ++ [m, m]) hs2
        simpa using this
      · have := lines_of_marks_entries_sorted (marks ++ [m, m])
        simpa using this
    · rw [List.getElem?_append_right (by omega), List.getElem?_append_right (by omega)]
      obtain ⟨k, hk⟩ : ∃ k, r - pre.length = k + 1 := ⟨r - pre.length - 1, by omega⟩
      rw [hk, List.getElem?_cons_succ, List.getElem?_cons_succ]

/-- C10 on a region `fib` of size 16 with the marks `(fib.scm, 3, 0)` and
`(fib.scm, 4, 8)`, the second recorded once or twice. -/
theorem get_note_same_after_repeat_witness :
    ∃ once twice,
      set_notes ⟨0x1000, some "fib", [], 16⟩ ([⟨"fib.scm", 3, 0⟩] ++ [⟨"fib.scm", 4, 8⟩]) =
        .ok once ∧
      set_notes ⟨0x1000, some "fib", [], 16⟩
        ([⟨"fib.scm", 3, 0⟩] ++ [⟨"fib.scm", 4, 8⟩, ⟨"fib.scm", 4, 8⟩]) = .ok twice ∧
      ∀ code, _jit_get_note ⟨[] ++ once :: [region_b], [], 0x1200⟩ code =
        _jit_get_note ⟨[] ++ twice :: [region_b], [], 0x1200⟩ code :=
  get_note_same_after_repeat [] [region_b] [] 0x1200 ⟨0x1000, some "fib", [], 16⟩
    [⟨"fib.scm", 3, 0⟩] ⟨"fib.scm", 4, 8⟩ rfl (by decide)

/-! ## The insertion index and the new-segment rule -/

theorem key_insert_loop_split (K1 K2 : List Int) (offset : Int)
    (h1 : ∀ k ∈ K1, k ≤ offset) (h2 : ∀ k ∈ K2, offset < k) : ∀ fuel bot top,
    top - bot ≤ fuel → bot ≤ K1.length → K1.length ≤ top → top ≤ (K1 ++ K2).length →
      key_insert_loop (K1 ++ K2) offset fuel bot top = .ok K1.length := by
  intro fuel
  induction fuel with
  | zero =>
    intro bot top hf hb ht hl
    simp only [key_insert_loop]
    rw [if_neg (by omega)]
    congr 1
    omega
  | succ n ih =>
    intro bot top hf hb ht hl
    simp only [key_insert_loop]
    by_cases hlt : bot < top
    · rw [if_pos hlt]
      have hi : (bot + top) / 2 < (K1 ++ K2).length := by omega
      rw [List.getElem?_eq_getElem hi]
      simp only []
      by_cases hk : (bot + top) / 2 < K1.length
      · have hle : (K1 ++ K2)[(bot + top) / 2] ≤ offset := by
          rw [List.getElem_append_left hk]
          exact h1 _ (List.getElem_mem _)
        rw [if_neg (by omega)]
        exact ih _ _ (by omega) (by omega) ht hl
      · have hgt : offset < (K1 ++ K2)[(bot + top) / 2] := by
          rw [List.getElem_append_right (by omega)]
          exact h2 _ (List.getElem_mem _)
        rw [if_pos hgt]
        exact ih _ _ (by omega) hb (by omega) (by omega)
    · rw [if_neg hlt]
      congr 1
      omega

theorem line_insert_index_split (note : jit_note_t) (offset : Int) (A B : List jit_line_t)
    (hl : note.lines = A ++ B) (hne : lines_nonempty note.lines)
    (hA : ∀ l ∈ A, seg_start l ≤ offset) (hB : ∀ l ∈ B, offset < seg_start l) :
    line_insert_index note offset = .ok A.length := by
  unfold line_insert_index
  by_cases hemp : note.lines.isEmpty = true
  · rw [if_pos hemp]
    have hnil := List.isEmpty_iff.mp hemp
    rw [hl] at hnil
    rw [(List.append_eq_nil.mp hnil).1]
    rfl
  · rw [if_neg hemp, line_insert_index_loop_eq note.lines hne, hl, List.map_append]
    have h := key_insert_loop_split (A.map seg_start) (B.map seg_start) offset
      (by
        intro k hk
        obtain ⟨l, hm, rfl⟩ := List.mem_map.mp hk
        exact hA l hm)
      (by
        intro k hk
        obtain ⟨l, hm, rfl⟩ := List.mem_map.mp hk
        exact hB l hm)
      (A ++ B).length 0 (A ++ B).length (by omega) (by omega) (by simp) (by simp)
    rw [h, List.length_map]

theorem offset_insert_index_split (line : jit_line_t) (offset : Int)
    (A B : List jit_entry_t) (hl : line.entries = A ++ B)
    (hA : ∀ e ∈ A, e.offset ≤ offset) (hB : ∀ e ∈ B, offset < e.offset) :
    offset_insert_index line offset = .ok A.length := by
  unfold offset_insert_index
  rw [offset_insert_index_loop_eq, hl, List.map_append]
  have h := key_insert_loop_split (A.map (fun e => e.offset)) (B.map (fun e => e.offset))
    offset
    (by
      intro k hk
      obtain ⟨l, hm, rfl⟩ := List.mem_map.mp hk
      exact hA l hm)
    (by
      intro k hk
      obtain ⟨l, hm, rfl⟩ := List.mem_map.mp hk
      exact hB l hm)
    (A ++ B).length 0 (A ++ B).length (by omega) (by omega) (by simp) (by simp)
  rw [h, List.length_map]

theorem set_note_extend_last (note : jit_note_t) (file : String)
    (lineno offsetA offsetB : Int) (hne : lines_nonempty note.lines)
    (hle : ∀ l ∈ note.lines, seg_start l ≤ offsetB) (hlt : offsetB < offsetA) :
    _jit_set_note { note with lines := note.lines ++ [single_line file lineno offsetA] }
        file lineno offsetB =
      .ok { note with lines := note.lines ++ [single_line file lineno offsetB] } := by
  have hne1 := lines_nonempty_append note.lines file lineno offsetA hne
  unfold _jit_set_note
  rw [line_insert_index_split
    { note with lines := note.lines ++ [single_line file lineno offsetA] } offsetB
    note.lines [single_line file lineno offsetA] rfl hne1 hle
    (by
      intro l hl
      rw [List.mem_singleton.mp hl]
      simpa [seg_start, single_line] using hlt)]
  have hg : (note.lines ++ [single_line file lineno offsetA])[note.lines.length]? =
      some (single_line file lineno offsetA) := by simp
  simp only [hg]
  rw [if_neg (by simp [single_line])]
  rw [offset_insert_index_split (single_line file lineno offsetA) offsetB []
    [⟨offsetA, lineno⟩] rfl (by simp) (by simpa using hlt)]
  have hoff : ¬ offsetA = offsetB := by omega
  simp [single_line, set_line, hoff, hlt]

/-- C11: backward extension.  On a region whose segments all start at or below
`offsetB` (an empty region among them), `_jit_set_note` of
`(file, lineno, offsetA)` and then of `(file, lineno, offsetB)` with
`offsetB < offsetA` adds exactly one segment, at the end, and that segment
holds the single entry `(min offsetA offsetB, lineno)`. -/
theorem set_notes_backward_extension (note : jit_note_t) (file : String)
    (lineno offsetA offsetB : Int) (hne : lines_nonempty note.lines)
    (hle : ∀ l ∈ note.lines, seg_start l ≤ offsetB) (hlt : offsetB < offsetA) :
    set_notes note [⟨file, lineno, offsetA⟩, ⟨file, lineno, offsetB⟩] =
      .ok { note with
        lines := note.lines ++ [single_line file lineno (min offsetA offsetB)] } := by
  simp only [set_notes]
  rw [set_note_append note file lineno offsetA hne (fun l hl => by have := hle l hl; omega)]
  simp only []
  rw [set_note_extend_last note file lineno offsetA offsetB hne hle hlt,
    min_eq_right (le_of_lt hlt)]

/-- C11 on the empty region `fib_region` with line 5 of `fib.scm` recorded at
offset 16 and then at offset 8. -/
theorem set_notes_backward_extension_witness :
    set_notes fib_region [⟨"fib.scm", 5, 16⟩, ⟨"fib.scm", 5, 8⟩] =
      .ok { fib_region with
        lines := fib_region.lines ++ [single_line "fib.scm" 5 (min 16 8)] } :=
  set_notes_backward_extension fib_region "fib.scm" 5 16 8 (by decide) (by decide)
    (by decide)

theorem line_insert_index_loop_bounds (lines : List jit_line_t) (offset : Int) :
    ∀ fuel bot top i, bot ≤ top →
      line_insert_index_loop lines offset fuel bot top = .ok i → bot ≤ i ∧ i ≤ top := by
  intro fuel
  induction fuel with
  | zero =>
    intro bot top i hbt h
    simp only [line_insert_index_loop] at h
    split at h
    · cases h
    · have := Except.ok.inj h
      omega
  | succ n ih =>
    intro bot top i hbt h
    simp only [line_insert_index_loop] at h
    split at h
    · split at h
      · cases h
      · split at h
        · have := ih _ _ _ (by omega) h
          omega
        · have := ih _ _ _ (by omega) h
          omega
    · have := Except.ok.inj h
      omega

theorem line_insert_index_le (note : jit_note_t) (offset : Int) (i : Nat)
    (h : line_insert_index note offset = .ok i) : i ≤ note.lines.length := by
  unfold line_insert_index at h
  split at h
  · have := Except.ok.inj h
    omega
  · exact (line_insert_index_loop_bounds _ _ _ _ _ _ (Nat.zero_le _) h).2

theorem new_line_lines (note : jit_note_t) (file : String) (lineno offset : Int) (i : Nat)
    (hi : i ≤ note.lines.length) :
    (new_line i note file lineno offset).lines.length = note.lines.length + 1 ∧
      (∀ k, k < i → (new_line i note file lineno offset).lines[k]? = note.lines[k]?) ∧
      (new_line i note file lineno offset).lines[i]? =
        some (single_line file lineno offset) ∧
      (∀ k, i ≤ k → (new_line i note file lineno offset).lines[k + 1]? = note.lines[k]?) := by
  have htl : (note.lines.take i).length = i := by
    rw [List.length_take]
    omega
  simp only [new_line]
  refine ⟨?_, ?_, ?_, ?_⟩
  · simp only [List.length_append, List.length_cons, List.length_drop, htl]
    omega
  · intro k hk
    rw [List.getElem?_append_left (by omega), List.getElem?_take_of_lt hk]
  · rw [List.getElem?_append_right (by omega), htl, Nat.sub_self]
    simp [single_line]
  · intro k hk
    rw [List.getElem?_append_right (by omega), htl]
    have hk1 : k + 1 - i = (k - i) + 1 := by omega
    rw [hk1, List.getElem?_cons_succ, List.getElem?_drop]
    congr 1
    omega

/-- C20: the new-segment rule.  When the index `i` that `line_insert_index`
computes is at or past the number of segments, or segment `i` has another file,
`_jit_set_note` returns the region with the segment `(file, [(offset, lineno)])`
inserted at `i`: the segments before `i` are unchanged, the segments from `i`
on are one place further, the number of segments grows by one, and the start
address, name and size of the region are unchanged. -/
theorem set_note_new_segment (note : jit_note_t) (file : String) (lineno offset : Int)
    (i : Nat) (hi : line_insert_index note offset = .ok i)
    (hnew : note.lines.length ≤ i ∨ ∃ l, note.lines[i]? = some l ∧ l.file ≠ file) :
    ∃ note1, _jit_set_note note file lineno offset = .ok note1 ∧
      note1.code = note.code ∧ note1.name = note.name ∧ note1.size = note.size ∧
      i ≤ note.lines.length ∧
      note1.lines =
        note.lines.take i ++ single_line file lineno offset :: note.lines.drop i ∧
      note1.lines.length = note.lines.length + 1 ∧
      (∀ k, k < i → note1.lines[k]? = note.lines[k]?) ∧
      note1.lines[i]? = some (single_line file lineno offset) ∧
      (∀ k, i ≤ k → note1.lines[k + 1]? = note.lines[k]?) := by
  have hle := line_insert_index_le note offset i hi
  have hl := new_line_lines note file lineno offset i hle
  refine ⟨new_line i note file lineno offset, ?_, rfl, rfl, rfl, hle, rfl, hl.1, hl.2.1,
    hl.2.2.1, hl.2.2.2⟩
  unfold _jit_set_note
  rw [hi]
  simp only []
  rcases hnew with h | ⟨l, hl1, hf⟩
  · rw [List.getElem?_eq_none h]
  · rw [hl1]
    simp only []
    rw [if_pos hf]

/-- C20 on region `a` of `two_regions`: offset 30 has insertion index 1, where
the segment of `lib.scm` stands, and the file recorded is `a.scm`. -/
theorem set_note_new_segment_witness :
    ∃ note1, _jit_set_note region_a "a.scm" 13 30 = .ok note1 ∧
      note1.code = region_a.code ∧ note1.name = region_a.name ∧
      note1.size = region_a.size ∧ 1 ≤ region_a.lines.length ∧
      note1.lines =
        region_a.lines.take 1 ++ single_line "a.scm" 13 30 :: region_a.lines.drop 1 ∧
      note1.lines.length = region_a.lines.length + 1 ∧
      (∀ k, k < 1 → note1.lines[k]? = region_a.lines[k]?) ∧
      note1.lines[1]? = some (single_line "a.scm" 13 30) ∧
      (∀ k, 1 ≤ k → note1.lines[k + 1]? = region_a.lines[k]?) :=
  set_note_new_segment region_a "a.scm" 13 30 1 (by decide)
    (Or.inr ⟨⟨"lib.scm", [⟨64, 3⟩, ⟨80, 4⟩]⟩, rfl, by decide⟩)

/-! ## The segment-order predicate -/

theorem lines_sorted_split (lines : List jit_line_t) (offset : Int)
    (hs : lines_sorted lines) :
    ∃ A D, lines = A ++ D ∧ (∀ l ∈ A, seg_start l ≤ offset) ∧
      (∀ l ∈ D, offset < seg_start l) := by
  induction lines with
  | nil => exact ⟨[], [], rfl, by simp, by simp⟩
  | cons l ls ih =>
    unfold lines_sorted at hs ih
    rw [List.map_cons, List.pairwise_cons] at hs
    by_cases hle : seg_start l ≤ offset
    · obtain ⟨A, D, hl, hA, hD⟩ := ih hs.2
      refine ⟨l :: A, D, by rw [hl]; rfl, ?_, hD⟩
      intro x hx
      rcases List.mem_cons.mp hx with h | h
      · rw [h]; exact hle
      · exact hA x h
    · refine ⟨[], l :: ls, rfl, by simp, ?_⟩
      intro x hx
      rcases List.mem_cons.mp hx with h | h
      · rw [h]; omega
      · have := hs.1 (seg_start x) (List.mem_map.mpr ⟨x, h, rfl⟩)
        omega

theorem segments_ok_sublist (l1 l2 : List jit_line_t) (hsub : List.Sublist l1 l2)
    (h : segments_ok l2) : segments_ok l1 := by
  refine ⟨fun l hl => h.1 l (hsub.mem hl), ?_, fun l hl => h.2.2 l (hsub.mem hl)⟩
  unfold lines_sorted
  exact List.Pairwise.sublist (hsub.map seg_start) h.2.1

theorem segments_ok_mid (A C : List jit_line_t) (x : jit_line_t) (offset : Int)
    (hAC : segments_ok (A ++ C)) (hA : ∀ l ∈ A, seg_start l ≤ offset)
    (hC : ∀ l ∈ C, offset < seg_start l) (hx1 : x.entries ≠ [])
    (hx2 : entries_strict x.entries) (hx3 : seg_start x = offset) :
    segments_ok (A ++ x :: C) := by
  obtain ⟨hne, hs, hes⟩ := hAC
  refine ⟨?_, ?_, ?_⟩
  · intro l hl
    rcases List.mem_append.mp hl with h | h
    · exact hne l (List.mem_append_left _ h)
    · rcases List.mem_cons.mp h with h1 | h1
      · rw [h1]; exact hx1
      · exact hne l (List.mem_append_right _ h1)
  · unfold lines_sorted at hs ⊢
    rw [List.map_append, List.pairwise_append] at hs
    rw [List.map_append, List.map_cons, List.pairwise_append, List.pairwise_cons]
    refine ⟨hs.1, ⟨?_, hs.2.1⟩, ?_⟩
    · intro b hb
      obtain ⟨l, hl, rfl⟩ := List.mem_map.mp hb
      have := hC l hl
      omega
    · intro a ha b hb
      obtain ⟨la, hla, rfl⟩ := List.mem_map.mp ha
      have h1 := hA la hla
      rcases List.mem_cons.mp hb with h | h
      · omega
      · obtain ⟨lb, hlb, rfl⟩ := List.mem_map.mp h
        have := hC lb hlb
        omega
  · intro l hl
    rcases List.mem_append.mp hl with h | h
    · exact hes l (List.mem_append_left _ h)
    · rcases List.mem_cons.mp h with h1 | h1
      · rw [h1]; exact hx2
      · exact hes l (List.mem_append_right _ h1)

theorem segments_ok_nil : segments_ok [] :=
  ⟨by intro l hl; simp at hl, by unfold lines_sorted; simp, by intro l hl; simp at hl⟩

theorem single_line_ok (file : String) (lineno offset : Int) :
    (single_line file lineno offset).entries ≠ [] ∧
      entries_strict (single_line file lineno offset).entries ∧
      seg_start (single_line file lineno offset) = offset := by
  refine ⟨by simp [single_line], by simp [single_line, entries_strict], rfl⟩

theorem set_note_existing_segment (note : jit_note_t) (file : String) (lineno offset : Int)
    (A B : List jit_line_t) (line : jit_line_t) (hl : note.lines = A ++ line :: B)
    (hok : segments_ok note.lines) (hA : ∀ l ∈ A, seg_start l ≤ offset)
    (hD : ∀ l ∈ line :: B, offset < seg_start l) (hf : line.file = file) :
    ∃ line1, _jit_set_note note file lineno offset =
        .ok { note with lines := A ++ line1 :: B } ∧
      line1.file = line.file ∧ line1.entries ≠ [] ∧ entries_strict line1.entries ∧
      seg_start line1 = offset := by
  have hmem : line ∈ note.lines := by rw [hl]; simp
  have hgt : offset < seg_start line := hD line (List.mem_cons_self _ _)
  obtain ⟨e0, rest, hent⟩ : ∃ e0 rest, line.entries = e0 :: rest := by
    cases he : line.entries with
    | nil => exact absurd he (hok.1 line hmem)
    | cons a as => exact ⟨a, as, rfl⟩
  have hstrict := hok.2.2 line hmem
  unfold entries_strict at hstrict
  rw [hent, List.map_cons, List.pairwise_cons] at hstrict
  have hs0 : seg_start line = e0.offset := by simp [seg_start, hent]
  have hall : ∀ e ∈ line.entries, offset < e.offset := by
    intro e he
    rw [hent] at he
    rcases List.mem_cons.mp he with h | h
    · rw [h]; omega
    · have := hstrict.1 e.offset (List.mem_map.mpr ⟨e, h, rfl⟩)
      omega
  have hrest : ∀ e ∈ rest, offset < e.offset :=
    fun e he => hall e (by rw [hent]; exact List.mem_cons_of_mem _ he)
  have hidx : line_insert_index note offset = .ok A.length :=
    line_insert_index_split note offset A (line :: B) hl hok.1 hA hD
  have hg : note.lines[A.length]? = some line := by
    rw [hl, List.getElem?_append_right (le_refl _)]
    simp
  have hoff : offset_insert_index line offset = .ok 0 :=
    offset_insert_index_split line offset [] line.entries rfl (by simp) hall
  have hset : ∀ line1 : jit_line_t, set_line note A.length line1 =
      { note with lines := A ++ line1 :: B } := by
    intro line1
    simp [set_line, hl]
  have hlen : 0 < note.lines.length := by rw [hl]; simp
  have hne0 : ¬ e0.offset = offset := by omega
  unfold _jit_set_note
  rw [hidx]
  simp only [hg]
  rw [if_neg (by simp [hf]), hoff]
  simp only [hent, List.getElem?_cons_zero]
  rw [if_neg hne0]
  by_cases hln : e0.lineno = lineno
  · rw [if_pos hln, if_pos (by omega), hset]
    refine ⟨_, rfl, rfl, by simp, ?_, by simp [seg_start]⟩
    unfold entries_strict
    simp only [List.set_cons_zero, List.map_cons, List.pairwise_cons]
    refine ⟨?_, hstrict.2⟩
    intro b hb
    obtain ⟨e, he, rfl⟩ := List.mem_map.mp hb
    exact hrest e he
  · rw [if_neg hln, if_pos hlen, hset]
    refine ⟨_, rfl, rfl, by simp, ?_, by simp [seg_start]⟩
    unfold entries_strict
    simp only [List.take_zero, List.nil_append, List.drop_zero, List.map_cons,
      List.pairwise_cons]
    refine ⟨?_, hstrict.1, hstrict.2⟩
    intro b hb
    rcases List.mem_cons.mp hb with h | h
    · rw [h]; omega
    · obtain ⟨e, he, rfl⟩ := List.mem_map.mp h
      exact hrest e he

theorem set_note_preserves_ok (note : jit_note_t) (file : String) (lineno offset : Int)
    (hok : segments_ok note.lines) :
    ∃ note1, _jit_set_note note file lineno offset = .ok note1 ∧
      segments_ok note1.lines ∧ note1.code = note.code ∧ note1.name = note.name ∧
      note1.size = note.size := by
  obtain ⟨A, D, hl, hA, hD⟩ := lines_sorted_split note.lines offset hok.2.1
  have hidx : line_insert_index note offset = .ok A.length :=
    line_insert_index_split note offset A D hl hok.1 hA hD
  have hnew : (new_line A.length note file lineno offset).lines =
      A ++ single_line file lineno offset :: D := by
    simp only [new_line, hl, List.take_left, List.drop_left, single_line]
  have hnewok : segments_ok (new_line A.length note file lineno offset).lines := by
    rw [hnew]
    have h3 := single_line_ok file lineno offset
    exact segments_ok_mid A D _ offset (by rw [← hl]; exact hok) hA hD h3.1 h3.2.1 h3.2.2
  cases D with
  | nil =>
    refine ⟨new_line A.length note file lineno offset, ?_, hnewok, rfl, rfl, rfl⟩
    unfold _jit_set_note
    rw [hidx]
    simp only []
    rw [List.getElem?_eq_none (by rw [hl]; simp)]
  | cons line B =>
    have hg : note.lines[A.length]? = some line := by
      rw [hl, List.getElem?_append_right (le_refl _)]
      simp
    by_cases hf : line.file = file
    · obtain ⟨line1, hres, _, h1, h2, h3⟩ :=
        set_note_existing_segment note file lineno offset A B line hl hok hA hD hf
      refine ⟨_, hres, ?_, rfl, rfl, rfl⟩
      simp only
      refine segments_ok_mid A B line1 offset ?_ hA
        (fun l h => hD l (List.mem_cons_of_mem _ h)) h1 h2 h3
      refine segments_ok_sublist _ _ ?_ hok
      rw [hl]
      exact (List.sublist_cons_self line B).append_left A
    · refine ⟨new_line A.length note file lineno offset, ?_, hnewok, rfl, rfl, rfl⟩
      unfold _jit_set_note
      rw [hidx]
      simp only [hg]
      rw [if_pos hf]

theorem set_notes_preserves_ok (marks : List jit_mark_t) : ∀ (note : jit_note_t),
    segments_ok note.lines →
      ∃ note1, set_notes note marks = .ok note1 ∧ segments_ok note1.lines ∧
        note1.code = note.code ∧ note1.name = note.name ∧ note1.size = note.size := by
  induction marks with
  | nil => intro note hok; exact ⟨note, rfl, hok, rfl, rfl, rfl⟩
  | cons m ms ih =>
    intro note hok
    obtain ⟨note1, h1, hok1, hc1, hn1, hs1⟩ :=
      set_note_preserves_ok note m.file m.lineno m.offset hok
    obtain ⟨note2, h2, hok2, hc2, hn2, hs2⟩ := ih note1 hok1
    refine ⟨note2, ?_, hok2, by rw [hc2, hc1], by rw [hn2, hn1], by rw [hs2, hs1]⟩
    simp only [set_notes, h1, h2]

/-- C17: the segment-order predicate (every segment has an entry, segment
starts are non-decreasing, entry offsets are strictly increasing in each
segment) holds for the region without segments, and on a region where it holds
`_jit_set_note` returns, for every file, line and offset, a region where it
holds, also for an offset below the recorded ones. -/
theorem segments_ok_invariant (note : jit_note_t) (file : String) (lineno offset : Int)
    (hok : segments_ok note.lines) :
    segments_ok ([] : List jit_line_t) ∧
      ∃ note1, _jit_set_note note file lineno offset = .ok note1 ∧
        segments_ok note1.lines := by
  obtain ⟨note1, h1, hok1, _⟩ := set_note_preserves_ok note file lineno offset hok
  exact ⟨segments_ok_nil, note1, h1, hok1⟩

/-- C17 on region `a` of `two_regions` and a mark of `lib.scm` at offset 30,
below the offsets 64 and 80 recorded for that file. -/
theorem segments_ok_invariant_witness :
    segments_ok region_a.lines ∧ segments_ok ([] : List jit_line_t) ∧
      ∃ note1, _jit_set_note region_a "lib.scm" 9 30 = .ok note1 ∧
        segments_ok note1.lines :=
  ⟨by decide, segments_ok_invariant region_a "lib.scm" 9 30 (by decide)⟩

/-- C18, as stated, fails: two marks of different files at offset 0 leave two
consecutive segments that both start at 0, so the entry offset 0 of the first
is not below the start of the second. -/
theorem segments_overlap_counterexample :
    set_notes fib_region [⟨"a.scm", 1, 0⟩, ⟨"b.scm", 7, 0⟩] =
        .ok ⟨0x1000, some "fib", [single_line "a.scm" 1 0, single_line "b.scm" 7 0], 0⟩ ∧
      (⟨0, 1⟩ : jit_entry_t) ∈ (single_line "a.scm" 1 0).entries ∧
      ¬ ((⟨0, 1⟩ : jit_entry_t).offset < seg_start (single_line "b.scm" 7 0)) := by
  refine ⟨?_, ?_, ?_⟩
  · decide
  · decide
  · decide

/-- C18, amended: in a region reached from the empty region by `_jit_set_note`
calls in non-decreasing order of offsets, every entry offset of a segment is
at most the start offset of the next segment; it is strictly below it when the
offsets of the calls are strictly increasing. -/
theorem segments_ordered_reachable (note0 : jit_note_t) (marks : List jit_mark_t)
    (h0 : note0.lines = [])
    (hs : marks.Pairwise (fun a b => a.offset ≤ b.offset)) :
    ∃ note1, set_notes note0 marks = .ok note1 ∧
      (∀ (i : Nat) (l1 l2 : jit_line_t) (e : jit_entry_t), note1.lines[i]? = some l1 →
        note1.lines[i + 1]? = some l2 → e ∈ l1.entries → e.offset ≤ seg_start l2) ∧
      (marks.Pairwise (fun a b => a.offset < b.offset) →
        ∀ (i : Nat) (l1 l2 : jit_line_t) (e : jit_entry_t), note1.lines[i]? = some l1 →
          note1.lines[i + 1]? = some l2 → e ∈ l1.entries → e.offset < seg_start l2) := by
  have hset := set_notes_sorted marks note0 (by rw [h0]; intro l hl; simp at hl)
    (by intro l hl; rw [h0] at hl; simp at hl) hs
  refine ⟨_, hset, ?_, ?_⟩
  · intro i l1 l2 e h1 h2 he
    simp only [h0, List.nil_append, List.getElem?_map] at h1 h2
    cases hm1 : marks[i]? with
    | none => rw [hm1] at h1; simp at h1
    | some m1 =>
      cases hm2 : marks[i + 1]? with
      | none => rw [hm2] at h2; simp at h2
      | some m2 =>
        rw [hm1] at h1
        rw [hm2] at h2
        simp only [Option.map, Option.some.injEq] at h1 h2
        subst h1 h2
        simp only [single_line, List.mem_singleton] at he
        subst he
        obtain ⟨hi1, e1⟩ := List.getElem?_eq_some_iff.mp hm1
        obtain ⟨hi2, e2⟩ := List.getElem?_eq_some_iff.mp hm2
        have := (List.pairwise_iff_getElem.mp hs) i (i + 1) hi1 hi2 (by omega)
        rw [e1, e2] at this
        simpa [seg_start, single_line] using this
  · intro hst i l1 l2 e h1 h2 he
    simp only [h0, List.nil_append, List.getElem?_map] at h1 h2
    cases hm1 : marks[i]? with
    | none => rw [hm1] at h1; simp at h1
    | some m1 =>
      cases hm2 : marks[i + 1]? with
      | none => rw [hm2] at h2; simp at h2
      | some m2 =>
        rw [hm1] at h1
        rw [hm2] at h2
        simp only [Option.map, Option.some.injEq] at h1 h2
        subst h1 h2
        simp only [single_line, List.mem_singleton] at he
        subst he
        obtain ⟨hi1, e1⟩ := List.getElem?_eq_some_iff.mp hm1
        obtain ⟨hi2, e2⟩ := List.getElem?_eq_some_iff.mp hm2
        have := (List.pairwise_iff_getElem.mp hst) i (i + 1) hi1 hi2 (by omega)
        rw [e1, e2] at this
        simpa [seg_start, single_line] using this

/-- C18, amended, on the empty region `fib_region` and marks at the offsets
0, 8 and 8. -/
theorem segments_ordered_reachable_witness :
    ∃ note1,
      set_notes fib_region [⟨"fib.scm", 3, 0⟩, ⟨"fib.scm", 4, 8⟩, ⟨"lib.scm", 1, 8⟩] =
        .ok note1 ∧
      (∀ (i : Nat) (l1 l2 : jit_line_t) (e : jit_entry_t), note1.lines[i]? = some l1 →
        note1.lines[i + 1]? = some l2 → e ∈ l1.entries → e.offset ≤ seg_start l2) ∧
      (List.Pairwise (fun (a b : jit_mark_t) => a.offset < b.offset)
          [⟨"fib.scm", 3, 0⟩, ⟨"fib.scm", 4, 8⟩, ⟨"lib.scm", 1, 8⟩] →
        ∀ (i : Nat) (l1 l2 : jit_line_t) (e : jit_entry_t), note1.lines[i]? = some l1 →
          note1.lines[i + 1]? = some l2 → e ∈ l1.entries → e.offset < seg_start l2) :=
  segments_ordered_reachable fib_region
    [⟨"fib.scm", 3, 0⟩, ⟨"fib.scm", 4, 8⟩, ⟨"lib.scm", 1, 8⟩] rfl (by decide)

/-- C19: in every region reached from the empty region by any sequence of
`_jit_set_note` calls, all of which return, the entry offsets of each segment
are strictly increasing, so no two entries of a segment share an offset.  Line
numbers are not ordered: the marks `(fib.scm, 5, 8)` and `(fib.scm, 9, 4)` leave
the segment `(4, 9), (8, 5)`. -/
theorem entries_strict_reachable (note0 : jit_note_t) (marks : List jit_mark_t)
    (h0 : note0.lines = []) :
    (∃ note1, set_notes note0 marks = .ok note1 ∧
      ∀ l ∈ note1.lines, ∀ (i j : Nat) (e1 e2 : jit_entry_t), i < j →
        l.entries[i]? = some e1 → l.entries[j]? = some e2 → e1.offset < e2.offset) ∧
      set_notes fib_region [⟨"fib.scm", 5, 8⟩, ⟨"fib.scm", 9, 4⟩] =
        .ok ⟨0x1000, some "fib", [⟨"fib.scm", [⟨4, 9⟩, ⟨8, 5⟩]⟩], 0⟩ := by
  refine ⟨?_, by decide⟩
  obtain ⟨note1, h1, hok, _⟩ :=
    set_notes_preserves_ok marks note0 (by rw [h0]; exact segments_ok_nil)
  refine ⟨note1, h1, ?_⟩
  intro l hl i j e1 e2 hij hi hj
  have hst := hok.2.2 l hl
  unfold entries_strict at hst
  obtain ⟨hi1, he1⟩ := List.getElem?_eq_some_iff.mp hi
  obtain ⟨hj1, he2⟩ := List.getElem?_eq_some_iff.mp hj
  have := (List.pairwise_iff_getElem.mp hst) i j (by simpa using hi1) (by simpa using hj1) hij
  simpa [he1, he2] using this

/-- C19 on the empty region `fib_region` and marks recorded in decreasing and
repeated order of offsets. -/
theorem entries_strict_reachable_witness :
    ∃ note1,
      set_notes fib_region [⟨"fib.scm", 5, 8⟩, ⟨"fib.scm", 9, 4⟩, ⟨"fib.scm", 7, 4⟩,
        ⟨"lib.scm", 1, 2⟩, ⟨"fib.scm", 7, 0⟩] = .ok note1 ∧
      ∀ l ∈ note1.lines, ∀ (i j : Nat) (e1 e2 : jit_entry_t), i < j →
        l.entries[i]? = some e1 → l.entries[j]? = some e2 → e1.offset < e2.offset :=
  (entries_strict_reachable fib_region [⟨"fib.scm", 5, 8⟩, ⟨"fib.scm", 9, 4⟩,
    ⟨"fib.scm", 7, 4⟩, ⟨"lib.scm", 1, 2⟩, ⟨"fib.scm", 7, 0⟩] rfl).1

/-! ## Beginning a region -/

/-- C12: `_new_note` with an address at or above the start of the last region
returns the index of the new note, which is the old length; the new array is
one longer and ends with the region `(code, name)` of size 0 without segments;
every old region keeps its start address, name and segments, the old last
region gets the size `code - start`, and the regions before it keep their
size. -/
theorem new_note_effect (notes : List jit_note_t) (code : Nat) (name : Option String)
    (h : ∀ prev, notes.getLast? = some prev → prev.code ≤ code) :
    ∃ notes1, _new_note notes code name = .ok (notes1, notes.length) ∧
      notes1.length = notes.length + 1 ∧
      notes1[notes.length]? = some { code := code, name := name, lines := [], size := 0 } ∧
      ∀ (i : Nat) (n : jit_note_t), notes[i]? = some n →
        ∃ n1, notes1[i]? = some n1 ∧ n1.code = n.code ∧ n1.name = n.name ∧
          n1.lines = n.lines ∧
          n1.size = if i + 1 = notes.length then (code : Int) - (n.code : Int) else n.size := by
  rcases List.eq_nil_or_concat notes with hnil | ⟨init, last, hc⟩
  · subst hnil
    refine ⟨_, new_note_nil code name, rfl, rfl, ?_⟩
    intro i n hi
    simp at hi
  · rw [List.concat_eq_append] at hc
    subst hc
    have hl : last.code ≤ code := h last (by simp)
    refine ⟨init ++ [{ last with size := (code : Int) - (last.code : Int) }] ++
      [{ code := code, name := name, lines := [], size := 0 }], ?_, ?_, ?_, ?_⟩
    · rw [new_note_snoc init last code name hl]
      simp
    · simp
    · rw [List.getElem?_append_right (by simp)]
      simp
    · intro i n hi
      have hil := (List.getElem?_eq_some_iff.mp hi).1
      simp only [List.length_append, List.length_singleton] at hil
      by_cases hlast : i = init.length
      · subst hlast
        have hn : n = last := by
          have : (init ++ [last])[init.length]? = some last := by simp
          rw [this] at hi
          exact (Option.some.inj hi).symm
        subst hn
        refine ⟨{ n with size := (code : Int) - (n.code : Int) }, ?_, rfl, rfl, rfl, ?_⟩
        · rw [List.append_assoc, List.getElem?_append_right (le_refl _)]
          simp
        · simp
      · have hlt : i < init.length := by omega
        refine ⟨n, ?_, rfl, rfl, rfl, ?_⟩
        · rw [List.getElem?_append_left hlt] at hi
          rw [List.append_assoc, List.getElem?_append_left hlt]
          exact hi
        · rw [if_neg]
          simp only [List.length_append, List.length_singleton]
          omega

/-- C12 on the index `two_regions` and a region begun at `0x1200`. -/
theorem new_note_effect_witness :
    ∃ notes1, _new_note two_regions.note_ptr 0x1200 (some "c") =
        .ok (notes1, two_regions.note_ptr.length) ∧
      notes1.length = two_regions.note_ptr.length + 1 ∧
      notes1[two_regions.note_ptr.length]? =
        some { code := 0x1200, name := some "c", lines := [], size := 0 } ∧
      ∀ (i : Nat) (n : jit_note_t), two_regions.note_ptr[i]? = some n →
        ∃ n1, notes1[i]? = some n1 ∧ n1.code = n.code ∧ n1.name = n.name ∧
          n1.lines = n.lines ∧
          n1.size = if i + 1 = two_regions.note_ptr.length then
            ((0x1200 : Nat) : Int) - (n.code : Int) else n.size :=
  new_note_effect two_regions.note_ptr 0x1200 (some "c") (by
    intro prev hp
    have hr : prev = region_b := (Option.some.inj hp).symm
    rw [hr]
    decide)

/-- C14: `_new_note` fails exactly when a previous region exists and the new
address is below its start address, and the failure is then the assertion; it
returns exactly when there is no previous region or the new address is at or
above the start of the previous one, equality included. -/
theorem new_note_faults_iff (notes : List jit_note_t) (code : Nat) (name : Option String) :
    ((∃ e, _new_note notes code name = .error e) ↔
        ∃ prev, notes.getLast? = some prev ∧ code < prev.code) ∧
      (_new_note notes code name = .error .assert_fail ↔
        ∃ prev, notes.getLast? = some prev ∧ code < prev.code) ∧
      ((∃ r, _new_note notes code name = .ok r) ↔
        ∀ prev, notes.getLast? = some prev → prev.code ≤ code) := by
  unfold _new_note
  cases hl : notes.getLast? with
  | none => simp
  | some prev =>
    simp only []
    by_cases hc : code ≥ prev.code
    · rw [if_pos hc]
      simp
      omega
    · rw [if_neg hc]
      simp
      omega

/-! ## The build pass on any node list -/

theorem set_note_fields (note note1 : jit_note_t) (file : String) (lineno offset : Int)
    (h : _jit_set_note note file lineno offset = .ok note1) :
    note1.code = note.code ∧ note1.name = note.name ∧ note1.size = note.size := by
  unfold _jit_set_note at h
  repeat' split at h
  all_goals cases h
  all_goals exact ⟨rfl, rfl, rfl⟩

theorem new_note_snoc_fault (init : List jit_note_t) (last : jit_note_t) (code : Nat)
    (name : Option String) (h : code < last.code) :
    _new_note (init ++ [last]) code name = .error .assert_fail := by
  unfold _new_note
  have hl : (init ++ [last]).getLast? = some last := by simp
  rw [hl]
  simp only []
  rw [if_neg (by omega)]

theorem notes_contiguous_replace_last (init : List jit_note_t) (last last1 : jit_note_t)
    (h : notes_contiguous (init ++ [last])) (hc : last1.code = last.code) :
    notes_contiguous (init ++ [last1]) := by
  intro i a b ha hb
  have hil := (List.getElem?_eq_some_iff.mp hb).1
  simp only [List.length_append, List.length_singleton] at hil
  have hi : i < init.length := by omega
  rw [List.getElem?_append_left hi] at ha
  have ha0 : (init ++ [last])[i]? = some a := by
    rw [List.getElem?_append_left hi]; exact ha
  by_cases hi1 : i + 1 < init.length
  · rw [List.getElem?_append_left hi1] at hb
    exact h i a b ha0 (by rw [List.getElem?_append_left hi1]; exact hb)
  · have hi2 : i + 1 = init.length := by omega
    rw [hi2, List.getElem?_append_right (le_refl _)] at hb
    simp only [Nat.sub_self, List.getElem?_cons_zero, Option.some.injEq] at hb
    have := h i a last ha0 (by rw [hi2]; simp)
    rw [← hb, hc]
    exact this

theorem notes_contiguous_snoc (init : List jit_note_t) (last new : jit_note_t)
    (h : notes_contiguous (init ++ [last]))
    (hsz : (last.code : Int) + last.size = (new.code : Int)) :
    notes_contiguous (init ++ [last] ++ [new]) := by
  intro i a b ha hb
  have hil := (List.getElem?_eq_some_iff.mp hb).1
  simp only [List.length_append, List.length_singleton] at hil
  by_cases hi1 : i + 1 < init.length + 1
  · rw [List.getElem?_append_left (by simp; omega)] at ha hb
    exact h i a b ha hb
  · have hi2 : i = init.length := by omega
    subst hi2
    rw [List.getElem?_append_left (by simp)] at ha
    rw [List.getElem?_append_right (by simp)] at hb
    simp at ha hb
    rw [← ha, ← hb]
    exact hsz

theorem annotate_loop_inv (nodes : List jit_node_t) : ∀ (notes : List jit_note_t)
    (note : Option Nat) (s : Option Nat) (notes1 : List jit_note_t) (note1 : Option Nat),
    region_inv notes note s →
    _jit_annotate_loop nodes notes note = .ok (notes1, note1) →
      region_inv notes1 note1 (last_region_start nodes s) := by
  induction nodes with
  | nil =>
    intro notes note s notes1 note1 hinv h
    simp only [_jit_annotate_loop, Except.ok.injEq, Prod.mk.injEq] at h
    rw [← h.1, ← h.2]
    exact hinv
  | cons node link ih =>
    intro notes note s notes1 note1 hinv h
    cases hcode : node.code with
    | jit_code_name =>
      have hstart : last_region_start (node :: link) s = last_region_start link (some node.u) := by
        simp only [last_region_start, hcode]
      rw [hstart]
      cases note with
      | none =>
        simp only [region_inv] at hinv
        obtain ⟨hn, _⟩ := hinv
        subst hn
        rw [annotate_step_name_nil node link hcode] at h
        refine ih _ _ _ _ _ ?_ h
        refine ⟨[], _, rfl, rfl, rfl, ?_, ?_⟩
        · unfold notes_ordered; simp
        · intro i a b _ hb
          simp at hb
      | some i =>
        simp only [region_inv] at hinv
        obtain ⟨init, last, hn, hi, hs, ho, hcont⟩ := hinv
        subst hn hi
        by_cases hle : last.code ≤ node.u
        · rw [annotate_step_name node link init last _ hcode hle] at h
          refine ih _ _ _ _ _ ?_ h
          refine ⟨init ++ [{ last with size := (node.u : Int) - (last.code : Int) }], _, rfl,
            by simp, rfl, ?_, ?_⟩
          · exact notes_ordered_snoc init _ _ (notes_ordered_replace_last init last _ ho rfl)
              (by simp only; omega) (by simp only; omega)
          · exact notes_contiguous_snoc init _ _
              (notes_contiguous_replace_last init last _ hcont rfl) (by simp only; omega)
        · simp only [_jit_annotate_loop, hcode,
            new_note_snoc_fault init last node.u node.v (by omega)] at h
          cases h
    | jit_code_note =>
      cases hv : node.v with
      | none =>
        have hstart : last_region_start (node :: link) s = last_region_start link s := by
          simp only [last_region_start, hcode, hv]
        rw [hstart]
        rw [annotate_step_skip node link notes note hcode hv] at h
        exact ih _ _ _ _ _ hinv h
      | some file =>
        cases note with
        | none =>
          simp only [region_inv] at hinv
          obtain ⟨hn, hs⟩ := hinv
          subst hn hs
          have hstart : last_region_start (node :: link) none =
              last_region_start link (some node.u) := by
            simp only [last_region_start, hcode, hv]
          rw [hstart]
          simp only [_jit_annotate_loop, hcode, hv, new_note_nil,
            List.getElem?_cons_zero] at h
          cases hset : _jit_set_note { code := node.u, name := none, lines := [], size := 0 }
              file (int32 node.w) (int32 ((node.u : Int) - (node.u : Int))) with
          | error e => rw [hset] at h; cases h
          | ok n1 =>
            rw [hset] at h
            simp only [List.set_cons_zero] at h
            have hf := set_note_fields _ _ _ _ _ hset
            refine ih _ _ _ _ _ ?_ h
            refine ⟨[], n1, rfl, rfl, by rw [hf.1], ?_, ?_⟩
            · unfold notes_ordered; simp
            · intro i a b _ hb
              simp at hb
        | some i =>
          simp only [region_inv] at hinv
          obtain ⟨init, last, hn, hi, hs, ho, hcont⟩ := hinv
          subst hn hi hs
          have hstart : last_region_start (node :: link) (some last.code) =
              last_region_start link (some last.code) := by
            simp only [last_region_start, hcode, hv]
          rw [hstart]
          have hg : (init ++ [last])[init.length]? = some last := by simp
          simp only [_jit_annotate_loop, hcode, hv, hg] at h
          cases hset : _jit_set_note last file (int32 node.w)
              (int32 ((node.u : Int) - (last.code : Int))) with
          | error e => rw [hset] at h; cases h
          | ok n1 =>
            rw [hset] at h
            simp only [] at h
            have hf := set_note_fields _ _ _ _ _ hset
            have hsetl : (init ++ [last]).set init.length n1 = init ++ [n1] := by simp
            rw [hsetl] at h
            refine ih _ _ _ _ _ ?_ h
            exact ⟨init, n1, rfl, rfl, by rw [hf.1],
              notes_ordered_replace_last init last n1 ho hf.1,
              notes_contiguous_replace_last init last n1 hcont hf.1⟩

theorem annotate_loop_append (pre rest : List jit_node_t) : ∀ (notes : List jit_note_t)
    (note : Option Nat),
    _jit_annotate_loop (pre ++ rest) notes note =
      match _jit_annotate_loop pre notes note with
      | .error e => .error e
      | .ok r => _jit_annotate_loop rest r.1 r.2 := by
  induction pre with
  | nil => intro notes note; simp only [List.nil_append, _jit_annotate_loop]
  | cons node pre ih =>
    intro notes note
    rw [List.cons_append]
    simp only [_jit_annotate_loop]
    cases node.code with
    | jit_code_name =>
      simp only []
      cases _new_note notes node.u node.v with
      | error e => rfl
      | ok r => exact ih _ _
    | jit_code_note =>
      simp only []
      cases node.v with
      | none => exact ih _ _
      | some file =>
        simp only []
        cases (match note with
               | none => _new_note notes node.u none
               | some i => Except.ok (notes, i)) with
        | error e => rfl
        | ok r =>
          simp only []
          cases r.1[r.2]? with
          | none => rfl
          | some n =>
            simp only []
            cases _jit_set_note n file (int32 node.w)
                (int32 ((node.u : Int) - (n.code : Int))) with
            | error e => rfl
            | ok n1 => exact ih _ _

theorem last_region_start_of_some (nodes : List jit_node_t) : ∀ (s : Nat),
    last_region_start nodes (some s) ≠ none := by
  induction nodes with
  | nil => intro s; simp [last_region_start]
  | cons node link ih =>
    intro s
    simp only [last_region_start]
    cases node.code with
    | jit_code_name => exact ih _
    | jit_code_note =>
      cases node.v with
      | none => exact ih _
      | some file => exact ih _

theorem last_region_start_of_creating (nodes : List jit_node_t) : ∀ (s : Option Nat),
    (∃ n ∈ nodes, n.code = .jit_code_name ∨ n.v ≠ none) →
      last_region_start nodes s ≠ none := by
  induction nodes with
  | nil => intro s h; simp at h
  | cons node link ih =>
    intro s h
    cases s with
    | some s0 => exact last_region_start_of_some _ s0
    | none =>
      simp only [last_region_start]
      cases hcode : node.code with
      | jit_code_name => exact last_region_start_of_some _ _
      | jit_code_note =>
        cases hv : node.v with
        | some file => exact last_region_start_of_some _ _
        | none =>
          refine ih none ?_
          obtain ⟨n, hn, hc⟩ := h
          rcases List.mem_cons.mp hn with h1 | h1
          · subst h1
            rw [hcode, hv] at hc
            simp at hc
          · exact ⟨n, h1, hc⟩

theorem annotate_loop_skip_all (nodes : List jit_node_t) : ∀ (notes : List jit_note_t)
    (note : Option Nat), (∀ n ∈ nodes, n.code = .jit_code_note ∧ n.v = none) →
      _jit_annotate_loop nodes notes note = .ok (notes, note) := by
  induction nodes with
  | nil => intro notes note _; rfl
  | cons node link ih =>
    intro notes note h
    have hn := h node (List.mem_cons_self _ _)
    rw [annotate_step_skip node link notes note hn.1 hn.2]
    exact ih notes note (fun n hm => h n (List.mem_cons_of_mem _ hm))

theorem annotate_final_shape (jit jit1 : jit_state_t) (h0 : jit.note_ptr = [])
    (h : _jit_annotate jit = .ok jit1) :
    (jit1.note_ptr = [] ∧ last_region_start jit.note_head none = none) ∨
      ∃ init last, jit1.note_ptr = init ++ [last] ∧
        last.size = (jit.pc_uc : Int) - (last.code : Int) ∧
        last_region_start jit.note_head none = some last.code ∧
        notes_ordered jit1.note_ptr ∧ notes_contiguous jit1.note_ptr := by
  unfold _jit_annotate at h
  rw [h0] at h
  cases hloop : _jit_annotate_loop jit.note_head [] none with
  | error e => rw [hloop] at h; cases h
  | ok r =>
    obtain ⟨notes, note⟩ := r
    have hinv := annotate_loop_inv jit.note_head [] none none notes note ⟨rfl, rfl⟩ hloop
    rw [hloop] at h
    cases note with
    | none =>
      simp only [region_inv] at hinv
      simp only [Except.ok.injEq] at h
      left
      rw [← h]
      exact hinv
    | some i =>
      simp only [region_inv] at hinv
      obtain ⟨init, last, hn, hi, hs, ho, hcont⟩ := hinv
      subst hn hi
      have hg : (init ++ [last])[init.length]? = some last := by simp
      simp only [hg, Except.ok.injEq] at h
      right
      refine ⟨init, { last with size := (jit.pc_uc : Int) - (last.code : Int) }, ?_, rfl,
        hs, ?_, ?_⟩
      · rw [← h]
        simp
      · rw [← h]
        simp only [List.set_append_right _ _ (le_refl _), Nat.sub_self, List.set_cons_zero]
        exact notes_ordered_replace_last init last _ ho rfl
      · rw [← h]
        simp only [List.set_append_right _ _ (le_refl _), Nat.sub_self, List.set_cons_zero]
        exact notes_contiguous_replace_last init last _ hcont rfl

/-! ## Finalization, region order and ordering faults -/

theorem segments_ok_single (file : String) (lineno offset : Int) :
    segments_ok [single_line file lineno offset] := by
  refine ⟨?_, ?_, ?_⟩
  · intro l hl
    rw [List.mem_singleton.mp hl]
    simp [single_line]
  · unfold lines_sorted
    simp
  · intro l hl
    rw [List.mem_singleton.mp hl]
    simp [single_line, entries_strict]

theorem annotate_loop_returns (nodes : List jit_node_t) : ∀ (notes : List jit_note_t)
    (note : Option Nat) (lo : Nat), returns_inv notes note lo →
    (∀ n ∈ nodes, lo ≤ n.u) →
    (nodes.map (fun n => n.u)).Pairwise (fun a b => a ≤ b) →
      ∃ notes1 note1 lo1, _jit_annotate_loop nodes notes note = .ok (notes1, note1) ∧
        returns_inv notes1 note1 lo1 := by
  induction nodes with
  | nil =>
    intro notes note lo hinv _ _
    exact ⟨notes, note, lo, rfl, hinv⟩
  | cons node link ih =>
    intro notes note lo hinv hlo hs
    rw [List.map_cons, List.pairwise_cons] at hs
    have hlo1 : ∀ n ∈ link, node.u ≤ n.u :=
      fun n hn => hs.1 n.u (List.mem_map.mpr ⟨n, hn, rfl⟩)
    have hnode := hlo node (List.mem_cons_self _ _)
    cases note with
    | none =>
      simp only [returns_inv] at hinv
      subst hinv
      cases hcode : node.code with
      | jit_code_name =>
        rw [annotate_step_name_nil node link hcode]
        exact ih _ _ node.u ⟨[], _, rfl, rfl, le_refl _, segments_ok_nil⟩ hlo1 hs.2
      | jit_code_note =>
        cases hv : node.v with
        | none =>
          rw [annotate_step_skip node link [] none hcode hv]
          exact ih _ _ node.u rfl hlo1 hs.2
        | some file =>
          rw [annotate_step_mark_nil node link file hcode hv]
          exact ih _ _ node.u ⟨[], _, rfl, rfl, le_refl _, segments_ok_single file _ 0⟩ hlo1 hs.2
    | some i =>
      simp only [returns_inv] at hinv
      obtain ⟨init, last, hn, hi, hcl, hok⟩ := hinv
      subst hn hi
      cases hcode : node.code with
      | jit_code_name =>
        rw [annotate_step_name node link init last _ hcode (by omega)]
        exact ih _ _ node.u
          ⟨init ++ [{ last with size := (node.u : Int) - (last.code : Int) }], _, rfl,
            by simp, le_refl _, segments_ok_nil⟩ hlo1 hs.2
      | jit_code_note =>
        cases hv : node.v with
        | none =>
          rw [annotate_step_skip node link _ _ hcode hv]
          exact ih _ _ node.u ⟨init, last, rfl, rfl, by omega, hok⟩ hlo1 hs.2
        | some file =>
          obtain ⟨n1, hset, hok1, hc1, _, _⟩ := set_note_preserves_ok last file (int32 node.w)
            (int32 ((node.u : Int) - (last.code : Int))) hok
          have hg : (init ++ [last])[init.length]? = some last := by simp
          have hsetl : (init ++ [last]).set init.length n1 = init ++ [n1] := by simp
          simp only [_jit_annotate_loop, hcode, hv, hg, hset, hsetl]
          exact ih _ _ node.u ⟨init, n1, rfl, rfl, by omega, hok1⟩ hlo1 hs.2

theorem annotate_ordered_returns (jit : jit_state_t) (h0 : jit.note_ptr = [])
    (hs : (jit.note_head.map (fun n => n.u)).Pairwise (fun a b => a ≤ b)) :
    ∃ jit1, _jit_annotate jit = .ok jit1 := by
  obtain ⟨notes1, note1, lo1, hloop, hinv⟩ :=
    annotate_loop_returns jit.note_head [] none 0 rfl (fun _ _ => Nat.zero_le _) hs
  unfold _jit_annotate
  rw [h0, hloop]
  cases note1 with
  | none => exact ⟨_, rfl⟩
  | some i =>
    simp only [returns_inv] at hinv
    obtain ⟨init, last, hn, hi, _, _⟩ := hinv
    subst hn hi
    have hg : (init ++ [last])[init.length]? = some last := by simp
    simp only [hg]
    exact ⟨_, rfl⟩

/-- C13: finalization, on an index that is empty before the build pass.  When
no node of the list creates a region (no name node and no note node with a
file) `_jit_annotate` returns and the index stays empty; when some node does
and `_jit_annotate` returns, the index has a last region whose size is the end
of code minus its start address; and on a node list in non-decreasing order of
addresses `_jit_annotate` returns. -/
theorem annotate_finalizes_last (jit : jit_state_t) (h0 : jit.note_ptr = []) :
    ((∀ n ∈ jit.note_head, n.code = .jit_code_note ∧ n.v = none) →
        _jit_annotate jit = .ok jit) ∧
      (∀ jit1, _jit_annotate jit = .ok jit1 →
        (∃ n ∈ jit.note_head, n.code = .jit_code_name ∨ n.v ≠ none) →
        ∃ init last, jit1.note_ptr = init ++ [last] ∧
          last.size = (jit.pc_uc : Int) - (last.code : Int)) ∧
      ((jit.note_head.map (fun n => n.u)).Pairwise (fun a b => a ≤ b) →
        ∃ jit1, _jit_annotate jit = .ok jit1) := by
  refine ⟨?_, ?_, ?_⟩
  · intro hskip
    unfold _jit_annotate
    rw [annotate_loop_skip_all jit.note_head jit.note_ptr none hskip]
  · intro jit1 h hc
    rcases annotate_final_shape jit jit1 h0 h with ⟨_, hnone⟩ | ⟨init, last, hn, hsz, _⟩
    · exact absurd hnone (last_region_start_of_creating _ none hc)
    · exact ⟨init, last, hn, hsz⟩
  · intro hs
    exact annotate_ordered_returns jit h0 hs

/-- C13 on the node list `fib_build`, which creates the region `fib` and ends
at `0x1010`. -/
theorem annotate_finalizes_last_witness :
    ∃ jit1, _jit_annotate fib_build = .ok jit1 ∧
      ∃ init last, jit1.note_ptr = init ++ [last] ∧
        last.size = (fib_build.pc_uc : Int) - (last.code : Int) := by
  have h := annotate_finalizes_last fib_build rfl
  obtain ⟨jit1, h1⟩ := h.2.2 (by decide)
  exact ⟨jit1, h1, h.2.1 jit1 h1 ⟨⟨.jit_code_name, 0x1000, some "fib", 0⟩, by decide, by decide⟩⟩

/-- C16: in the index that a successful `_jit_annotate` leaves, started from an
empty index, the regions are ordered by start address and do not overlap: for
region indices `i < j`, `start_i ≤ start_j` and `start_i + size_i ≤ start_j`,
and for consecutive regions `start_i + size_i = start_{i+1}`. -/
theorem annotate_regions_ordered (jit jit1 : jit_state_t) (h0 : jit.note_ptr = [])
    (h : _jit_annotate jit = .ok jit1) :
    (∀ (i j : Nat) (a b : jit_note_t), i < j → jit1.note_ptr[i]? = some a →
        jit1.note_ptr[j]? = some b →
        a.code ≤ b.code ∧ (a.code : Int) + a.size ≤ (b.code : Int)) ∧
      (∀ (i : Nat) (a b : jit_note_t), jit1.note_ptr[i]? = some a →
        jit1.note_ptr[i + 1]? = some b → (a.code : Int) + a.size = (b.code : Int)) := by
  rcases annotate_final_shape jit jit1 h0 h with ⟨hnil, _⟩ | ⟨init, last, _, _, _, ho, hcont⟩
  · rw [hnil]
    exact ⟨by intro i j a b _ ha; simp at ha, by intro i a b ha; simp at ha⟩
  · refine ⟨?_, hcont⟩
    intro i j a b hij ha hb
    obtain ⟨h1, e1⟩ := List.getElem?_eq_some_iff.mp ha
    obtain ⟨h2, e2⟩ := List.getElem?_eq_some_iff.mp hb
    have := (List.pairwise_iff_getElem.mp ho) i j h1 h2 hij
    rw [e1, e2] at this
    exact this

/-- C16 on the node list `name_back_build`, whose build succeeds although its
addresses are not in order. -/
theorem annotate_regions_ordered_witness :
    ∃ jit1, _jit_annotate name_back_build = .ok jit1 ∧
      (∀ (i j : Nat) (a b : jit_note_t), i < j → jit1.note_ptr[i]? = some a →
        jit1.note_ptr[j]? = some b →
        a.code ≤ b.code ∧ (a.code : Int) + a.size ≤ (b.code : Int)) ∧
      (∀ (i : Nat) (a b : jit_note_t), jit1.note_ptr[i]? = some a →
        jit1.note_ptr[i + 1]? = some b → (a.code : Int) + a.size = (b.code : Int)) := by
  have hb : _jit_annotate name_back_build =
      .ok ⟨[⟨0x1000, some "f", [single_line "f.scm" 1 16], 8⟩, ⟨0x1008, some "g", [], 0x18⟩],
        name_back_build.note_head, name_back_build.pc_uc⟩ := by decide
  exact ⟨_, hb, annotate_regions_ordered name_back_build _ rfl hb⟩

/-- C15, as stated, fails: a location mark at `0x1008` after a mark at `0x1010`
is recorded as an entry before the earlier one, and a region begun at `0x1008`
after a mark at `0x1010` of a region that starts at `0x1000` is accepted; both
build passes return an index. -/
theorem annotate_order_counterexample :
    _jit_annotate mark_back_build =
        .ok ⟨[⟨0x1000, some "f", [⟨"f.scm", [⟨8, 2⟩, ⟨16, 1⟩]⟩], 0x20⟩],
          mark_back_build.note_head, mark_back_build.pc_uc⟩ ∧
      _jit_annotate name_back_build =
        .ok ⟨[⟨0x1000, some "f", [single_line "f.scm" 1 16], 8⟩,
            ⟨0x1008, some "g", [], 0x18⟩],
          name_back_build.note_head, name_back_build.pc_uc⟩ := by
  refine ⟨?_, ?_⟩
  · decide
  · decide

/-- C15, amended: on an index that is empty before the build pass, when a name
node carries an address below the start address of the region that is current
at that node (the address of the latest name node before it, or of the first
note node with a file when no name node precedes it), `_jit_annotate` fails
with a fault. -/
theorem annotate_region_order_fault (jit : jit_state_t) (pre link : List jit_node_t)
    (node : jit_node_t) (s : Nat) (h0 : jit.note_ptr = [])
    (hhead : jit.note_head = pre ++ node :: link) (hcode : node.code = .jit_code_name)
    (hs : last_region_start pre none = some s) (hlt : node.u < s) :
    ∃ e, _jit_annotate jit = .error e := by
  unfold _jit_annotate
  rw [h0, hhead, annotate_loop_append]
  cases hloop : _jit_annotate_loop pre [] none with
  | error e => exact ⟨e, rfl⟩
  | ok r =>
    obtain ⟨notes, note⟩ := r
    have hinv := annotate_loop_inv pre [] none none notes note ⟨rfl, rfl⟩ hloop
    rw [hs] at hinv
    cases note with
    | none =>
      simp only [region_inv] at hinv
      exact absurd hinv.2 (by simp)
    | some i =>
      simp only [region_inv] at hinv
      obtain ⟨init, last, hn, _, hsl, _, _⟩ := hinv
      subst hn
      have hlc : last.code = s := (Option.some.inj hsl).symm
      refine ⟨.assert_fail, ?_⟩
      simp only [_jit_annotate_loop, hcode,
        new_note_snoc_fault init last node.u node.v (by omega)]

/-- C15, amended, on the node list `region_back_build`: region `g` is begun at
`0x1000`, below the start `0x1100` of region `f`. -/
theorem annotate_region_order_fault_witness :
    last_region_start [⟨.jit_code_name, 0x1100, some "f", 0⟩,
        ⟨.jit_code_note, 0x1100, some "f.scm", 1⟩] none = some 0x1100 ∧
      ∃ e, _jit_annotate region_back_build = .error e :=
  ⟨by decide, annotate_region_order_fault region_back_build
    [⟨.jit_code_name, 0x1100, some "f", 0⟩, ⟨.jit_code_note, 0x1100, some "f.scm", 1⟩] []
    ⟨.jit_code_name, 0x1000, some "g", 0⟩ 0x1100 rfl rfl rfl (by decide) (by decide)⟩

/-! ## The insertion point -/

theorem entries_sorted_split (entries : List jit_entry_t) (offset : Int)
    (hs : entries_sorted entries) :
    ∃ A D, entries = A ++ D ∧ (∀ e ∈ A, e.offset ≤ offset) ∧
      (∀ e ∈ D, offset < e.offset) := by
  induction entries with
  | nil => exact ⟨[], [], rfl, by simp, by simp⟩
  | cons e es ih =>
    unfold entries_sorted at hs ih
    rw [List.map_cons, List.pairwise_cons] at hs
    by_cases hle : e.offset ≤ offset
    · obtain ⟨A, D, hl, hA, hD⟩ := ih hs.2
      refine ⟨e :: A, D, by rw [hl]; rfl, ?_, hD⟩
      intro x hx
      rcases List.mem_cons.mp hx with h | h
      · rw [h]; exact hle
      · exact hA x h
    · refine ⟨[], e :: es, rfl, by simp, ?_⟩
      intro x hx
      rcases List.mem_cons.mp hx with h | h
      · rw [h]; omega
      · have := hs.1 x.offset (List.mem_map.mpr ⟨x, h, rfl⟩)
        omega

theorem countP_split {α : Type} (p : α → Bool) (A D : List α) (hA : ∀ a ∈ A, p a = true)
    (hD : ∀ a ∈ D, ¬ p a = true) : (A ++ D).countP p = A.length := by
  rw [List.countP_append, List.countP_eq_length.mpr hA, List.countP_eq_zero.mpr hD]
  rfl

/-- C21: on a region whose segments have sorted start offsets,
`line_insert_index` returns the number of segments whose start offset is at
most `offset` (0 for a region without segments), and on a segment with sorted
entry offsets `offset_insert_index` returns the number of entries whose offset
is at most `offset`. -/
theorem insert_index_counts (note : jit_note_t) (line : jit_line_t) (offset : Int)
    (hne : lines_nonempty note.lines) (hs : lines_sorted note.lines)
    (hes : entries_sorted line.entries) :
    line_insert_index note offset =
        .ok (note.lines.countP (fun l => decide (seg_start l ≤ offset))) ∧
      offset_insert_index line offset =
        .ok (line.entries.countP (fun e => decide (e.offset ≤ offset))) ∧
      (note.lines = [] → line_insert_index note offset = .ok 0) := by
  obtain ⟨A, D, hl, hA, hD⟩ := lines_sorted_split note.lines offset hs
  obtain ⟨A1, D1, hl1, hA1, hD1⟩ := entries_sorted_split line.entries offset hes
  have h1 : line_insert_index note offset =
      .ok (note.lines.countP (fun l => decide (seg_start l ≤ offset))) := by
    rw [line_insert_index_split note offset A D hl hne hA hD, hl,
      countP_split _ A D (by simpa using hA) (by simpa using hD)]
  refine ⟨h1, ?_, ?_⟩
  · rw [offset_insert_index_split line offset A1 D1 hl1 hA1 hD1, hl1,
      countP_split _ A1 D1 (by simpa using hA1) (by simpa using hD1)]
  · intro hnil
    rw [h1, hnil]
    rfl

/-- C21 on region `a` of `two_regions`, whose segments start at 0 and 64, and
on its first segment, whose entries are at 0, 8 and 24, for the offset 30. -/
theorem insert_index_counts_witness :
    line_insert_index region_a 30 = .ok 1 ∧
      offset_insert_index ⟨"a.scm", [⟨0, 10⟩, ⟨8, 12⟩, ⟨24, 11⟩]⟩ 30 = .ok 3 :=
  ⟨(insert_index_counts region_a ⟨"a.scm", [⟨0, 10⟩, ⟨8, 12⟩, ⟨24, 11⟩]⟩ 30 (by decide)
      (by decide) (by decide)).1,
    (insert_index_counts region_a ⟨"a.scm", [⟨0, 10⟩, ⟨8, 12⟩, ⟨24, 11⟩]⟩ 30 (by decide)
      (by decide) (by decide)).2.1⟩

/-! ## The documented calling order -/

/-- C22: on a region reached from the empty region by `_jit_set_note` calls in
non-decreasing order of offsets, the segments are the single-entry segments of
the calls, one per call and in the order of the calls; for a further call whose
offset is at least every recorded one, whatever its file and line,
`line_insert_index` returns the number of segments, so the new-segment path is
taken, and `_jit_set_note` appends one single-entry segment at the end. -/
theorem set_note_never_merges (note0 : jit_note_t) (marks : List jit_mark_t)
    (m : jit_mark_t) (h0 : note0.lines = [])
    (hs : (marks ++ [m]).Pairwise (fun a b => a.offset ≤ b.offset)) :
    ∃ note1, set_notes note0 marks = .ok note1 ∧
      note1.lines = marks.map (fun x => single_line x.file x.lineno x.offset) ∧
      note1.lines.length = marks.length ∧
      line_insert_index note1 m.offset = .ok note1.lines.length ∧
      _jit_set_note note1 m.file m.lineno m.offset =
        .ok { note1 with
          lines := note1.lines ++ [single_line m.file m.lineno m.offset] } := by
  rw [List.pairwise_append] at hs
  obtain ⟨hs1, _, hcross⟩ := hs
  have hset := set_notes_sorted marks note0 (by rw [h0]; intro l hl; simp at hl)
    (by intro l hl; rw [h0] at hl; simp at hl) hs1
  have hne : lines_nonempty
      (note0.lines ++ marks.map (fun x => single_line x.file x.lineno x.offset)) := by
    rw [h0, List.nil_append]
    exact lines_of_marks_nonempty marks
  have hle : ∀ l ∈ note0.lines ++ marks.map (fun x => single_line x.file x.lineno x.offset),
      seg_start l ≤ m.offset := by
    intro l hl
    rw [h0, List.nil_append] at hl
    obtain ⟨x, hx, rfl⟩ := List.mem_map.mp hl
    exact hcross x hx m (List.mem_singleton.mpr rfl)
  refine ⟨_, hset, by simp [h0], by simp [h0], ?_, ?_⟩
  · exact line_insert_index_all_le _ m.offset hne hle
  · exact set_note_append _ m.file m.lineno m.offset hne hle

/-- C22 on the empty region `fib_region`: after `(fib.scm, 3, 0)` and
`(fib.scm, 4, 8)` a further `(fib.scm, 4, 8)`, which repeats the file, line and
offset of the last call. -/
theorem set_note_never_merges_witness :
    ∃ note1, set_notes fib_region [⟨"fib.scm", 3, 0⟩, ⟨"fib.scm", 4, 8⟩] = .ok note1 ∧
      note1.lines = [single_line "fib.scm" 3 0, single_line "fib.scm" 4 8] ∧
      note1.lines.length = 2 ∧
      line_insert_index note1 8 = .ok note1.lines.length ∧
      _jit_set_note note1 "fib.scm" 4 8 =
        .ok { note1 with lines := note1.lines ++ [single_line "fib.scm" 4 8] } :=
  set_note_never_merges fib_region [⟨"fib.scm", 3, 0⟩, ⟨"fib.scm", 4, 8⟩]
    ⟨"fib.scm", 4, 8⟩ rfl (by decide)

/-- C23, as stated, fails on a region larger than `2^31` bytes: the calls
`(g.scm, 1, 0)` and `(g.scm, 2, 32)` on an empty region of size `0x100000100`
leave two segments; the address `0x100002010` lies in the region at the offset
`0x100000010`, the last call with an offset at most that is the second, and
`_jit_get_note`, which keeps the offset in a `jit_int32_t`, searches with 16
and returns line 1 of the first call. -/
theorem get_note_last_event_counterexample :
    set_notes ⟨0x2000, some "g", [], 0x100000100⟩ [⟨"g.scm", 1, 0⟩, ⟨"g.scm", 2, 32⟩] =
        .ok ⟨0x2000, some "g", [single_line "g.scm" 1 0, single_line "g.scm" 2 32],
          0x100000100⟩ ∧
      note_contains
        ⟨0x2000, some "g", [single_line "g.scm" 1 0, single_line "g.scm" 2 32], 0x100000100⟩
        0x100002010 ∧
      ((0x100002010 : Nat) : Int) - ((0x2000 : Nat) : Int) = 0x100000010 ∧
      int32 (((0x100002010 : Nat) : Int) - ((0x2000 : Nat) : Int)) = 16 ∧
      _jit_get_note
          ⟨[⟨0x2000, some "g", [single_line "g.scm" 1 0, single_line "g.scm" 2 32],
            0x100000100⟩], [], 0x100002100⟩ 0x100002010 =
        .ok (some { name := some "g", file := "g.scm", lineno := 1 }) := by
  refine ⟨by decide, by decide, by decide, by decide, by decide⟩

/-- C23, amended: last event wins.  For a region reached from the empty region
by `_jit_set_note` calls in non-decreasing order of offsets, standing in an
index with ordered regions, and an address inside the region at an offset `q`
below `2^31` that is at least the first recorded offset, `_jit_get_note` returns
the name of the region with the file and line of the last call, in the order of
the calls, whose offset is at most `q`; of several calls at one offset that is
the one recorded last. -/
theorem get_note_last_event (jit : jit_state_t) (code : Nat) (k : Nat)
    (note0 note : jit_note_t) (marks : List jit_mark_t) (m0 : jit_mark_t)
    (h0 : note0.lines = [])
    (hs : marks.Pairwise (fun a b => a.offset ≤ b.offset))
    (hset : set_notes note0 marks = .ok note)
    (ho : notes_ordered jit.note_ptr) (hk : jit.note_ptr[k]? = some note)
    (hc : note_contains note code) (hfirst : marks[0]? = some m0)
    (hq : m0.offset ≤ (code : Int) - (note.code : Int))
    (hfit : (code : Int) - (note.code : Int) < 2147483648) :
    ∃ (i : Nat) (m : jit_mark_t), marks[i]? = some m ∧
      m.offset ≤ (code : Int) - (note.code : Int) ∧
      (∀ (i1 : Nat) (m1 : jit_mark_t), i < i1 → marks[i1]? = some m1 →
        (code : Int) - (note.code : Int) < m1.offset) ∧
      _jit_get_note jit code =
        .ok (some { name := note.name, file := m.file, lineno := m.lineno }) := by
  have hset1 := set_notes_sorted marks note0 (by rw [h0]; intro l hl; simp at hl)
    (by intro l hl; rw [h0] at hl; simp at hl) hs
  rw [hset] at hset1
  have hnote := Except.ok.inj hset1
  have hlines : note.lines = marks.map (fun x => single_line x.file x.lineno x.offset) := by
    rw [hnote]
    simp [h0]
  have hl0 : note.lines[0]? = some (single_line m0.file m0.lineno m0.offset) := by
    rw [hlines, List.getElem?_map, hfirst]
    rfl
  have h32 : int32 ((code : Int) - (note.code : Int)) = (code : Int) - (note.code : Int) :=
    int32_of_fits _ (by unfold note_contains at hc; omega) hfit
  obtain ⟨i, line, j, e, hi, hle, hlast, hj, _, _, hres⟩ :=
    get_note_at_found note code hc (by rw [hlines]; exact lines_of_marks_nonempty marks)
      (by rw [hlines]; exact lines_of_marks_sorted marks hs)
      (by rw [hlines]; exact lines_of_marks_entries_sorted marks) _ hl0
      (by rw [h32]; exact hq)
  rw [h32] at hle hlast
  rw [hlines, List.getElem?_map] at hi
  cases hm : marks[i]? with
  | none => rw [hm] at hi; simp at hi
  | some m =>
    rw [hm] at hi
    simp only [Option.map, Option.some.injEq] at hi
    subst hi
    have hje : j = 0 ∧ e = ⟨m.offset, m.lineno⟩ := by
      simp only [single_line] at hj
      cases j with
      | zero => simpa using hj.symm
      | succ n => simp at hj
    refine ⟨i, m, hm, hle, ?_, ?_⟩
    · intro i1 m1 hi1 hm1
      have := hlast i1 (single_line m1.file m1.lineno m1.offset) hi1
        (by rw [hlines, List.getElem?_map, hm1]; rfl)
      exact this
    · rw [get_note_of_contains jit code ho k note hk hc, hres, hje.2]
      rfl

/-- C23, amended, on the scenario of the revisited offset: the marks `(fib.scm, 3, 0)`,
`(fib.scm, 4, 8)` and `(fib.scm, 3, 8)` in a region `fib` of size 16, queried at
`0x1000 + 9`; the last call at or below offset 9 is the third. -/
theorem get_note_last_event_witness :
    ∃ (i : Nat) (m : jit_mark_t),
      ([⟨"fib.scm", 3, 0⟩, ⟨"fib.scm", 4, 8⟩, ⟨"fib.scm", 3, 8⟩] : List jit_mark_t)[i]? =
        some m ∧
      m.offset ≤ ((0x1009 : Nat) : Int) - ((0x1000 : Nat) : Int) ∧
      (∀ (i1 : Nat) (m1 : jit_mark_t), i < i1 →
        ([⟨"fib.scm", 3, 0⟩, ⟨"fib.scm", 4, 8⟩, ⟨"fib.scm", 3, 8⟩] : List jit_mark_t)[i1]? =
          some m1 →
        ((0x1009 : Nat) : Int) - ((0x1000 : Nat) : Int) < m1.offset) ∧
      _jit_get_note
          ⟨[⟨0x1000, some "fib", [single_line "fib.scm" 3 0, single_line "fib.scm" 4 8,
            single_line "fib.scm" 3 8], 16⟩], [], 0x1010⟩ 0x1009 =
        .ok (some { name := some "fib", file := m.file, lineno := m.lineno }) :=
  get_note_last_event
    ⟨[⟨0x1000, some "fib", [single_line "fib.scm" 3 0, single_line "fib.scm" 4 8,
      single_line "fib.scm" 3 8], 16⟩], [], 0x1010⟩ 0x1009 0
    ⟨0x1000, some "fib", [], 16⟩
    ⟨0x1000, some "fib", [single_line "fib.scm" 3 0, single_line "fib.scm" 4 8,
      single_line "fib.scm" 3 8], 16⟩
    [⟨"fib.scm", 3, 0⟩, ⟨"fib.scm", 4, 8⟩, ⟨"fib.scm", 3, 8⟩] ⟨"fib.scm", 3, 0⟩ rfl
    (by decide) (by decide) (by decide) rfl (by decide) rfl (by decide) (by decide)

/-! ## The entry at the insertion point -/

theorem key_insert_loop_post (keys : List Int) (offset : Int) : ∀ fuel bot top,
    top - bot ≤ fuel → bot ≤ top → top ≤ keys.length →
    key_insert_below keys offset bot → key_insert_above keys offset top →
      ∃ i, key_insert_loop keys offset fuel bot top = .ok i ∧ i ≤ keys.length ∧
        key_insert_below keys offset i ∧ key_insert_above keys offset i := by
  intro fuel
  induction fuel with
  | zero =>
    intro bot top hf hb ht hib hit
    have hbt : bot = top := by omega
    subst hbt
    have hr : (bot + bot) / 2 = bot := by omega
    exact ⟨bot, by simp [key_insert_loop, hr], ht, hib, hit⟩
  | succ n ih =>
    intro bot top hf hb ht hib hit
    by_cases hlt : bot < top
    · simp only [key_insert_loop]
      rw [if_pos hlt]
      have hi : (bot + top) / 2 < keys.length := by omega
      rw [List.getElem?_eq_getElem hi]
      simp only []
      by_cases hc : offset < keys[(bot + top) / 2]
      · rw [if_pos hc]
        refine ih _ _ (by omega) (by omega) (by omega) hib ?_
        intro k hk
        rw [List.getElem?_eq_getElem hi] at hk
        rw [← Option.some.inj hk]
        exact hc
      · rw [if_neg hc]
        refine ih _ _ (by omega) (by omega) ht ?_ hit
        intro k _ hk
        rw [Nat.add_sub_cancel, List.getElem?_eq_getElem hi] at hk
        rw [← Option.some.inj hk]
        omega
    · have hbt : bot = top := by omega
      subst hbt
      have hr : (bot + bot) / 2 = bot := by omega
      exact ⟨bot, by simp [key_insert_loop, hr], ht, hib, hit⟩

theorem offset_insert_index_post (line : jit_line_t) (offset : Int) :
    ∃ i, offset_insert_index line offset = .ok i ∧ i ≤ line.entries.length ∧
      (∀ e, line.entries[i]? = some e → offset < e.offset) ∧
      (∀ e, 0 < i → line.entries[i - 1]? = some e → e.offset ≤ offset) := by
  obtain ⟨i, hi, hle, hb, ha⟩ := key_insert_loop_post (line.entries.map (fun e => e.offset))
    offset line.entries.length 0 line.entries.length (by omega) (by omega) (by simp)
    (by intro k h; omega) (by intro k h; simp at h)
  refine ⟨i, ?_, by simpa using hle, ?_, ?_⟩
  · unfold offset_insert_index
    rw [offset_insert_index_loop_eq]
    exact hi
  · intro e he
    exact ha e.offset (by rw [List.getElem?_map, he]; rfl)
  · intro e h0 he
    exact hb e.offset h0 (by rw [List.getElem?_map, he]; rfl)

theorem line_insert_index_post (note : jit_note_t) (offset : Int)
    (hne : lines_nonempty note.lines) :
    ∃ i, line_insert_index note offset = .ok i ∧ i ≤ note.lines.length ∧
      (∀ l, note.lines[i]? = some l → offset < seg_start l) ∧
      (∀ l, 0 < i → note.lines[i - 1]? = some l → seg_start l ≤ offset) := by
  unfold line_insert_index
  by_cases hemp : note.lines.isEmpty = true
  · rw [if_pos hemp]
    have hnil := List.isEmpty_iff.mp hemp
    refine ⟨0, rfl, Nat.zero_le _, ?_, ?_⟩
    · intro l hl
      rw [hnil] at hl
      simp at hl
    · intro l h0
      omega
  · rw [if_neg hemp, line_insert_index_loop_eq note.lines hne]
    obtain ⟨i, hi, hle, hb, ha⟩ := key_insert_loop_post (note.lines.map seg_start)
      offset note.lines.length 0 note.lines.length (by omega) (by omega) (by simp)
      (by intro k h; omega) (by intro k h; simp at h)
    refine ⟨i, hi, by simpa using hle, ?_, ?_⟩
    · intro l hl
      exact ha (seg_start l) (by rw [List.getElem?_map, hl]; rfl)
    · intro l h0 hl
      exact hb (seg_start l) h0 (by rw [List.getElem?_map, hl]; rfl)

/-- C27: for every array of keys, sorted or not, the index `i` that
`offset_insert_index` returns is at most the length, the key at `i` (when `i` is
below the length) is above `offset`, and the key at `i - 1` (when `i > 0`) is at
most `offset`; the same holds for `line_insert_index` on the start offsets of
segments that have entries.  So the entry at the insertion index never has the
recorded offset, and the exact-offset case of `_jit_set_note` never applies to
a stored entry. -/
theorem insert_index_neighbours (note : jit_note_t) (line : jit_line_t) (offset : Int)
    (hne : lines_nonempty note.lines) :
    (∃ i, offset_insert_index line offset = .ok i ∧ i ≤ line.entries.length ∧
        (∀ e, line.entries[i]? = some e → offset < e.offset) ∧
        (∀ e, 0 < i → line.entries[i - 1]? = some e → e.offset ≤ offset)) ∧
      (∃ i, line_insert_index note offset = .ok i ∧ i ≤ note.lines.length ∧
        (∀ l, note.lines[i]? = some l → offset < seg_start l) ∧
        (∀ l, 0 < i → note.lines[i - 1]? = some l → seg_start l ≤ offset)) ∧
      (∀ (seg : jit_line_t) (i : Nat) (e : jit_entry_t),
        offset_insert_index seg offset = .ok i → seg.entries[i]? = some e →
        e.offset ≠ offset) := by
  refine ⟨offset_insert_index_post line offset, line_insert_index_post note offset hne, ?_⟩
  intro seg i e hi he
  obtain ⟨i1, hi1, _, ha, _⟩ := offset_insert_index_post seg offset
  rw [hi] at hi1
  have hii := Except.ok.inj hi1
  subst hii
  have := ha e he
  omega

/-- C27 on an unsorted array of keys: the entries at 24, 0 and 8 and the
segments of region `a`, for the offset 8. -/
theorem insert_index_neighbours_witness :
    (∃ i, offset_insert_index ⟨"a.scm", [⟨24, 11⟩, ⟨0, 10⟩, ⟨8, 12⟩]⟩ 8 = .ok i ∧
        i ≤ 3 ∧
        (∀ e, ([⟨24, 11⟩, ⟨0, 10⟩, ⟨8, 12⟩] : List jit_entry_t)[i]? = some e →
          8 < e.offset) ∧
        (∀ e, 0 < i → ([⟨24, 11⟩, ⟨0, 10⟩, ⟨8, 12⟩] : List jit_entry_t)[i - 1]? = some e →
          e.offset ≤ 8)) ∧
      (∃ i, line_insert_index region_a 8 = .ok i ∧ i ≤ region_a.lines.length ∧
        (∀ l, region_a.lines[i]? = some l → 8 < seg_start l) ∧
        (∀ l, 0 < i → region_a.lines[i - 1]? = some l → seg_start l ≤ 8)) ∧
      (∀ (seg : jit_line_t) (i : Nat) (e : jit_entry_t),
        offset_insert_index seg 8 = .ok i → seg.entries[i]? = some e → e.offset ≠ 8) :=
  insert_index_neighbours region_a ⟨"a.scm", [⟨24, 11⟩, ⟨0, 10⟩, ⟨8, 12⟩]⟩ 8 (by decide)

/-! ## The existing-segment path -/

theorem existing_segment_zero (note : jit_note_t) (offset : Int) (idx : Nat)
    (line : jit_line_t) (hok : segments_ok note.lines)
    (hidx : line_insert_index note offset = .ok idx)
    (hline : note.lines[idx]? = some line) :
    offset_insert_index line offset = .ok 0 ∧ line.entries ≠ [] ∧
      ∀ e ∈ line.entries, offset < e.offset := by
  have hmem : line ∈ note.lines := List.getElem?_mem hline
  have hgt1 : offset < seg_start line := by
    obtain ⟨i, hi, _, ha, _⟩ := line_insert_index_post note offset hok.1
    rw [hidx] at hi
    have hii := Except.ok.inj hi
    subst hii
    exact ha line hline
  have hne := hok.1 line hmem
  obtain ⟨e0, rest, hent⟩ : ∃ e0 rest, line.entries = e0 :: rest := by
    cases he : line.entries with
    | nil => exact absurd he hne
    | cons a as => exact ⟨a, as, rfl⟩
  have hstrict := hok.2.2 line hmem
  unfold entries_strict at hstrict
  rw [hent, List.map_cons, List.pairwise_cons] at hstrict
  have hs0 : seg_start line = e0.offset := by simp [seg_start, hent]
  have hall : ∀ e ∈ line.entries, offset < e.offset := by
    intro e he
    rw [hent] at he
    rcases List.mem_cons.mp he with h | h
    · rw [h]; omega
    · have := hstrict.1 e.offset (List.mem_map.mpr ⟨e, h, rfl⟩)
      omega
  exact ⟨offset_insert_index_split line offset [] line.entries rfl (by simp) hall, hne, hall⟩

theorem reachable_segments_ok (note0 note : jit_note_t) (marks : List jit_mark_t)
    (h0 : note0.lines = []) (hreach : set_notes note0 marks = .ok note) :
    segments_ok note.lines := by
  obtain ⟨note1, h1, hok, _⟩ :=
    set_notes_preserves_ok marks note0 (by rw [h0]; exact segments_ok_nil)
  rw [hreach] at h1
  rw [Except.ok.inj h1]
  exact hok

/-- C28: in a region reached from the empty region by any sequence of
`_jit_set_note` calls, whenever the existing-segment path is taken (the segment
at the index of `line_insert_index` exists and has the file of the call),
`offset_insert_index` returns 0; the segment has an entry, so `offsets[0]` and
`linenos[0]` are read inside the array, the region has a segment, so the shift
guard `0 < note->length` holds, and `_jit_set_note` returns. -/
theorem existing_segment_in_bounds (note0 note : jit_note_t) (marks : List jit_mark_t)
    (file : String) (lineno offset : Int) (idx : Nat) (line : jit_line_t)
    (h0 : note0.lines = []) (hreach : set_notes note0 marks = .ok note)
    (hidx : line_insert_index note offset = .ok idx)
    (hline : note.lines[idx]? = some line) (hf : line.file = file) :
    offset_insert_index line offset = .ok 0 ∧ 0 < line.entries.length ∧
      (∃ e, line.entries[0]? = some e) ∧ 0 < note.lines.length ∧
      ∃ note1, _jit_set_note note file lineno offset = .ok note1 := by
  have hok := reachable_segments_ok note0 note marks h0 hreach
  have _ := hf
  obtain ⟨hz, hne, _⟩ := existing_segment_zero note offset idx line hok hidx hline
  have hlen : 0 < line.entries.length := List.length_pos.mpr hne
  obtain ⟨note1, h1, _⟩ := set_note_preserves_ok note file lineno offset hok
  exact ⟨hz, hlen, ⟨line.entries[0], List.getElem?_eq_getElem hlen⟩,
    by have := (List.getElem?_eq_some_iff.mp hline).1; omega, note1, h1⟩

/-- C28 on the region that `(fib.scm, 5, 8)` leaves, for a call of `fib.scm` at
offset 4, below the recorded one. -/
theorem existing_segment_in_bounds_witness :
    offset_insert_index (single_line "fib.scm" 5 8) 4 = .ok 0 ∧
      0 < (single_line "fib.scm" 5 8).entries.length ∧
      (∃ e, (single_line "fib.scm" 5 8).entries[0]? = some e) ∧
      0 < [single_line "fib.scm" 5 8].length ∧
      ∃ note1, _jit_set_note ⟨0x1000, some "fib", [single_line "fib.scm" 5 8], 0⟩
        "fib.scm" 9 4 = .ok note1 :=
  existing_segment_in_bounds fib_region ⟨0x1000, some "fib", [single_line "fib.scm" 5 8], 0⟩
    [⟨"fib.scm", 5, 8⟩] "fib.scm" 9 4 0 (single_line "fib.scm" 5 8) rfl (by decide)
    (by decide) rfl rfl

theorem list_insert_facts {α : Type} (l : List α) (x : α) (i : Nat) (hi : i ≤ l.length) :
    (l.take i ++ x :: l.drop i).length = l.length + 1 ∧
      (∀ k, k < i → (l.take i ++ x :: l.drop i)[k]? = l[k]?) ∧
      (l.take i ++ x :: l.drop i)[i]? = some x ∧
      (∀ k, i ≤ k → (l.take i ++ x :: l.drop i)[k + 1]? = l[k]?) := by
  have htl : (l.take i).length = i := by
    rw [List.length_take]
    omega
  refine ⟨?_, ?_, ?_, ?_⟩
  · simp only [List.length_append, List.length_cons, List.length_drop, htl]
    omega
  · intro k hk
    rw [List.getElem?_append_left (by omega), List.getElem?_take_of_lt hk]
  · rw [List.getElem?_append_right (by omega), htl, Nat.sub_self]
    simp
  · intro k hk
    rw [List.getElem?_append_right (by omega), htl]
    have hk1 : k + 1 - i = (k - i) + 1 := by omega
    rw [hk1, List.getElem?_cons_succ, List.getElem?_drop]
    congr 1
    omega

theorem list_set_facts {α : Type} (l : List α) (x : α) (i : Nat) (hi : i < l.length) :
    (l.set i x).length = l.length ∧ (l.set i x)[i]? = some x ∧
      ∀ k, k ≠ i → (l.set i x)[k]? = l[k]? := by
  refine ⟨List.length_set _ _ _, ?_, ?_⟩
  · rw [List.getElem?_set_self hi]
  · intro k hk
    rw [List.getElem?_set_ne (Ne.symm hk)]

/-- C24: the entry-insert rule.  In a region reached from the empty region,
when the existing-segment path is taken and the entry at the index `i` of
`offset_insert_index` has neither the offset nor the line of the call,
`_jit_set_note` returns the region with segment `idx` replaced by the segment
whose entries are the old ones with `(offset, lineno)` inserted at `i`: the
entries before `i` are unchanged, the entries from `i` on are one place
further, the number of entries grows by one, and the other segments are
unchanged. -/
theorem set_note_entry_insert (note0 note : jit_note_t) (marks : List jit_mark_t)
    (file : String) (lineno offset : Int) (idx : Nat) (line : jit_line_t) (i : Nat)
    (e : jit_entry_t) (h0 : note0.lines = []) (hreach : set_notes note0 marks = .ok note)
    (hidx : line_insert_index note offset = .ok idx)
    (hline : note.lines[idx]? = some line) (hf : line.file = file)
    (hi : offset_insert_index line offset = .ok i) (he : line.entries[i]? = some e)
    (hoff : e.offset ≠ offset) (hln : e.lineno ≠ lineno) :
    ∃ line1, _jit_set_note note file lineno offset =
        .ok { note with lines := note.lines.set idx line1 } ∧
      line1.file = line.file ∧
      line1.entries = line.entries.take i ++ ⟨offset, lineno⟩ :: line.entries.drop i ∧
      line1.entries.length = line.entries.length + 1 ∧
      (∀ k, k < i → line1.entries[k]? = line.entries[k]?) ∧
      line1.entries[i]? = some ⟨offset, lineno⟩ ∧
      (∀ k, i ≤ k → line1.entries[k + 1]? = line.entries[k]?) ∧
      (note.lines.set idx line1).length = note.lines.length ∧
      (note.lines.set idx line1)[idx]? = some line1 ∧
      (∀ k, k ≠ idx → (note.lines.set idx line1)[k]? = note.lines[k]?) := by
  have hok := reachable_segments_ok note0 note marks h0 hreach
  obtain ⟨hz, _, _⟩ := existing_segment_zero note offset idx line hok hidx hline
  rw [hi] at hz
  have hi0 : i = 0 := Except.ok.inj hz
  have hidxlt := (List.getElem?_eq_some_iff.mp hline).1
  have hile := (List.getElem?_eq_some_iff.mp he).1
  have hins := list_insert_facts line.entries ⟨offset, lineno⟩ i (by omega)
  have hset := list_set_facts note.lines
    { line with entries := line.entries.take i ++ ⟨offset, lineno⟩ :: line.entries.drop i }
    idx hidxlt
  refine ⟨{ line with
    entries := line.entries.take i ++ ⟨offset, lineno⟩ :: line.entries.drop i }, ?_, rfl, rfl,
    hins.1, hins.2.1, hins.2.2.1, hins.2.2.2, hset.1, hset.2.1, hset.2.2⟩
  unfold _jit_set_note
  rw [hidx]
  simp only [hline]
  rw [if_neg (by simp [hf]), hi]
  simp only [he]
  rw [if_neg hoff, if_neg hln, if_pos (by omega)]
  rfl

/-- C24 on the region that `(fib.scm, 5, 8)` leaves: the call
`(fib.scm, 9, 4)` finds the entry `(8, 5)` at index 0 and inserts `(4, 9)`
before it. -/
theorem set_note_entry_insert_witness :
    ∃ line1, _jit_set_note ⟨0x1000, some "fib", [single_line "fib.scm" 5 8], 0⟩
        "fib.scm" 9 4 =
        .ok ⟨0x1000, some "fib", [single_line "fib.scm" 5 8].set 0 line1, 0⟩ ∧
      line1.file = "fib.scm" ∧ line1.entries = [⟨4, 9⟩, ⟨8, 5⟩] :=
  (set_note_entry_insert fib_region ⟨0x1000, some "fib", [single_line "fib.scm" 5 8], 0⟩
    [⟨"fib.scm", 5, 8⟩] "fib.scm" 9 4 0 (single_line "fib.scm" 5 8) 0 ⟨8, 5⟩ rfl
    (by decide) (by decide) rfl rfl (by decide) rfl (by decide) (by decide)).elim
    (fun line1 h => ⟨line1, h.1, h.2.1, h.2.2.1⟩)

/-- C25: the line-match rule, in every region.  When the existing-segment path
is taken and the entry at the index `i` of `offset_insert_index` has another
offset but the line of the call, `_jit_set_note` inserts no entry: it returns
the region with the offset of entry `i` set to the minimum of the old and the
new offset; the line number of the entry, the other entries, the number of
entries and the other segments are unchanged. -/
theorem set_note_line_match (note : jit_note_t) (file : String) (lineno offset : Int)
    (idx : Nat) (line : jit_line_t) (i : Nat) (e : jit_entry_t)
    (hidx : line_insert_index note offset = .ok idx)
    (hline : note.lines[idx]? = some line) (hf : line.file = file)
    (hi : offset_insert_index line offset = .ok i) (he : line.entries[i]? = some e)
    (hoff : e.offset ≠ offset) (hln : e.lineno = lineno) :
    ∃ line1, _jit_set_note note file lineno offset =
        .ok { note with lines := note.lines.set idx line1 } ∧
      line1.file = line.file ∧
      line1.entries = line.entries.set i ⟨min e.offset offset, e.lineno⟩ ∧
      line1.entries.length = line.entries.length ∧
      line1.entries[i]? = some ⟨min e.offset offset, e.lineno⟩ ∧
      (∀ k, k ≠ i → line1.entries[k]? = line.entries[k]?) ∧
      (note.lines.set idx line1).length = note.lines.length ∧
      (note.lines.set idx line1)[idx]? = some line1 ∧
      (∀ k, k ≠ idx → (note.lines.set idx line1)[k]? = note.lines[k]?) := by
  obtain ⟨i1, hi1, _, ha, _⟩ := offset_insert_index_post line offset
  rw [hi] at hi1
  have hii := Except.ok.inj hi1
  subst hii
  have hgt : offset < e.offset := ha e he
  have hmin : min e.offset offset = offset := min_eq_right (le_of_lt hgt)
  have hidxlt := (List.getElem?_eq_some_iff.mp hline).1
  have hilt := (List.getElem?_eq_some_iff.mp he).1
  have hent := list_set_facts line.entries ⟨min e.offset offset, e.lineno⟩ i hilt
  have hset := list_set_facts note.lines
    { line with entries := line.entries.set i ⟨min e.offset offset, e.lineno⟩ } idx hidxlt
  refine ⟨{ line with entries := line.entries.set i ⟨min e.offset offset, e.lineno⟩ }, ?_,
    rfl, rfl, hent.1, hent.2.1, hent.2.2, hset.1, hset.2.1, hset.2.2⟩
  unfold _jit_set_note
  rw [hidx]
  simp only [hline]
  rw [if_neg (by simp [hf]), hi]
  simp only [he]
  rw [if_neg hoff, if_pos hln, if_pos hgt, hmin]
  rfl

/-- C25 on the region that `(fib.scm, 5, 16)` leaves: the call
`(fib.scm, 5, 8)` finds the entry `(16, 5)` of the same line at index 0 and
lowers its offset to 8. -/
theorem set_note_line_match_witness :
    ∃ line1, _jit_set_note ⟨0x1000, some "fib", [single_line "fib.scm" 5 16], 0⟩
        "fib.scm" 5 8 =
        .ok ⟨0x1000, some "fib", [single_line "fib.scm" 5 16].set 0 line1, 0⟩ ∧
      line1.file = "fib.scm" ∧
      line1.entries = ([⟨16, 5⟩] : List jit_entry_t).set 0 ⟨min 16 8, 5⟩ :=
  (set_note_line_match ⟨0x1000, some "fib", [single_line "fib.scm" 5 16], 0⟩ "fib.scm" 5 8 0
    (single_line "fib.scm" 5 16) 0 ⟨16, 5⟩ (by decide) rfl rfl (by decide) rfl (by decide)
    rfl).elim (fun line1 h => ⟨line1, h.1, h.2.1, h.2.2.1⟩)

/-- C29: on every index that `_jit_annotate` builds from the empty index, for
every address in the half-open range of a region of the index,
`_note_search_index` returns the index of that region, which is below the
region count; no other region contains the address, and a region of size zero
is never the result. -/
theorem note_search_finds_built (jit jit1 : jit_state_t) (code k : Nat) (n : jit_note_t)
    (h0 : jit.note_ptr = []) (h : _jit_annotate jit = .ok jit1)
    (hk : jit1.note_ptr[k]? = some n) (hc : note_contains n code) :
    _note_search_index jit1 code = .ok k ∧ k < jit1.note_ptr.length ∧
      (∀ k1 n1, jit1.note_ptr[k1]? = some n1 → note_contains n1 code → k1 = k) ∧
      (∀ k1 n1, jit1.note_ptr[k1]? = some n1 → n1.size = 0 →
        _note_search_index jit1 code ≠ .ok k1) := by
  have ho : notes_ordered jit1.note_ptr := by
    rcases annotate_final_shape jit jit1 h0 h with ⟨hnil, _⟩ | ⟨_, _, _, _, _, ho, _⟩
    · rw [hnil]
      exact List.Pairwise.nil
    · exact ho
  have hfind := note_search_index_finds jit1 code ho k n hk hc
  refine ⟨hfind, (List.getElem?_eq_some_iff.mp hk).1, ?_, ?_⟩
  · intro k1 n1 hk1 hc1
    have h1 := note_search_index_finds jit1 code ho k1 n1 hk1 hc1
    rw [hfind] at h1
    exact (Except.ok.inj h1).symm
  · intro k1 n1 hk1 hz hr
    rw [hfind] at hr
    have hkk := Except.ok.inj hr
    subst hkk
    rw [hk] at hk1
    have hnn := Option.some.inj hk1
    subst hnn
    unfold note_contains at hc
    omega

/-- C29 on the index that `same_start_build` builds: the regions `f` and `g`
both start at `0x1000`, `f` has size zero, and the address `0x1000` is found in
`g`, at index 1. -/
theorem note_search_finds_built_witness :
    _jit_annotate same_start_build =
        .ok ⟨[⟨0x1000, some "f", [], 0⟩, ⟨0x1000, some "g", [], 0x100⟩,
          ⟨0x1100, some "h", [], 0x100⟩], same_start_build.note_head, 0x1200⟩ ∧
      _note_search_index ⟨[⟨0x1000, some "f", [], 0⟩, ⟨0x1000, some "g", [], 0x100⟩,
          ⟨0x1100, some "h", [], 0x100⟩], same_start_build.note_head, 0x1200⟩ 0x1000 = .ok 1 :=
  have hb : _jit_annotate same_start_build =
      .ok ⟨[⟨0x1000, some "f", [], 0⟩, ⟨0x1000, some "g", [], 0x100⟩,
        ⟨0x1100, some "h", [], 0x100⟩], same_start_build.note_head, 0x1200⟩ := by decide
  ⟨hb, (note_search_finds_built same_start_build _ 0x1000 1 ⟨0x1000, some "g", [], 0x100⟩ rfl hb
    (by simp) (by decide)).1⟩

/-! ## Termination of the searches -/

theorem note_search_loop_fuel (notes : List jit_note_t) (code : Nat) : ∀ fuel bot top,
    top - bot ≤ fuel → _note_search_index_loop notes code fuel bot top ≠ .error .no_fuel := by
  intro fuel
  induction fuel with
  | zero =>
    intro bot top hf
    simp only [_note_search_index_loop]
    rw [if_neg (by omega)]
    intro h
    cases h
  | succ m ih =>
    intro bot top hf
    simp only [_note_search_index_loop]
    by_cases hlt : bot < top
    · rw [if_pos hlt]
      cases notes[(bot + top) / 2]? with
      | none => intro h; cases h
      | some nn =>
        simp only []
        split
        · exact ih _ _ (by omega)
        · split
          · intro h; cases h
          · exact ih _ _ (by omega)
    · rw [if_neg hlt]
      intro h
      cases h

theorem line_start_fuel (lines : List jit_line_t) (i : Nat) (e : jit_fault)
    (h : line_start lines i = .error e) : e = .bad_read := by
  unfold line_start at h
  cases hl : lines[i]? with
  | none =>
    rw [hl] at h
    cases h
    rfl
  | some l =>
    rw [hl] at h
    simp only [] at h
    cases he : l.entries[0]? with
    | none =>
      rw [he] at h
      cases h
      rfl
    | some e0 =>
      rw [he] at h
      cases h

theorem line_insert_loop_fuel (lines : List jit_line_t) (offset : Int) : ∀ fuel bot top,
    top - bot ≤ fuel → line_insert_index_loop lines offset fuel bot top ≠ .error .no_fuel := by
  intro fuel
  induction fuel with
  | zero =>
    intro bot top hf
    simp only [line_insert_index_loop]
    rw [if_neg (by omega)]
    intro h
    cases h
  | succ m ih =>
    intro bot top hf
    simp only [line_insert_index_loop]
    by_cases hlt : bot < top
    · rw [if_pos hlt]
      cases hs : line_start lines ((bot + top) / 2) with
      | error e =>
        rw [line_start_fuel lines _ e hs]
        intro h
        cases h
      | ok k =>
        simp only []
        split
        · exact ih _ _ (by omega)
        · exact ih _ _ (by omega)
    · rw [if_neg hlt]
      intro h
      cases h

theorem line_search_loop_fuel (lines : List jit_line_t) (offset : Int) : ∀ fuel bot top,
    top - bot ≤ fuel → line_search_index_loop lines offset fuel bot top ≠ .error .no_fuel := by
  intro fuel
  induction fuel with
  | zero =>
    intro bot top hf
    simp only [line_search_index_loop]
    rw [if_neg (by omega)]
    intro h
    cases h
  | succ m ih =>
    intro bot top hf
    simp only [line_search_index_loop]
    by_cases hlt : bot < top
    · rw [if_pos hlt]
      cases hs : line_start lines ((bot + top) / 2) with
      | error e =>
        rw [line_start_fuel lines _ e hs]
        intro h
        cases h
      | ok k =>
        simp only []
        split
        · exact ih _ _ (by omega)
        · split
          · intro h; cases h
          · cases hs1 : line_start lines ((bot + top) / 2 + 1) with
            | error e =>
              rw [line_start_fuel lines _ e hs1]
              intro h
              cases h
            | ok k1 =>
              simp only []
              split
              · intro h; cases h
              · exact ih _ _ (by omega)
    · rw [if_neg hlt]
      intro h
      cases h

theorem offset_insert_loop_fuel (entries : List jit_entry_t) (offset : Int) : ∀ fuel bot top,
    top - bot ≤ fuel →
      offset_insert_index_loop entries offset fuel bot top ≠ .error .no_fuel := by
  intro fuel
  induction fuel with
  | zero =>
    intro bot top hf
    simp only [offset_insert_index_loop]
    rw [if_neg (by omega)]
    intro h
    cases h
  | succ m ih =>
    intro bot top hf
    simp only [offset_insert_index_loop]
    by_cases hlt : bot < top
    · rw [if_pos hlt]
      cases entries[(bot + top) / 2]? with
      | none => intro h; cases h
      | some e =>
        simp only []
        split
        · exact ih _ _ (by omega)
        · exact ih _ _ (by omega)
    · rw [if_neg hlt]
      intro h
      cases h

theorem offset_search_loop_fuel (entries : List jit_entry_t) (offset : Int) : ∀ fuel bot top,
    top - bot ≤ fuel →
      offset_search_index_loop entries offset fuel bot top ≠ .error .no_fuel := by
  intro fuel
  induction fuel with
  | zero =>
    intro bot top hf
    simp only [offset_search_index_loop]
    rw [if_neg (by omega)]
    intro h
    cases h
  | succ m ih =>
    intro bot top hf
    simp only [offset_search_index_loop]
    by_cases hlt : bot < top
    · rw [if_pos hlt]
      cases entries[(bot + top) / 2]? with
      | none => intro h; cases h
      | some e =>
        simp only []
        split
        · exact ih _ _ (by omega)
        · split
          · intro h; cases h
          · cases entries[(bot + top) / 2 + 1]? with
            | none => intro h; cases h
            | some e1 =>
              simp only []
              split
              · intro h; cases h
              · exact ih _ _ (by omega)
    · rw [if_neg hlt]
      intro h
      cases h

theorem line_search_index_fuel (note : jit_note_t) (q : Int) :
    line_search_index note q ≠ .error .no_fuel := by
  unfold line_search_index
  split
  · intro h; cases h
  · exact line_search_loop_fuel note.lines q _ _ _ (by omega)

theorem line_insert_index_fuel (note : jit_note_t) (q : Int) :
    line_insert_index note q ≠ .error .no_fuel := by
  unfold line_insert_index
  split
  · intro h; cases h
  · exact line_insert_loop_fuel note.lines q _ _ _ (by omega)

theorem get_note_line_fuel (note : jit_note_t) (line : jit_line_t) (q : Int) :
    _jit_get_note_line note line q ≠ .error .no_fuel := by
  unfold _jit_get_note_line
  cases hs : offset_search_index line q with
  | error e =>
    simp only []
    intro h
    cases h
    exact offset_search_loop_fuel line.entries q _ _ _ (by omega) hs
  | ok index =>
    simp only []
    cases line.entries[index]? with
    | none => intro h; cases h
    | some e => intro h; cases h

theorem get_note_at_fuel (note : jit_note_t) (code : Nat) :
    _jit_get_note_at note code ≠ .error .no_fuel := by
  unfold _jit_get_note_at
  split
  · intro h; cases h
  · simp only []
    cases hs : line_search_index note (int32 ((code : Int) - (note.code : Int))) with
    | error e =>
      simp only []
      intro h
      cases h
      exact line_search_index_fuel note _ hs
    | ok index =>
      simp only []
      cases note.lines[index]? with
      | none => intro h; cases h
      | some line =>
        simp only []
        split
        · cases hl : line_start note.lines 0 with
          | error e =>
            rw [line_start_fuel note.lines 0 e hl]
            intro h
            cases h
          | ok first =>
            simp only []
            split
            · intro h; cases h
            · exact get_note_line_fuel note line _
        · exact get_note_line_fuel note line _

theorem get_note_fuel (jit : jit_state_t) (code : Nat) :
    _jit_get_note jit code ≠ .error .no_fuel := by
  unfold _jit_get_note
  cases hs : _note_search_index jit code with
  | error e =>
    simp only []
    intro h
    cases h
    exact note_search_loop_fuel jit.note_ptr code _ _ _ (by omega) hs
  | ok index =>
    simp only []
    cases jit.note_ptr[index]? with
    | none => intro h; cases h
    | some note => exact get_note_at_fuel note code

theorem get_note_line_total (note : jit_note_t) (line : jit_line_t) (q : Int) :
    ∃ r, _jit_get_note_line note line q = .ok r := by
  unfold _jit_get_note_line
  obtain ⟨i, hi, _⟩ := offset_search_index_spec line q
  rw [hi]
  simp only []
  cases line.entries[i]? with
  | none => exact ⟨_, rfl⟩
  | some e => exact ⟨_, rfl⟩

theorem get_note_at_total (note : jit_note_t) (code : Nat)
    (hne : lines_nonempty note.lines) : ∃ r, _jit_get_note_at note code = .ok r := by
  unfold _jit_get_note_at
  split
  · exact ⟨_, rfl⟩
  · simp only []
    obtain ⟨i, hi, _⟩ := line_search_index_spec note (int32 ((code : Int) - (note.code : Int))) hne
    rw [hi]
    simp only []
    cases hl : note.lines[i]? with
    | none => exact ⟨_, rfl⟩
    | some line =>
      simp only []
      split
      · rename_i hi0
        rw [hi0] at hl
        have hls := line_start_eq note.lines hne 0
        rw [List.getElem?_map, hl] at hls
        simp only [Option.map] at hls
        rw [hls]
        simp only []
        split
        · exact ⟨_, rfl⟩
        · exact get_note_line_total note line _
      · exact get_note_line_total note line _

/-- C30: every query terminates.  With fuel `top - bot` or more, none of the
five binary-search loops runs out of fuel, in any state and for any key: on
each iteration that goes on, `top - bot` gets smaller.  So the five search
functions and `_jit_get_note` never run out of fuel; and on every index whose
segments each have an entry, `_jit_get_note` returns a result, a location or
not found, for every address. -/
theorem get_note_terminates (jit : jit_state_t) (code : Nat) :
    (∀ fuel bot top, top - bot ≤ fuel →
        _note_search_index_loop jit.note_ptr code fuel bot top ≠ .error .no_fuel) ∧
      (∀ lines offset fuel bot top, top - bot ≤ fuel →
        line_search_index_loop lines offset fuel bot top ≠ .error .no_fuel) ∧
      (∀ entries offset fuel bot top, top - bot ≤ fuel →
        offset_search_index_loop entries offset fuel bot top ≠ .error .no_fuel) ∧
      (∀ lines offset fuel bot top, top - bot ≤ fuel →
        line_insert_index_loop lines offset fuel bot top ≠ .error .no_fuel) ∧
      (∀ entries offset fuel bot top, top - bot ≤ fuel →
        offset_insert_index_loop entries offset fuel bot top ≠ .error .no_fuel) ∧
      _note_search_index jit code ≠ .error .no_fuel ∧
      (∀ note offset, line_search_index note offset ≠ .error .no_fuel ∧
        line_insert_index note offset ≠ .error .no_fuel) ∧
      (∀ line offset, offset_search_index line offset ≠ .error .no_fuel ∧
        offset_insert_index line offset ≠ .error .no_fuel) ∧
      _jit_get_note jit code ≠ .error .no_fuel ∧
      ((∀ n ∈ jit.note_ptr, lines_nonempty n.lines) →
        ∃ r, _jit_get_note jit code = .ok r) := by
  refine ⟨note_search_loop_fuel jit.note_ptr code, line_search_loop_fuel,
    offset_search_loop_fuel, line_insert_loop_fuel, offset_insert_loop_fuel,
    note_search_loop_fuel jit.note_ptr code _ _ _ (by omega),
    fun note offset => ⟨line_search_index_fuel note offset, line_insert_index_fuel note offset⟩,
    fun line offset => ⟨offset_search_loop_fuel line.entries offset _ _ _ (by omega),
      offset_insert_loop_fuel line.entries offset _ _ _ (by omega)⟩,
    get_note_fuel jit code, ?_⟩
  intro hne
  unfold _jit_get_note _note_search_index
  obtain ⟨r, hr⟩ := note_search_loop_total jit.note_ptr code jit.note_ptr.length 0
    jit.note_ptr.length (by omega) (le_refl _)
  rw [hr]
  simp only []
  cases hn : jit.note_ptr[r]? with
  | none => exact ⟨_, rfl⟩
  | some note => exact get_note_at_total note code (hne note (List.getElem?_mem hn))

/-- C30 on the index `two_regions`: its segments each have an entry, so the
query at `0x1008` returns a result. -/
theorem get_note_terminates_witness :
    (∀ n ∈ two_regions.note_ptr, lines_nonempty n.lines) ∧
      ∃ r, _jit_get_note two_regions 0x1008 = .ok r :=
  ⟨by decide, (get_note_terminates two_regions 0x1008).2.2.2.2.2.2.2.2.2 (by decide)⟩

/-! ## Marks without a current region -/

theorem annotate_step_mark_current (node : jit_node_t) (link : List jit_node_t)
    (notes : List jit_note_t) (i : Nat) (n : jit_note_t) (file : String)
    (hcode : node.code = .jit_code_note) (hv : node.v = some file)
    (hn : notes[i]? = some n) :
    _jit_annotate_loop (node :: link) notes (some i) =
      match _jit_set_note n file (int32 node.w)
          (int32 ((node.u : Int) - (n.code : Int))) with
      | .error e => .error e
      | .ok n1 => _jit_annotate_loop link (notes.set i n1) (some i) := by
  simp only [_jit_annotate_loop, hcode, hv, hn]

theorem annotate_finish_skips (link : List jit_node_t) (notes : List jit_note_t) (i : Nat)
    (n : jit_note_t) (pc : Nat) (pre : List jit_node_t)
    (hloop : _jit_annotate_loop pre [] none = _jit_annotate_loop link notes (some i))
    (hskip : ∀ m ∈ link, m.code = .jit_code_note ∧ m.v = none) (hn : notes[i]? = some n) :
    _jit_annotate ⟨[], pre, pc⟩ =
      .ok ⟨notes.set i { n with size := (pc : Int) - (n.code : Int) }, pre, pc⟩ := by
  unfold _jit_annotate
  simp only [hloop, annotate_loop_skip_all link notes (some i) hskip, hn]

/-- A build from `two_marks_build` shows what C31 leaves out: the list has no
name node, the mark of `a.scm` at `0x1010` carries a file, and yet no region
starts at `0x1010`; the mark is recorded at offset `0x10` in the region
without a name that the mark at `0x1000` has created. -/
theorem annotate_second_mark_counterexample :
    (∀ m ∈ two_marks_build.note_head, m.code ≠ .jit_code_name) ∧
      two_marks_build.note_head[2]? = some ⟨.jit_code_note, 0x1010, some "a.scm", 2⟩ ∧
      _jit_annotate two_marks_build = .ok two_marks_built ∧
      two_marks_built.note_ptr =
        [⟨0x1000, none, [single_line "a.scm" 1 0, single_line "a.scm" 2 0x10], 0x20⟩] ∧
      (∀ n ∈ two_marks_built.note_ptr, n.code ≠ 0x1010) := by
  refine ⟨by decide, by decide, by decide, rfl, by decide⟩

/-- C31, amended: in a build from the empty index, a mark that carries a file
and has only marks without a file before it (so there is no current region)
creates a region without a name that starts at the address of the mark and
holds the mark as its one segment, at offset 0, with the line number of the
mark converted to `int`; when only marks without a file follow, the built
index is that one region, with the size up to the end of the code.  A mark
that carries a file while there is a current region creates no region: it is
passed to `_jit_set_note` on the current region with its address minus the
start of the region converted to `jit_int32_t`, which is that difference when
the difference is not negative and below `2^31`.  A mark without a file leaves
the index and the current region as they are, in every state. -/
theorem annotate_anonymous_region (pre link : List jit_node_t) (node : jit_node_t)
    (file : String) (hpre : ∀ m ∈ pre, m.code = .jit_code_note ∧ m.v = none)
    (hcode : node.code = .jit_code_note) (hv : node.v = some file) :
    _jit_annotate_loop (pre ++ node :: link) [] none =
        _jit_annotate_loop link
          [⟨node.u, none, [single_line file (int32 node.w) 0], 0⟩] (some 0) ∧
      (∀ pc : Nat, (∀ m ∈ link, m.code = .jit_code_note ∧ m.v = none) →
        _jit_annotate ⟨[], pre ++ node :: link, pc⟩ =
          .ok ⟨[⟨node.u, none, [single_line file (int32 node.w) 0],
              (pc : Int) - (node.u : Int)⟩],
            pre ++ node :: link, pc⟩) ∧
      (∀ (mark : jit_node_t) (rest : List jit_node_t) (notes : List jit_note_t) (i : Nat)
          (n : jit_note_t) (file1 : String),
        mark.code = .jit_code_note → mark.v = some file1 → notes[i]? = some n →
        _jit_annotate_loop (mark :: rest) notes (some i) =
            (match _jit_set_note n file1 (int32 mark.w)
                (int32 ((mark.u : Int) - (n.code : Int))) with
            | .error e => .error e
            | .ok n1 => _jit_annotate_loop rest (notes.set i n1) (some i)) ∧
          (n.code ≤ mark.u → (mark.u : Int) - (n.code : Int) < 2147483648 →
            int32 ((mark.u : Int) - (n.code : Int)) = (mark.u : Int) - (n.code : Int))) ∧
      (∀ (skip : jit_node_t) (rest : List jit_node_t) (notes : List jit_note_t)
          (note : Option Nat),
        skip.code = .jit_code_note → skip.v = none →
        _jit_annotate_loop (skip :: rest) notes note = _jit_annotate_loop rest notes note ∧
        _jit_annotate_loop [skip] notes note = .ok (notes, note)) := by
  have hloop : _jit_annotate_loop (pre ++ node :: link) [] none =
      _jit_annotate_loop link [⟨node.u, none, [single_line file (int32 node.w) 0], 0⟩]
        (some 0) := by
    rw [annotate_loop_append pre (node :: link) [] none,
      annotate_loop_skip_all pre [] none hpre]
    exact annotate_step_mark_nil node link file hcode hv
  refine ⟨hloop, ?_, ?_, ?_⟩
  · intro pc hskip
    have h := annotate_finish_skips link
      [⟨node.u, none, [single_line file (int32 node.w) 0], 0⟩] 0
      ⟨node.u, none, [single_line file (int32 node.w) 0], 0⟩ pc (pre ++ node :: link) hloop
      hskip (by simp)
    rw [h]
    rfl
  · intro mark rest notes i n file1 hc hv1 hn
    refine ⟨annotate_step_mark_current mark rest notes i n file1 hc hv1 hn, ?_⟩
    intro hle hlt
    exact int32_of_fits _ (by omega) hlt
  · intro skip rest notes note hc hv1
    refine ⟨annotate_step_skip skip rest notes note hc hv1, ?_⟩
    rw [annotate_step_skip skip [] notes note hc hv1]
    rfl

/-- C31, amended, on the first two nodes of `two_marks_build`: after the mark
without a file at `0x0ff0`, the mark of `a.scm` at `0x1000` creates the region
without a name at `0x1000`, and the built index is that region with the size
`0x20`. -/
theorem annotate_anonymous_region_witness :
    _jit_annotate ⟨[], [⟨.jit_code_note, 0x0ff0, none, 9⟩,
        ⟨.jit_code_note, 0x1000, some "a.scm", 1⟩], 0x1020⟩ =
      .ok ⟨[⟨0x1000, none, [single_line "a.scm" 1 0], 0x20⟩],
        [⟨.jit_code_note, 0x0ff0, none, 9⟩, ⟨.jit_code_note, 0x1000, some "a.scm", 1⟩],
        0x1020⟩ :=
  (annotate_anonymous_region [⟨.jit_code_note, 0x0ff0, none, 9⟩] []
    ⟨.jit_code_note, 0x1000, some "a.scm", 1⟩ "a.scm" (by decide) rfl rfl).2.1 0x1020
    (by decide)

/-! ## Regions without a segment -/

theorem get_note_at_no_lines (note : jit_note_t) (code : Nat) (hl : note.lines = []) :
    _jit_get_note_at note code = .ok none := by
  unfold _jit_get_note_at
  split
  · rfl
  · simp [line_search_index, hl]

theorem get_note_line_some (note : jit_note_t) (line : jit_line_t) (q : Int)
    (loc : jit_location_t) (h : _jit_get_note_line note line q = .ok (some loc)) :
    loc.name = note.name := by
  unfold _jit_get_note_line at h
  cases hs : offset_search_index line q with
  | error e =>
    rw [hs] at h
    cases h
  | ok index =>
    rw [hs] at h
    simp only [] at h
    cases he : line.entries[index]? with
    | none =>
      rw [he] at h
      cases h
    | some e =>
      rw [he] at h
      cases h
      rfl

theorem get_note_at_some (note : jit_note_t) (code : Nat) (loc : jit_location_t)
    (h : _jit_get_note_at note code = .ok (some loc)) :
    note.lines ≠ [] ∧ loc.name = note.name ∧ note_contains note code := by
  refine ⟨?_, ?_, ?_⟩
  · intro hl
    rw [get_note_at_no_lines note code hl] at h
    cases h
  · unfold _jit_get_note_at at h
    split at h
    · cases h
    · simp only [] at h
      cases hs : line_search_index note (int32 ((code : Int) - (note.code : Int))) with
      | error e =>
        rw [hs] at h
        cases h
      | ok index =>
        rw [hs] at h
        simp only [] at h
        cases hl : note.lines[index]? with
        | none =>
          rw [hl] at h
          cases h
        | some line =>
          rw [hl] at h
          simp only [] at h
          split at h
          · cases hf : line_start note.lines 0 with
            | error e =>
              rw [hf] at h
              cases h
            | ok first =>
              rw [hf] at h
              simp only [] at h
              split at h
              · cases h
              · exact get_note_line_some note line _ loc h
          · exact get_note_line_some note line _ loc h
  · by_contra hc
    rw [get_note_at_outside note code hc] at h
    cases h

theorem get_note_some (jit : jit_state_t) (code : Nat) (loc : jit_location_t)
    (h : _jit_get_note jit code = .ok (some loc)) :
    ∃ (k : Nat) (n : jit_note_t), jit.note_ptr[k]? = some n ∧ n.lines ≠ [] ∧
      loc.name = n.name ∧
      note_contains n code := by
  unfold _jit_get_note at h
  cases hs : _note_search_index jit code with
  | error e =>
    rw [hs] at h
    cases h
  | ok index =>
    rw [hs] at h
    simp only [] at h
    cases hn : jit.note_ptr[index]? with
    | none =>
      rw [hn] at h
      cases h
    | some note =>
      rw [hn] at h
      exact ⟨index, note, hn, get_note_at_some note code loc h⟩

/-- C32: for a region without segments and an address in its range
`[code, code + size)`, `_jit_get_note` returns not found, on every index whose
regions are ordered and do not overlap, and so on every index that
`_jit_annotate` builds from the empty index.  On every index, a location that
`_jit_get_note` returns carries the name of a region that has a segment and
contains the address. -/
theorem get_note_region_without_lines (jit : jit_state_t) (code k : Nat) (n : jit_note_t)
    (hk : jit.note_ptr[k]? = some n) (hl : n.lines = []) (hc : note_contains n code) :
    (notes_ordered jit.note_ptr → _jit_get_note jit code = .ok none) ∧
      (∀ jit0, jit0.note_ptr = [] → _jit_annotate jit0 = .ok jit →
        _jit_get_note jit code = .ok none) ∧
      (∀ loc, _jit_get_note jit code = .ok (some loc) →
        ∃ (k1 : Nat) (n1 : jit_note_t), jit.note_ptr[k1]? = some n1 ∧ n1.lines ≠ [] ∧
          loc.name = n1.name ∧
          note_contains n1 code) := by
  have hord : notes_ordered jit.note_ptr → _jit_get_note jit code = .ok none := by
    intro ho
    rw [get_note_of_contains jit code ho k n hk hc]
    exact get_note_at_no_lines n code hl
  refine ⟨hord, ?_, fun loc h => get_note_some jit code loc h⟩
  intro jit0 h0 hb
  apply hord
  rcases annotate_final_shape jit0 jit h0 hb with ⟨hnil, _⟩ | ⟨_, _, _, _, _, ho, _⟩
  · rw [hnil]
    exact List.Pairwise.nil
  · exact ho

/-- C32 on the index that `same_start_build` builds: the region `g` has no
segment and contains `0x1040`, and the query at `0x1040` returns not found. -/
theorem get_note_region_without_lines_witness :
    _jit_annotate same_start_build = .ok same_start_built ∧
      note_contains ⟨0x1000, some "g", [], 0x100⟩ 0x1040 ∧
      _jit_get_note same_start_built 0x1040 = .ok none :=
  ⟨by decide, by decide,
    (get_note_region_without_lines same_start_built 0x1040 1 ⟨0x1000, some "g", [], 0x100⟩
      (by decide) rfl (by decide)).2.1 same_start_build rfl (by decide)⟩

/-! ## The boundary between two regions -/

end JitNote
